import Mathlib

/-!
# The structural normalizer of `pkg/runtime/translate.go`

`Translate(obj)` rebuilds the value behind a pointer so that nil slices become
empty slices, and commits the rebuilt value in a single final assignment.
`translateRecursive(copy, original)` is the recursive builder.

## Embedding

The Go code works on `reflect.Value` handles.  The code is embedded twice.

### Tree embedding (`translateRecursive`, `Translate`)

A handle is modelled by

* the value it denotes, a finite tree `Val`, and
* its permission bits `Flag` (`flagStickyRO`, `flagEmbedRO` of package
  `reflect`).  Every `copy` handle the code builds is addressable
  (`reflect.New(..).Elem()`, `Value.Elem`, `Value.Field` of an addressable
  struct, `Value.Index` of a slice), so `copy.CanSet()` is "no read-only bit".

`translateRecursive` is the function from the value of `original` to the
content of `copy` after the call.  Its result is an `Outcome`: `ok c`
(returned `nil`, `copy` now holds `c`), `error msg` (returned a non-nil error)
or `panic msg` (a panic was raised, by the code or by `reflect`).

A tree has no sharing and no cycle: two pointers to one variable are two
copies of its value, and a cyclic graph is not representable.  This matters
in one place.  A child whose transformation fails is recovered by a shallow
assignment (`copy.Set(original)`), so what it refers to stays shared with the
original; if it refers back into the value being rebuilt, what it refers to
changes when the commit is made (`TranslateH_shared_field` is an example).
Of a recovered child the statements say that the builder assigns it the
original child, before the commit (C15), or that after the call it agrees with
the original up to the replacement of nil slices and nil maps by empty ones
(`sim`, C3).

### Store-passing embedding (`translateRecursiveH`, `TranslateH`)

Which memory a call writes is not visible in the tree embedding.  For C6 the
code is embedded over an explicit heap (`Heap`, `HVal`, `Place`): `copy` is a
location, `original` a location or a value, and each `reflect` call that
allocates or assigns is a step on the heap.  Recursion and loops are bounded
by a fuel argument; running out of it (`Status.overflow`) stands for a
recursion that does not end, as on a cyclic value.  `translateH_frame` shows
that the builder writes only into `copy` and into cells it allocates.
-/

namespace Runtime

/-- Visibility of a struct field: exported, unexported, or an embedded field of
an unexported type. -/
inductive Vis
  | exported
  | unexported
  | embedded
  deriving DecidableEq

/-- Map keys.  The code never inspects a key; it copies it and looks it up
again with `original.MapIndex(key)`.  `reflexive` is false for a key that is
not equal to itself (a NaN float, or a composite key holding one): such a key
is returned by `MapKeys` but not found by `MapIndex`. -/
structure Key where
  repr : String
  reflexive : Bool
  deriving DecidableEq

/-- Go values as trees.  `ty` is the rendering `Type().String()` of the static
type of the node; a leaf also carries the name of its kind. -/
inductive Val
  | leaf (kind ty data : String)
  | nilPtr (ty : String)
  | ptr (ty : String) (elem : Val)
  | nilIface (ty : String)
  | iface (ty : String) (held : Val)
  | struct (ty : String) (fields : List (Vis × Val))
  | array (ty : String) (elems : List Val)
  | nilSlice (ty : String)
  | slice (ty : String) (elems : List Val) (cap : Nat)
  | nilMap (ty : String)
  | map (ty : String) (entries : List (Key × Val))

/-- Rendering of `Value.Kind()`. -/
def Val.kind : Val → String
  | .leaf k _ _ => k
  | .nilPtr _ => "ptr"
  | .ptr _ _ => "ptr"
  | .nilIface _ => "interface"
  | .iface _ _ => "interface"
  | .struct _ _ => "struct"
  | .array _ _ => "array"
  | .nilSlice _ => "slice"
  | .slice _ _ _ => "slice"
  | .nilMap _ => "map"
  | .map _ _ => "map"

/-- Rendering of `Value.Type().String()`. -/
def Val.type : Val → String
  | .leaf _ t _ => t
  | .nilPtr t => t
  | .ptr t _ => t
  | .nilIface t => t
  | .iface t _ => t
  | .struct t _ => t
  | .array t _ => t
  | .nilSlice t => t
  | .slice t _ _ => t
  | .nilMap t => t
  | .map t _ => t

/-- The read-only bits of a `reflect.Value`. -/
structure Flag where
  sticky : Bool
  embed : Bool
  deriving DecidableEq

/-- No read-only bit: a handle not obtained through an unexported field. -/
def Flag.clear : Flag := ⟨false, false⟩

/-- The mask `flag & flagRO != 0`. -/
def Flag.isRO (f : Flag) : Bool := f.sticky || f.embed

/-- The method `flag.ro()`: `flagStickyRO` when any read-only bit is set. -/
def Flag.ro (f : Flag) : Flag := ⟨f.isRO, false⟩

/-- Bits of `v.Field(i)`: `flagStickyRO` is inherited, `flagEmbedRO` is
cleared, and an unexported field sets one of the two. -/
def Flag.field (f : Flag) : Vis → Flag
  | .exported => ⟨f.sticky, false⟩
  | .unexported => ⟨true, false⟩
  | .embedded => ⟨f.sticky, true⟩

/-- Result of one call of `translateRecursive`. -/
inductive Outcome (α : Type)
  | ok (a : α)
  | error (msg : String)
  | panic (msg : String)

/-- Panic of `Value.Set` on a handle with a read-only bit (the destination by
`mustBeAssignable`, the source by `mustBeExported`). -/
def setPanic : String :=
  "reflect: reflect.Value.Set using value obtained using unexported field"

/-- Panic of `Value.SetMapIndex` on a key or element with a read-only bit. -/
def setMapIndexPanic : String :=
  "reflect: reflect.Value.SetMapIndex using value obtained using unexported field"

/-- Panic of `Value.Type` on the zero `Value`. -/
def typePanic : String := "reflect: call of reflect.Value.Type on zero Value"

/-- Panic of `reflect.MakeSlice` on a type that is not a slice type. -/
def makeSliceKindPanic : String := "reflect.MakeSlice of non-slice type"

/-- Panic of `reflect.MakeSlice` when the length exceeds the capacity. -/
def makeSliceLenPanic : String := "reflect.MakeSlice: len > cap"

/-- The message built by `fmt.Sprintf` in the interface case. -/
def interfacePanic (held : Val) (err : String) : String :=
  "can not translate interface, " ++ held.kind ++ " " ++ held.type ++ " to "
    ++ held.kind ++ " " ++ held.type ++ ", " ++ err

/-- The method `Value.SetMapIndex` on the entries of a map. -/
def SetMapIndex : List (Key × Val) → Key → Val → List (Key × Val)
  | [], k, v => [(k, v)]
  | (k', v') :: m, k, v =>
      if k' = k then (k, v) :: m else (k', v') :: SetMapIndex m k v

mutual
/-- The function `translateRecursive(copy, original)`: `cf` are the bits of
`copy`, `og` the bits of `original`, the third argument the value of
`original`. -/
def translateRecursive : Flag → Flag → Val → Outcome Val
  -- default: copy.CanSet() ? copy.Set(original) : error
  | cf, og, .leaf k t d =>
      if cf.isRO then .error ("cannot set: " ++ t)
      else if og.isRO then .panic setPanic
      else .ok (.leaf k t d)
  -- reflect.Ptr with !originalValue.IsValid(): return nil, copy stays nil
  | _, _, .nilPtr t => .ok (.nilPtr t)
  -- reflect.Ptr: copy.Set(reflect.New(..)); recurse on (copy.Elem(), originalValue)
  | cf, og, .ptr t e =>
      if cf.isRO then .panic setPanic
      else match translateRecursive cf og e with
        | .panic m => .panic m
        | .ok e' => .ok (.ptr t e')
        | .error _ => if og.isRO then .panic setPanic else .ok (.ptr t e)
  -- reflect.Interface: originalValue.Type() on the zero Value
  | _, _, .nilIface _ => .panic typePanic
  -- reflect.Interface: recurse on (reflect.New(..).Elem(), original.Elem())
  | cf, og, .iface t held =>
      match translateRecursive Flag.clear og.ro held with
        | .panic m => .panic m
        | .error e => .panic (interfacePanic held e)
        | .ok held' => if cf.isRO then .panic setPanic else .ok (.iface t held')
  -- reflect.Struct
  | cf, og, .struct t fs =>
      match translateFields cf og fs with
        | .panic m => .panic m
        | .error e => .error e
        | .ok fs' => .ok (.struct t fs')
  -- reflect.Array falls through to reflect.MakeSlice(original.Type(), ..)
  | _, _, .array _ _ => .panic makeSliceKindPanic
  -- reflect.Slice, nil: copy.Set(reflect.MakeSlice(t, 0, 0))
  | cf, _, .nilSlice t =>
      if cf.isRO then .panic setPanic else .ok (.slice t [] 0)
  -- reflect.Slice: copy.Set(reflect.MakeSlice(t, len, cap)), then the elements
  | cf, og, .slice t es c =>
      if c < es.length then .panic makeSliceLenPanic
      else if cf.isRO then .panic setPanic
      else match translateElems cf.ro og.ro es with
        | .panic m => .panic m
        | .error e => .error e
        | .ok es' => .ok (.slice t es' c)
  -- reflect.Map, nil: copy.Set(reflect.MakeMap(t)), no key to visit
  | cf, _, .nilMap t =>
      if cf.isRO then .panic setPanic else .ok (.map t [])
  -- reflect.Map: copy.Set(reflect.MakeMap(t)), then the entries
  | cf, og, .map t es =>
      if cf.isRO then .panic setPanic
      else match translateEntries og [] es with
        | .panic m => .panic m
        | .error e => .error e
        | .ok es' => .ok (.map t es')
/-- The loop over the fields of a struct, from field `i` on. -/
def translateFields : Flag → Flag → List (Vis × Val) → Outcome (List (Vis × Val))
  | _, _, [] => .ok []
  | cf, og, (vis, v) :: fs =>
      match translateRecursive (cf.field vis) (og.field vis) v with
        | .panic m => .panic m
        | .ok v' =>
            match translateFields cf og fs with
              | .panic m => .panic m
              | .error e => .error e
              | .ok fs' => .ok ((vis, v') :: fs')
        | .error _ =>
            -- copy.Field(i).CanSet() ? copy.Field(i).Set(original.Field(i)) : error
            if (cf.field vis).isRO then .error ("cannot set: " ++ v.type)
            else if (og.field vis).isRO then .panic setPanic
            else match translateFields cf og fs with
              | .panic m => .panic m
              | .error e => .error e
              | .ok fs' => .ok ((vis, v) :: fs')
/-- The loop over the elements of a slice, from index `i` on; `cf` and `og`
are the bits of `copy.Index(i)` and `original.Index(i)`. -/
def translateElems : Flag → Flag → List Val → Outcome (List Val)
  | _, _, [] => .ok []
  | cf, og, v :: vs =>
      match translateRecursive cf og v with
        | .panic m => .panic m
        | .ok v' =>
            match translateElems cf og vs with
              | .panic m => .panic m
              | .error e => .error e
              | .ok vs' => .ok (v' :: vs')
        | .error _ =>
            -- copy.Index(i).Set(original.Index(i))
            if cf.isRO || og.isRO then .panic setPanic
            else match translateElems cf og vs with
              | .panic m => .panic m
              | .error e => .error e
              | .ok vs' => .ok (v :: vs')
/-- The loop over `original.MapKeys()`; `acc` are the entries `copy` holds so
far, `og` the bits of the map `original` (its keys and values carry
`og.ro`); the value of an entry is `original.MapIndex(key)`. -/
def translateEntries : Flag → List (Key × Val) → List (Key × Val) →
    Outcome (List (Key × Val))
  | _, acc, [] => .ok acc
  | og, acc, (k, v) :: es =>
      -- original.MapIndex(key) is the zero Value for a key unequal to itself,
      -- and originalValue.Type() panics on it
      if !k.reflexive then .panic typePanic
      else match translateRecursive Flag.clear og.ro v with
        | .panic m => .panic m
        | .ok v' =>
            -- copy.SetMapIndex(key, copyValue)
            if og.isRO then .panic setMapIndexPanic
            else translateEntries og (SetMapIndex acc k v') es
        | .error _ =>
            -- copy.SetMapIndex(key, originalValue)
            if og.isRO then .panic setMapIndexPanic
            else translateEntries og (SetMapIndex acc k v) es
end

/-- What the caller observes of one call `Translate(obj)`: the panic message
when the call aborts, and the value `obj` denotes afterwards (for a pointer,
its pointee included). -/
structure Exit where
  panic : Option String
  obj : Option Val

/-- The function `Translate(obj)`.  `obj` is the `interface{}` argument:
`none` is the nil interface, `some v` holds the concrete value `v`. -/
def Translate (obj : Option Val) : Exit :=
  match obj with
  | some (.ptr t e) =>
      match translateRecursive Flag.clear Flag.clear (.ptr t e) with
      | .panic m => ⟨some m, obj⟩
      | .error err => ⟨some ("translate failed, err: " ++ err), obj⟩
      -- original.Elem().Set(copy.Elem())
      | .ok (.ptr _ e') => ⟨none, some (.ptr t e')⟩
      | .ok _ => ⟨some "reflect: call of reflect.Value.Set on zero Value", obj⟩
  | some (.nilPtr _) => ⟨some "must be not nil", obj⟩
  | _ => ⟨some "must be pointer", obj⟩

/-- The test `original.Kind() == reflect.Ptr` on `reflect.ValueOf(obj)`. -/
def isPointer : Option Val → Bool
  | some (.ptr _ _) => true
  | some (.nilPtr _) => true
  | _ => false

/-! ## Reference notions used by the statements -/

mutual
/-- The reference function `norm`: nil slice to empty slice, nil map to empty
map, and `norm` applied to every element, map value, pointee, held value and
field; a leaf is itself.  (Arrays and nil interfaces, which the reference
function does not describe, are left as they are.) -/
def norm : Val → Val
  | .leaf k t d => .leaf k t d
  | .nilPtr t => .nilPtr t
  | .ptr t e => .ptr t (norm e)
  | .nilIface t => .nilIface t
  | .iface t held => .iface t (norm held)
  | .struct t fs => .struct t (normFields fs)
  | .array t es => .array t es
  | .nilSlice t => .slice t [] 0
  | .slice t es c => .slice t (normElems es) c
  | .nilMap t => .map t []
  | .map t es => .map t (normEntries es)
/-- The function `norm` field by field. -/
def normFields : List (Vis × Val) → List (Vis × Val)
  | [] => []
  | (vis, v) :: fs => (vis, norm v) :: normFields fs
/-- The function `norm` element by element. -/
def normElems : List Val → List Val
  | [] => []
  | v :: vs => norm v :: normElems vs
/-- The function `norm` on every map value, keys unchanged. -/
def normEntries : List (Key × Val) → List (Key × Val)
  | [] => []
  | (k, v) :: es => (k, norm v) :: normEntries es
end

mutual
/-- Well-formed inputs: a finite tree built only from structs with exported
fields, slices (capacity at least the length), maps (pairwise distinct keys,
each equal to itself), pointers, non-nil interfaces and leaves; no unexported
field, no array, no nil interface, no key such as NaN. -/
def wellFormed : Val → Bool
  | .leaf _ _ _ => true
  | .nilPtr _ => true
  | .ptr _ e => wellFormed e
  | .nilIface _ => false
  | .iface _ held => wellFormed held
  | .struct _ fs => wellFormedFields fs
  | .array _ _ => false
  | .nilSlice _ => true
  | .slice _ es c => decide (es.length ≤ c) && wellFormedElems es
  | .nilMap _ => true
  | .map _ es => decide ((es.map Prod.fst).Nodup) && wellFormedEntries es
/-- Well-formedness of the fields of a struct: all exported. -/
def wellFormedFields : List (Vis × Val) → Bool
  | [] => true
  | (vis, v) :: fs => decide (vis = Vis.exported) && wellFormed v && wellFormedFields fs
/-- Well-formedness of the elements of a slice. -/
def wellFormedElems : List Val → Bool
  | [] => true
  | v :: vs => wellFormed v && wellFormedElems vs
/-- Well-formedness of the entries of a map: every key equal to itself, every
value well-formed. -/
def wellFormedEntries : List (Key × Val) → Bool
  | [] => true
  | (k, v) :: es => k.reflexive && wellFormed v && wellFormedEntries es
end

mutual
/-- No struct anywhere in the value has an unexported field. -/
def exportedOnly : Val → Bool
  | .leaf _ _ _ => true
  | .nilPtr _ => true
  | .ptr _ e => exportedOnly e
  | .nilIface _ => true
  | .iface _ held => exportedOnly held
  | .struct _ fs => exportedOnlyFields fs
  | .array _ es => exportedOnlyElems es
  | .nilSlice _ => true
  | .slice _ es _ => exportedOnlyElems es
  | .nilMap _ => true
  | .map _ es => exportedOnlyEntries es
/-- No unexported field in or below the given fields. -/
def exportedOnlyFields : List (Vis × Val) → Bool
  | [] => true
  | (vis, v) :: fs => decide (vis = Vis.exported) && exportedOnly v && exportedOnlyFields fs
/-- No unexported field below the given elements. -/
def exportedOnlyElems : List Val → Bool
  | [] => true
  | v :: vs => exportedOnly v && exportedOnlyElems vs
/-- No unexported field below the given map values. -/
def exportedOnlyEntries : List (Key × Val) → Bool
  | [] => true
  | (_, v) :: es => exportedOnly v && exportedOnlyEntries es
end

mutual
/-- Representation invariant of Go maps: in every map of the value the keys
are pairwise distinct. -/
def distinctKeys : Val → Bool
  | .leaf _ _ _ => true
  | .nilPtr _ => true
  | .ptr _ e => distinctKeys e
  | .nilIface _ => true
  | .iface _ held => distinctKeys held
  | .struct _ fs => distinctKeysFields fs
  | .array _ es => distinctKeysElems es
  | .nilSlice _ => true
  | .slice _ es _ => distinctKeysElems es
  | .nilMap _ => true
  | .map _ es => decide ((es.map Prod.fst).Nodup) && distinctKeysEntries es
/-- Distinct keys in every map below the given fields. -/
def distinctKeysFields : List (Vis × Val) → Bool
  | [] => true
  | (_, v) :: fs => distinctKeys v && distinctKeysFields fs
/-- Distinct keys in every map below the given elements. -/
def distinctKeysElems : List Val → Bool
  | [] => true
  | v :: vs => distinctKeys v && distinctKeysElems vs
/-- Distinct keys in every map below the given map values. -/
def distinctKeysEntries : List (Key × Val) → Bool
  | [] => true
  | (_, v) :: es => distinctKeys v && distinctKeysEntries es
end

mutual
/-- No nil slice anywhere in the value. -/
def noNilSlice : Val → Bool
  | .leaf _ _ _ => true
  | .nilPtr _ => true
  | .ptr _ e => noNilSlice e
  | .nilIface _ => true
  | .iface _ held => noNilSlice held
  | .struct _ fs => noNilSliceFields fs
  | .array _ es => noNilSliceElems es
  | .nilSlice _ => false
  | .slice _ es _ => noNilSliceElems es
  | .nilMap _ => true
  | .map _ es => noNilSliceEntries es
/-- No nil slice in or below the given fields. -/
def noNilSliceFields : List (Vis × Val) → Bool
  | [] => true
  | (_, v) :: fs => noNilSlice v && noNilSliceFields fs
/-- No nil slice in or below the given elements. -/
def noNilSliceElems : List Val → Bool
  | [] => true
  | v :: vs => noNilSlice v && noNilSliceElems vs
/-- No nil slice in or below the given map values. -/
def noNilSliceEntries : List (Key × Val) → Bool
  | [] => true
  | (_, v) :: es => noNilSlice v && noNilSliceEntries es
end

mutual
/-- The relation "same value up to nil-to-empty": `sim v r` holds when `r` has
the shape, the types and the leaves of `v`, a nil slice of `v` being in `r`
either that nil slice or the empty slice of the same type (capacity 0), and a
nil map of `v` being in `r` either that nil map or the empty map of the same
type. -/
def sim : Val → Val → Bool
  | .leaf k t d, r =>
      match r with
      | .leaf k' t' d' => k == k' && t == t' && d == d'
      | _ => false
  | .nilPtr t, r =>
      match r with
      | .nilPtr t' => t == t'
      | _ => false
  | .ptr t e, r =>
      match r with
      | .ptr t' e' => t == t' && sim e e'
      | _ => false
  | .nilIface t, r =>
      match r with
      | .nilIface t' => t == t'
      | _ => false
  | .iface t held, r =>
      match r with
      | .iface t' held' => t == t' && sim held held'
      | _ => false
  | .struct t fs, r =>
      match r with
      | .struct t' fs' => t == t' && simFields fs fs'
      | _ => false
  | .array t es, r =>
      match r with
      | .array t' es' => t == t' && simElems es es'
      | _ => false
  | .nilSlice t, r =>
      match r with
      | .nilSlice t' => t == t'
      | .slice t' [] c => t == t' && c == 0
      | _ => false
  | .slice t es c, r =>
      match r with
      | .slice t' es' c' => t == t' && c == c' && simElems es es'
      | _ => false
  | .nilMap t, r =>
      match r with
      | .nilMap t' => t == t'
      | .map t' [] => t == t'
      | _ => false
  | .map t es, r =>
      match r with
      | .map t' es' => t == t' && simEntries es es'
      | _ => false
termination_by structural v => v
/-- The relation `sim` field by field, visibilities equal. -/
def simFields : List (Vis × Val) → List (Vis × Val) → Bool
  | [], r => r.isEmpty
  | (vis, v) :: fs, r =>
      match r with
      | (vis', v') :: fs' => decide (vis = vis') && sim v v' && simFields fs fs'
      | [] => false
termination_by structural l => l
/-- The relation `sim` element by element. -/
def simElems : List Val → List Val → Bool
  | [], r => r.isEmpty
  | v :: vs, r =>
      match r with
      | v' :: vs' => sim v v' && simElems vs vs'
      | [] => false
termination_by structural l => l
/-- The relation `sim` entry by entry, keys equal. -/
def simEntries : List (Key × Val) → List (Key × Val) → Bool
  | [], r => r.isEmpty
  | (k, v) :: es, r =>
      match r with
      | (k', v') :: es' => decide (k = k') && sim v v' && simEntries es es'
      | [] => false
termination_by structural l => l
end

/-- One step from a value to a child: the pointee of a pointer, the value held
by an interface, field `i` of a struct, element `i` of a slice or array, the
value under key `k` of a map. -/
inductive Step
  | deref
  | held
  | field (i : Nat)
  | index (i : Nat)
  | key (k : Key)

/-- The child of a value one step away, if there is one. -/
def Val.child : Step → Val → Option Val
  | .deref, .ptr _ e => some e
  | .held, .iface _ h => some h
  | .field i, .struct _ fs => fs[i]?.map Prod.snd
  | .index i, .slice _ es _ => es[i]?
  | .index i, .array _ es => es[i]?
  | .key k, .map _ es => es.lookup k
  | _, _ => none

/-- The value found by following a path of steps. -/
def Val.follow : List Step → Val → Option Val
  | [], v => some v
  | s :: path, v =>
      match v.child s with
      | some c => c.follow path
      | none => none

/-- A panic message that is neither of the two messages of the entry guard of
`Translate`. -/
def notGuardMsg (m : String) : Prop := m ≠ "must be pointer" ∧ m ≠ "must be not nil"

/-- Result `r` of one child `v` inside a container that recovers locally:
either the child was transformed into `r`, or its transformation returned an
error and `r` is the original child, written back through settable handles. -/
def childResult (cf og : Flag) (v r : Val) : Prop :=
  translateRecursive cf og v = .ok r ∨
    ((∃ m, translateRecursive cf og v = .error m) ∧ r = v ∧ cf.isRO = false ∧ og.isRO = false)

/-- The entries of `copy` after the calls `copy.SetMapIndex(k, v)` for the
pairs of `l`, in order. -/
def setAll (acc l : List (Key × Val)) : List (Key × Val) :=
  l.foldl (fun a e => SetMapIndex a e.1 e.2) acc

/-- The value a recovering container (a struct through a settable field, a
slice, a map) stores for a child `v`: the transformed child when its
transformation succeeds, the original child when it does not. -/
def stored (cf og : Flag) (v : Val) : Val :=
  match translateRecursive cf og v with
  | .ok r => r
  | _ => v

/-- Field `f` of a struct escalates: its transformation returns an error while
the destination `copy.Field(i)` is not settable. -/
def fieldEscalates (cf og : Flag) (f : Vis × Val) : Prop :=
  (∃ m, translateRecursive (cf.field f.1) (og.field f.1) f.2 = .error m) ∧
    (cf.field f.1).isRO = true

mutual
/-- Same type at every node: equal type names (and kinds of leaves), structs
with the same fields, slices of the same length, maps with the same keys,
pointers and interfaces both nil or both holding values of the same type.  A
nil slice has length 0 and a nil map has no key. -/
def sameType : Val → Val → Bool
  | .leaf k t _, r =>
      match r with
      | .leaf k' t' _ => k == k' && t == t'
      | _ => false
  | .nilPtr t, r =>
      match r with
      | .nilPtr t' => t == t'
      | _ => false
  | .ptr t e, r =>
      match r with
      | .ptr t' e' => t == t' && sameType e e'
      | _ => false
  | .nilIface t, r =>
      match r with
      | .nilIface t' => t == t'
      | _ => false
  | .iface t held, r =>
      match r with
      | .iface t' held' => t == t' && sameType held held'
      | _ => false
  | .struct t fs, r =>
      match r with
      | .struct t' fs' => t == t' && sameTypeFields fs fs'
      | _ => false
  | .array t es, r =>
      match r with
      | .array t' es' => t == t' && sameTypeElems es es'
      | _ => false
  | .nilSlice t, r =>
      match r with
      | .nilSlice t' => t == t'
      | .slice t' [] _ => t == t'
      | _ => false
  | .slice t es _, r =>
      match r with
      | .slice t' es' _ => t == t' && sameTypeElems es es'
      | _ => false
  | .nilMap t, r =>
      match r with
      | .nilMap t' => t == t'
      | .map t' [] => t == t'
      | _ => false
  | .map t es, r =>
      match r with
      | .map t' es' => t == t' && sameTypeEntries es es'
      | _ => false
termination_by structural v => v
/-- Same fields: as many, with the same visibility and type. -/
def sameTypeFields : List (Vis × Val) → List (Vis × Val) → Bool
  | [], r => r.isEmpty
  | (vis, v) :: fs, r =>
      match r with
      | (vis', v') :: fs' => decide (vis = vis') && sameType v v' && sameTypeFields fs fs'
      | [] => false
termination_by structural l => l
/-- Same length and the same type element by element. -/
def sameTypeElems : List Val → List Val → Bool
  | [], r => r.isEmpty
  | v :: vs, r =>
      match r with
      | v' :: vs' => sameType v v' && sameTypeElems vs vs'
      | [] => false
termination_by structural l => l
/-- Same keys and the same type value by value. -/
def sameTypeEntries : List (Key × Val) → List (Key × Val) → Bool
  | [], r => r.isEmpty
  | (k, v) :: es, r =>
      match r with
      | (k', v') :: es' => decide (k = k') && sameType v v' && sameTypeEntries es es'
      | [] => false
termination_by structural l => l
end

mutual
/-- Number of nodes of a value: the value itself and, recursively, its
children (pointee, held value, fields, elements, map values). -/
def nodes : Val → Nat
  | .leaf _ _ _ => 1
  | .nilPtr _ => 1
  | .ptr _ e => 1 + nodes e
  | .nilIface _ => 1
  | .iface _ held => 1 + nodes held
  | .struct _ fs => 1 + nodesFields fs
  | .array _ es => 1 + nodesElems es
  | .nilSlice _ => 1
  | .slice _ es _ => 1 + nodesElems es
  | .nilMap _ => 1
  | .map _ es => 1 + nodesEntries es
/-- Number of nodes in and below the given fields. -/
def nodesFields : List (Vis × Val) → Nat
  | [] => 0
  | (_, v) :: fs => nodes v + nodesFields fs
/-- Number of nodes in and below the given elements. -/
def nodesElems : List Val → Nat
  | [] => 0
  | v :: vs => nodes v + nodesElems vs
/-- Number of nodes in and below the given map values. -/
def nodesEntries : List (Key × Val) → Nat
  | [] => 0
  | (_, v) :: es => nodes v + nodesEntries es
end

mutual
/-- Nesting depth of a value: 1 for a value without children, one more than
the deepest child otherwise. -/
def nesting : Val → Nat
  | .leaf _ _ _ => 1
  | .nilPtr _ => 1
  | .ptr _ e => 1 + nesting e
  | .nilIface _ => 1
  | .iface _ held => 1 + nesting held
  | .struct _ fs => 1 + nestingFields fs
  | .array _ es => 1 + nestingElems es
  | .nilSlice _ => 1
  | .slice _ es _ => 1 + nestingElems es
  | .nilMap _ => 1
  | .map _ es => 1 + nestingEntries es
/-- Nesting depth of the deepest of the given fields, 0 if there is none. -/
def nestingFields : List (Vis × Val) → Nat
  | [] => 0
  | (_, v) :: fs => max (nesting v) (nestingFields fs)
/-- Nesting depth of the deepest of the given elements, 0 if there is none. -/
def nestingElems : List Val → Nat
  | [] => 0
  | v :: vs => max (nesting v) (nestingElems vs)
/-- Nesting depth of the deepest of the given map values, 0 if there is
none. -/
def nestingEntries : List (Key × Val) → Nat
  | [] => 0
  | (_, v) :: es => max (nesting v) (nestingEntries es)
end

mutual
/-- Equality of values with maps compared as key-to-value mappings: `mapEq v w`
holds when `w` is `v` up to the order in which the entries of each map are
listed (maps with pairwise distinct keys). -/
def mapEq : Val → Val → Bool
  | .leaf k t d, r =>
      match r with
      | .leaf k' t' d' => k == k' && t == t' && d == d'
      | _ => false
  | .nilPtr t, r =>
      match r with
      | .nilPtr t' => t == t'
      | _ => false
  | .ptr t e, r =>
      match r with
      | .ptr t' e' => t == t' && mapEq e e'
      | _ => false
  | .nilIface t, r =>
      match r with
      | .nilIface t' => t == t'
      | _ => false
  | .iface t held, r =>
      match r with
      | .iface t' held' => t == t' && mapEq held held'
      | _ => false
  | .struct t fs, r =>
      match r with
      | .struct t' fs' => t == t' && mapEqFields fs fs'
      | _ => false
  | .array t es, r =>
      match r with
      | .array t' es' => t == t' && mapEqElems es es'
      | _ => false
  | .nilSlice t, r =>
      match r with
      | .nilSlice t' => t == t'
      | _ => false
  | .slice t es c, r =>
      match r with
      | .slice t' es' c' => t == t' && c == c' && mapEqElems es es'
      | _ => false
  | .nilMap t, r =>
      match r with
      | .nilMap t' => t == t'
      | _ => false
  | .map t es, r =>
      match r with
      | .map t' es' =>
          t == t' && mapEqEntries es es' &&
            es'.all fun p => es.any fun q => decide (q.1 = p.1)
      | _ => false
termination_by structural v => v
/-- The relation `mapEq` field by field, visibilities equal. -/
def mapEqFields : List (Vis × Val) → List (Vis × Val) → Bool
  | [], r => r.isEmpty
  | (vis, v) :: fs, r =>
      match r with
      | (vis', v') :: fs' => decide (vis = vis') && mapEq v v' && mapEqFields fs fs'
      | [] => false
termination_by structural l => l
/-- The relation `mapEq` element by element. -/
def mapEqElems : List Val → List Val → Bool
  | [], r => r.isEmpty
  | v :: vs, r =>
      match r with
      | v' :: vs' => mapEq v v' && mapEqElems vs vs'
      | [] => false
termination_by structural l => l
/-- Every entry of the first list has, under the same key, a `mapEq` value in
the second list. -/
def mapEqEntries : List (Key × Val) → List (Key × Val) → Bool
  | [], _ => true
  | (k, v) :: es, r =>
      (r.any fun p => decide (p.1 = k) && mapEq v p.2) && mapEqEntries es r
termination_by structural l => l
end

/-- Two outcomes agree: both succeed with related results, or both return an
error, or both abort. -/
def Outcome.agree {α : Type} (R : α → α → Prop) : Outcome α → Outcome α → Prop
  | .ok a, .ok b => R a b
  | .error _, .error _ => True
  | .panic _, .panic _ => True
  | _, _ => False

/-- The call returned an error. -/
def Outcome.isError {α : Type} : Outcome α → Bool
  | .error _ => true
  | _ => false

mutual
/-- The relation "rebuilt from": `rebuilt cf og v r` holds when `r` is `v`
with every nil slice replaced by the empty slice and every nil map by the empty
map of the same type, except inside the children (pointee, field, element, map
value) whose transformation returned an error: such a child is recovered, and
is only required to agree with the original up to nil-to-empty (`sim`).
An array or a nil interface is rebuilt from nothing. -/
def rebuilt : Flag → Flag → Val → Val → Bool
  | _, _, .leaf k t d, r =>
      match r with
      | .leaf k' t' d' => k == k' && t == t' && d == d'
      | _ => false
  | _, _, .nilPtr t, r =>
      match r with
      | .nilPtr t' => t == t'
      | _ => false
  | cf, og, .ptr t e, r =>
      match r with
      | .ptr t' e' =>
          t == t' &&
            if (translateRecursive cf og e).isError then sim e e' else rebuilt cf og e e'
      | _ => false
  | _, _, .nilIface _, _ => false
  | _, og, .iface t held, r =>
      match r with
      | .iface t' held' => t == t' && rebuilt Flag.clear og.ro held held'
      | _ => false
  | cf, og, .struct t fs, r =>
      match r with
      | .struct t' fs' => t == t' && rebuiltFields cf og fs fs'
      | _ => false
  | _, _, .array _ _, _ => false
  | _, _, .nilSlice t, r =>
      match r with
      | .slice t' [] c => t == t' && c == 0
      | _ => false
  | cf, og, .slice t es c, r =>
      match r with
      | .slice t' es' c' => t == t' && c == c' && rebuiltElems cf.ro og.ro es es'
      | _ => false
  | _, _, .nilMap t, r =>
      match r with
      | .map t' [] => t == t'
      | _ => false
  | _, og, .map t es, r =>
      match r with
      | .map t' es' => t == t' && rebuiltEntries og es es'
      | _ => false
termination_by structural _ _ v => v
/-- The relation `rebuilt` field by field, a field whose transformation
returned an error agreeing with the original. -/
def rebuiltFields : Flag → Flag → List (Vis × Val) → List (Vis × Val) → Bool
  | _, _, [], r => r.isEmpty
  | cf, og, (vis, v) :: fs, r =>
      match r with
      | (vis', v') :: fs' =>
          decide (vis = vis') &&
            (if (translateRecursive (cf.field vis) (og.field vis) v).isError then sim v v'
              else rebuilt (cf.field vis) (og.field vis) v v') &&
            rebuiltFields cf og fs fs'
      | [] => false
termination_by structural _ _ l => l
/-- The relation `rebuilt` element by element, an element whose transformation
returned an error agreeing with the original. -/
def rebuiltElems : Flag → Flag → List Val → List Val → Bool
  | _, _, [], r => r.isEmpty
  | cf, og, v :: vs, r =>
      match r with
      | v' :: vs' =>
          (if (translateRecursive cf og v).isError then sim v v' else rebuilt cf og v v') &&
            rebuiltElems cf og vs vs'
      | [] => false
termination_by structural _ _ l => l
/-- The relation `rebuilt` entry by entry, keys equal, a value whose
transformation returned an error agreeing with the original. -/
def rebuiltEntries : Flag → List (Key × Val) → List (Key × Val) → Bool
  | _, [], r => r.isEmpty
  | og, (k, v) :: es, r =>
      match r with
      | (k', v') :: es' =>
          decide (k = k') &&
            (if (translateRecursive Flag.clear og.ro v).isError then sim v v'
              else rebuilt Flag.clear og.ro v v') &&
            rebuiltEntries og es es'
      | [] => false
termination_by structural _ l => l
end

/-- One invocation of `translateRecursive` in a run: the number of invocations
active when it starts, itself included, and whether it returned nil. -/
structure Call where
  level : Nat
  returnedNil : Bool
  deriving DecidableEq

/-- Whether a call returned nil. -/
def Outcome.isOk {α : Type} : Outcome α → Bool
  | .ok _ => true
  | _ => false

/-- Records the invocation that produced `r` at level `d`, in front of the
invocations `tr` it made. -/
def logged {α : Type} (d : Nat) (r : Outcome α) (tr : List Call) : Outcome α × List Call :=
  (r, ⟨d, r.isOk⟩ :: tr)

mutual
/-- The function `translateRecursive` run at recursion level `d`, returning
besides its outcome the invocations of `translateRecursive` made during the
run, this one first, in the order in which they start. -/
def translateRecursiveT : Nat → Flag → Flag → Val → Outcome Val × List Call
  | d, cf, og, .leaf k t x =>
      logged d (if cf.isRO then .error ("cannot set: " ++ t)
        else if og.isRO then .panic setPanic
        else .ok (.leaf k t x)) []
  | d, _, _, .nilPtr t => logged d (.ok (.nilPtr t)) []
  | d, cf, og, .ptr t e =>
      if cf.isRO then logged d (.panic setPanic) []
      else match translateRecursiveT (d + 1) cf og e with
        | (.panic m, tr) => logged d (.panic m) tr
        | (.ok e', tr) => logged d (.ok (.ptr t e')) tr
        | (.error _, tr) =>
            logged d (if og.isRO then .panic setPanic else .ok (.ptr t e)) tr
  | d, _, _, .nilIface _ => logged d (.panic typePanic) []
  | d, cf, og, .iface t held =>
      match translateRecursiveT (d + 1) Flag.clear og.ro held with
        | (.panic m, tr) => logged d (.panic m) tr
        | (.error e, tr) => logged d (.panic (interfacePanic held e)) tr
        | (.ok held', tr) =>
            logged d (if cf.isRO then .panic setPanic else .ok (.iface t held')) tr
  | d, cf, og, .struct t fs =>
      match translateFieldsT (d + 1) cf og fs with
        | (.panic m, tr) => logged d (.panic m) tr
        | (.error e, tr) => logged d (.error e) tr
        | (.ok fs', tr) => logged d (.ok (.struct t fs')) tr
  | d, _, _, .array _ _ => logged d (.panic makeSliceKindPanic) []
  | d, cf, _, .nilSlice t =>
      logged d (if cf.isRO then .panic setPanic else .ok (.slice t [] 0)) []
  | d, cf, og, .slice t es c =>
      if c < es.length then logged d (.panic makeSliceLenPanic) []
      else if cf.isRO then logged d (.panic setPanic) []
      else match translateElemsT (d + 1) cf.ro og.ro es with
        | (.panic m, tr) => logged d (.panic m) tr
        | (.error e, tr) => logged d (.error e) tr
        | (.ok es', tr) => logged d (.ok (.slice t es' c)) tr
  | d, cf, _, .nilMap t =>
      logged d (if cf.isRO then .panic setPanic else .ok (.map t [])) []
  | d, cf, og, .map t es =>
      if cf.isRO then logged d (.panic setPanic) []
      else match translateEntriesT (d + 1) og [] es with
        | (.panic m, tr) => logged d (.panic m) tr
        | (.error e, tr) => logged d (.error e) tr
        | (.ok es', tr) => logged d (.ok (.map t es')) tr
/-- The loop over the fields of a struct, its calls made at level `d`. -/
def translateFieldsT : Nat → Flag → Flag → List (Vis × Val) →
    Outcome (List (Vis × Val)) × List Call
  | _, _, _, [] => (.ok [], [])
  | d, cf, og, (vis, v) :: fs =>
      match translateRecursiveT d (cf.field vis) (og.field vis) v with
        | (.panic m, tr) => (.panic m, tr)
        | (.ok v', tr) =>
            match translateFieldsT d cf og fs with
              | (.panic m, tr') => (.panic m, tr ++ tr')
              | (.error e, tr') => (.error e, tr ++ tr')
              | (.ok fs', tr') => (.ok ((vis, v') :: fs'), tr ++ tr')
        | (.error _, tr) =>
            if (cf.field vis).isRO then (.error ("cannot set: " ++ v.type), tr)
            else if (og.field vis).isRO then (.panic setPanic, tr)
            else match translateFieldsT d cf og fs with
              | (.panic m, tr') => (.panic m, tr ++ tr')
              | (.error e, tr') => (.error e, tr ++ tr')
              | (.ok fs', tr') => (.ok ((vis, v) :: fs'), tr ++ tr')
/-- The loop over the elements of a slice, its calls made at level `d`. -/
def translateElemsT : Nat → Flag → Flag → List Val → Outcome (List Val) × List Call
  | _, _, _, [] => (.ok [], [])
  | d, cf, og, v :: vs =>
      match translateRecursiveT d cf og v with
        | (.panic m, tr) => (.panic m, tr)
        | (.ok v', tr) =>
            match translateElemsT d cf og vs with
              | (.panic m, tr') => (.panic m, tr ++ tr')
              | (.error e, tr') => (.error e, tr ++ tr')
              | (.ok vs', tr') => (.ok (v' :: vs'), tr ++ tr')
        | (.error _, tr) =>
            if cf.isRO || og.isRO then (.panic setPanic, tr)
            else match translateElemsT d cf og vs with
              | (.panic m, tr') => (.panic m, tr ++ tr')
              | (.error e, tr') => (.error e, tr ++ tr')
              | (.ok vs', tr') => (.ok (v :: vs'), tr ++ tr')
/-- The loop over `original.MapKeys()`, its calls made at level `d`; no call
is made for a key that `original.MapIndex` does not find. -/
def translateEntriesT : Nat → Flag → List (Key × Val) → List (Key × Val) →
    Outcome (List (Key × Val)) × List Call
  | _, _, acc, [] => (.ok acc, [])
  | d, og, acc, (k, v) :: es =>
      if !k.reflexive then (.panic typePanic, [])
      else match translateRecursiveT d Flag.clear og.ro v with
        | (.panic m, tr) => (.panic m, tr)
        | (.ok v', tr) =>
            if og.isRO then (.panic setMapIndexPanic, tr)
            else match translateEntriesT d og (SetMapIndex acc k v') es with
              | (r, tr') => (r, tr ++ tr')
        | (.error _, tr) =>
            if og.isRO then (.panic setMapIndexPanic, tr)
            else match translateEntriesT d og (SetMapIndex acc k v) es with
              | (r, tr') => (r, tr ++ tr')
end

/-- The deepest level among the recorded invocations, 0 if there is none. -/
def maxLevel : List Call → Nat
  | [] => 0
  | c :: tr => max c.level (maxLevel tr)

mutual
/-- The nodes of a value in the order in which a depth-first traversal meets
them (fields, elements and map entries in their listed order), each with its
depth, the value itself being at depth `d`. -/
def levels : Nat → Val → List Nat
  | d, .leaf _ _ _ => [d]
  | d, .nilPtr _ => [d]
  | d, .ptr _ e => d :: levels (d + 1) e
  | d, .nilIface _ => [d]
  | d, .iface _ held => d :: levels (d + 1) held
  | d, .struct _ fs => d :: levelsFields (d + 1) fs
  | d, .array _ es => d :: levelsElems (d + 1) es
  | d, .nilSlice _ => [d]
  | d, .slice _ es _ => d :: levelsElems (d + 1) es
  | d, .nilMap _ => [d]
  | d, .map _ es => d :: levelsEntries (d + 1) es
/-- The nodes in and below the given fields, each with its depth. -/
def levelsFields : Nat → List (Vis × Val) → List Nat
  | _, [] => []
  | d, (_, v) :: fs => levels d v ++ levelsFields d fs
/-- The nodes in and below the given elements, each with its depth. -/
def levelsElems : Nat → List Val → List Nat
  | _, [] => []
  | d, v :: vs => levels d v ++ levelsElems d vs
/-- The nodes in and below the given map values, each with its depth. -/
def levelsEntries : Nat → List (Key × Val) → List Nat
  | _, [] => []
  | d, (_, v) :: es => levels d v ++ levelsEntries d es
end

/-- What a run in which every call returns nil looks like, for one value: it
returns nil, its calls are the nodes of the value in depth-first order, one
call per node at the depth of the node, hence as many calls as nodes and a
deepest level equal to the nesting depth. -/
def countsOk (v : Val) : Prop :=
  ∀ d cf og, (∀ c ∈ (translateRecursiveT d cf og v).2, c.returnedNil = true) →
    (translateRecursiveT d cf og v).1.isOk = true ∧
    (translateRecursiveT d cf og v).2.length = nodes v ∧
    maxLevel (translateRecursiveT d cf og v).2 + 1 = d + nesting v ∧
    (translateRecursiveT d cf og v).2.map Call.level = levels d v

/-! ## Store-passing embedding

The tree embedding above does not observe which memory a call writes.  For
the statements about memory the same code is embedded a second time, over an
explicit heap: values hold locations, the handles `copy` and `original` are
locations (or, for a handle that is not addressable, a value), and every
`Value.Set`, `Value.SetMapIndex`, `reflect.New`, `reflect.MakeSlice` and
`reflect.MakeMap` is a write to or an extension of the heap. -/

/-- A location of memory: a cell of the heap and, inside the value the cell
holds, a path of field and element indices. -/
structure Place where
  addr : Nat
  path : List Nat
  deriving DecidableEq

/-- The location of field or element `i` of the composite at `p`. -/
def Place.extend (p : Place) (i : Nat) : Place := ⟨p.addr, p.path ++ [i]⟩

/-- A slice header: the location of the array it views, the index of its
first element in that array, its length and its capacity. -/
structure Body where
  arr : Place
  off : Nat
  len : Nat
  cap : Nat
  deriving DecidableEq

/-- Go values as they lie in memory: a pointer holds a location, a slice a
header, a map the address of its table; structs and arrays hold their parts
inline, an interface holds a copy of its dynamic value. -/
inductive HVal
  | leaf (kind ty data : String)
  | nilPtr (ty : String)
  | ptr (ty : String) (target : Place)
  | nilIface (ty : String)
  | iface (ty : String) (held : HVal)
  | struct (ty : String) (fields : List (Vis × HVal))
  | array (ty : String) (elems : List HVal)
  | nilSlice (ty : String)
  | slice (ty : String) (body : Body)
  | nilMap (ty : String)
  | map (ty : String) (table : Nat)

/-- Rendering of `Value.Kind()`. -/
def HVal.kind : HVal → String
  | .leaf k _ _ => k
  | .nilPtr _ => "ptr"
  | .ptr _ _ => "ptr"
  | .nilIface _ => "interface"
  | .iface _ _ => "interface"
  | .struct _ _ => "struct"
  | .array _ _ => "array"
  | .nilSlice _ => "slice"
  | .slice _ _ => "slice"
  | .nilMap _ => "map"
  | .map _ _ => "map"

/-- Rendering of `Value.Type().String()`. -/
def HVal.type : HVal → String
  | .leaf _ t _ => t
  | .nilPtr t => t
  | .ptr t _ => t
  | .nilIface t => t
  | .iface t _ => t
  | .struct t _ => t
  | .array t _ => t
  | .nilSlice t => t
  | .slice t _ => t
  | .nilMap t => t
  | .map t _ => t

/-- Rendering of the zero value of a leaf kind. -/
def zeroData (kind : String) : String :=
  if kind = "string" then "" else if kind = "bool" then "false"
  else if kind = "chan" ∨ kind = "func" ∨ kind = "unsafe.Pointer" then "nil" else "0"

mutual
/-- The zero value of the type of the given value, as `reflect.New` and
`reflect.MakeSlice` lay it out. -/
def zeroLike : HVal → HVal
  | .leaf k t _ => .leaf k t (zeroData k)
  | .nilPtr t => .nilPtr t
  | .ptr t _ => .nilPtr t
  | .nilIface t => .nilIface t
  | .iface t _ => .nilIface t
  | .struct t fs => .struct t (zeroLikeFields fs)
  | .array t es => .array t (zeroLikeElems es)
  | .nilSlice t => .nilSlice t
  | .slice t _ => .nilSlice t
  | .nilMap t => .nilMap t
  | .map t _ => .nilMap t
/-- The zero values of the fields of a struct type. -/
def zeroLikeFields : List (Vis × HVal) → List (Vis × HVal)
  | [] => []
  | (vis, v) :: fs => (vis, zeroLike v) :: zeroLikeFields fs
/-- The zero values of the elements of an array type. -/
def zeroLikeElems : List HVal → List HVal
  | [] => []
  | v :: vs => zeroLike v :: zeroLikeElems vs
end

/-- The part of a value at a path of field and element indices. -/
def HVal.sub : HVal → List Nat → Option HVal
  | v, [] => some v
  | .struct _ fs, i :: p =>
      match fs[i]? with
      | some f => f.2.sub p
      | none => none
  | .array _ es, i :: p =>
      match es[i]? with
      | some e => e.sub p
      | none => none
  | _, _ :: _ => none

/-- The value with the part at a path replaced. -/
def HVal.put : HVal → List Nat → HVal → Option HVal
  | _, [], x => some x
  | .struct t fs, i :: p, x =>
      match fs[i]? with
      | some f =>
          match f.2.put p x with
          | some v => some (.struct t (fs.set i (f.1, v)))
          | none => none
      | none => none
  | .array t es, i :: p, x =>
      match es[i]? with
      | some e =>
          match e.put p x with
          | some v => some (.array t (es.set i v))
          | none => none
      | none => none
  | _, _ :: _, _ => none

/-- A cell of the heap: a variable, the array behind a slice, or the table of
a map. -/
inductive Cell
  | obj (v : HVal)
  | arr (elems : List HVal)
  | tbl (entries : List (Key × HVal))

/-- The memory: cell `a` is at index `a`; allocation appends a cell. -/
abbrev Heap := List Cell

/-- The part of a cell at a path. -/
def Cell.sub : Cell → List Nat → Option HVal
  | .obj v, p => v.sub p
  | .arr es, i :: p =>
      match es[i]? with
      | some e => e.sub p
      | none => none
  | _, _ => none

/-- The cell with the part at a path replaced. -/
def Cell.put : Cell → List Nat → HVal → Option Cell
  | .obj v, p, x =>
      match v.put p x with
      | some v' => some (.obj v')
      | none => none
  | .arr es, i :: p, x =>
      match es[i]? with
      | some e =>
          match e.put p x with
          | some v => some (.arr (es.set i v))
          | none => none
      | none => none
  | _, _, _ => none

/-- Reading the value at a location. -/
def load (h : Heap) (p : Place) : Option HVal :=
  match h[p.addr]? with
  | some c => c.sub p.path
  | none => none

/-- Writing a value at a location; `none` when the location does not exist. -/
def store (h : Heap) (p : Place) (x : HVal) : Option Heap :=
  match h[p.addr]? with
  | some c =>
      match c.put p.path x with
      | some c' => some (h.set p.addr c')
      | none => none
  | none => none

/-- The `original` handle of a call: a location (an addressable `Value`) or a
value held by the handle itself (`reflect.ValueOf`, `Value.MapIndex`,
`Value.Elem` of an interface). -/
inductive Src
  | place (p : Place)
  | value (v : HVal)

/-- The value the handle denotes in the given memory. -/
def Src.read (h : Heap) : Src → Option HVal
  | .place p => load h p
  | .value v => some v

/-- The method `Value.Field(i)` on the `original` handle. -/
def Src.field : Src → Nat → Option Src
  | .place p, i => some (.place (p.extend i))
  | .value (.struct _ fs), i =>
      match fs[i]? with
      | some f => some (.value f.2)
      | none => none
  | .value _, _ => none

/-- How one call ends: `done` (returned nil, or returned for `Translate`),
`error` (returned a non-nil error), `panic` (a panic was raised, by the code
or by `reflect`), `overflow` (the bound on the recursion was reached: the
recursion does not end within it), `invalid` (a handle denotes no memory of
the heap, which no Go state allows). -/
inductive Status
  | done
  | error (msg : String)
  | panic (msg : String)
  | overflow
  | invalid
  deriving DecidableEq

/-- The message built by `fmt.Sprintf` in the interface case. -/
def interfacePanicH (held : HVal) (err : String) : String :=
  "can not translate interface, " ++ held.kind ++ " " ++ held.type ++ " to "
    ++ held.kind ++ " " ++ held.type ++ ", " ++ err

/-- Panic of `Value.Index` on an index beyond the length. -/
def indexPanic : String := "reflect: slice index out of range"

/-- Panic of `Value.SetMapIndex` on a nil map. -/
def nilMapPanic : String := "assignment to entry in nil map"

/-- Panic of `Value.Set` given the zero `Value`. -/
def setZeroPanic : String := "reflect: call of reflect.Value.Set on zero Value"

/-- The method `Value.MapIndex` on the entries of a table: a key unequal to
itself is not found. -/
def MapIndexH (es : List (Key × HVal)) (k : Key) : Option HVal :=
  if k.reflexive then
    match es.find? (fun e => e.1 = k) with
    | some e => some e.2
    | none => none
  else none

/-- The entries of a table after `SetMapIndex`. -/
def SetMapIndexH : List (Key × HVal) → Key → HVal → List (Key × HVal)
  | [], k, v => [(k, v)]
  | (k', v') :: m, k, v =>
      if k' = k then (k, v) :: m else (k', v') :: SetMapIndexH m k v

/-- The zeroed array `reflect.MakeSlice(t, len, cap)` allocates for a slice
with the given header; the element type is read off the array behind the
original. -/
def zeros (h : Heap) (b : Body) : Option (List HVal) :=
  if b.cap = 0 then some []
  else
    match load h (b.arr.extend b.off) with
    | some e => some (List.replicate b.cap (zeroLike e))
    | none => none

/-- The method `Value.MapKeys` on the `original` handle: no key for a nil
map. -/
def MapKeysH (h : Heap) (orig : Src) : Option (List Key) :=
  match orig.read h with
  | some (.nilMap _) => some []
  | some (.map _ m) =>
      match h[m]? with
      | some (.tbl es) => some (es.map Prod.fst)
      | _ => none
  | _ => none

/-- The call `copy.SetMapIndex(key, x)`, `og` being the bits of the map
`original` the key was read from. -/
def setMapIndexH (h : Heap) (copy : Place) (cf og : Flag) (k : Key) (x : HVal) :
    Status × Heap :=
  if cf.isRO || og.isRO then (.panic setMapIndexPanic, h)
  else
    match load h copy with
    | some (.map _ m) =>
        match h[m]? with
        | some (.tbl es) => (.done, h.set m (.tbl (SetMapIndexH es k x)))
        | _ => (.invalid, h)
    | some (.nilMap _) => (.panic nilMapPanic, h)
    | _ => (.invalid, h)

mutual
/-- The function `translateRecursive(copy, original)` on the memory `h`:
`copy` is a location with bits `cf`, `original` a handle with bits `og`.  The
first argument bounds the number of nested calls and loop iterations. -/
def translateRecursiveH : Nat → Heap → Place → Flag → Src → Flag → Status × Heap
  | 0, h, _, _, _, _ => (.overflow, h)
  | n + 1, h, copy, cf, orig, og =>
    match orig.read h with
    | none => (.invalid, h)
    -- default: copy.CanSet() ? copy.Set(original) : error
    | some (.leaf k t x) =>
        if cf.isRO then (.error ("cannot set: " ++ t), h)
        else if og.isRO then (.panic setPanic, h)
        else
          match store h copy (.leaf k t x) with
          | some h1 => (.done, h1)
          | none => (.invalid, h)
    -- reflect.Ptr with !originalValue.IsValid()
    | some (.nilPtr _) => (.done, h)
    -- reflect.Ptr
    | some (.ptr t q) =>
        match load h q with
        | none => (.invalid, h)
        | some pv =>
            -- copy.Set(reflect.New(originalValue.Type()))
            if cf.isRO then (.panic setPanic, h ++ [Cell.obj (zeroLike pv)])
            else
              match store (h ++ [Cell.obj (zeroLike pv)]) copy (.ptr t ⟨h.length, []⟩) with
              | none => (.invalid, h ++ [Cell.obj (zeroLike pv)])
              | some h2 =>
                  -- copy.Elem()
                  match load h2 copy with
                  | some (.ptr _ c') =>
                      match translateRecursiveH n h2 c' cf (.place q) og with
                      | (.error _, h3) =>
                          -- copy.Set(original)
                          if og.isRO then (.panic setPanic, h3)
                          else
                            match orig.read h3 with
                            | some ov =>
                                match store h3 copy ov with
                                | some h4 => (.done, h4)
                                | none => (.invalid, h3)
                            | none => (.invalid, h3)
                      | r => r
                  | _ => (.invalid, h2)
    -- reflect.Interface: originalValue.Type() on the zero Value
    | some (.nilIface _) => (.panic typePanic, h)
    -- reflect.Interface
    | some (.iface t hv) =>
        -- copyValue := reflect.New(originalValue.Type()).Elem()
        match translateRecursiveH n (h ++ [Cell.obj (zeroLike hv)]) ⟨h.length, []⟩ Flag.clear
            (.value hv) og.ro with
        | (.done, h2) =>
            -- copy.Set(copyValue)
            if cf.isRO then (.panic setPanic, h2)
            else
              match load h2 ⟨h.length, []⟩ with
              | some cv =>
                  match store h2 copy (.iface t cv) with
                  | some h3 => (.done, h3)
                  | none => (.invalid, h2)
              | none => (.invalid, h2)
        | (.error e, h2) => (.panic (interfacePanicH hv e), h2)
        | r => r
    -- reflect.Struct
    | some (.struct _ fs) => translateFieldsH n h copy cf orig og 0 (fs.map Prod.fst)
    -- reflect.Array falls through to reflect.MakeSlice(original.Type(), ..)
    | some (.array _ _) => (.panic makeSliceKindPanic, h)
    -- reflect.Slice, nil: copy.Set(reflect.MakeSlice(t, 0, 0))
    | some (.nilSlice t) =>
        if cf.isRO then (.panic setPanic, h ++ [Cell.arr []])
        else
          match store (h ++ [Cell.arr []]) copy (.slice t ⟨⟨h.length, []⟩, 0, 0, 0⟩) with
          | none => (.invalid, h ++ [Cell.arr []])
          | some h2 => translateElemsH n h2 copy cf orig og 0
    -- reflect.Slice: copy.Set(reflect.MakeSlice(t, len, cap))
    | some (.slice t b) =>
        if b.cap < b.len then (.panic makeSliceLenPanic, h)
        else
          match zeros h b with
          | none => (.invalid, h)
          | some zs =>
              if cf.isRO then (.panic setPanic, h ++ [Cell.arr zs])
              else
                match store (h ++ [Cell.arr zs]) copy
                    (.slice t ⟨⟨h.length, []⟩, 0, b.len, b.cap⟩) with
                | none => (.invalid, h ++ [Cell.arr zs])
                | some h2 => translateElemsH n h2 copy cf orig og 0
    -- reflect.Map: copy.Set(reflect.MakeMap(t)), then original.MapKeys()
    | some (.nilMap t) | some (.map t _) =>
        if cf.isRO then (.panic setPanic, h ++ [Cell.tbl []])
        else
          match store (h ++ [Cell.tbl []]) copy (.map t h.length) with
          | none => (.invalid, h ++ [Cell.tbl []])
          | some h2 =>
              match MapKeysH h2 orig with
              | some ks => translateEntriesH n h2 copy cf orig og ks
              | none => (.invalid, h2)
/-- The loop over the fields of a struct, from field `i` on; the list holds
the visibility of the fields still to visit. -/
def translateFieldsH : Nat → Heap → Place → Flag → Src → Flag → Nat → List Vis →
    Status × Heap
  | 0, h, _, _, _, _, _, _ => (.overflow, h)
  | _ + 1, h, _, _, _, _, _, [] => (.done, h)
  | n + 1, h, copy, cf, orig, og, i, vis :: rest =>
      match orig.field i with
      | none => (.invalid, h)
      | some fld =>
          match translateRecursiveH n h (copy.extend i) (cf.field vis) fld (og.field vis) with
          | (.done, h1) => translateFieldsH n h1 copy cf orig og (i + 1) rest
          | (.error _, h1) =>
              if (cf.field vis).isRO then
                -- errors.New("cannot set: " + copy.Field(i).Type().String())
                match load h1 (copy.extend i) with
                | some cv => (.error ("cannot set: " ++ cv.type), h1)
                | none => (.invalid, h1)
              else if (og.field vis).isRO then (.panic setPanic, h1)
              else
                -- copy.Field(i).Set(original.Field(i))
                match fld.read h1 with
                | some ov =>
                    match store h1 (copy.extend i) ov with
                    | some h2 => translateFieldsH n h2 copy cf orig og (i + 1) rest
                    | none => (.invalid, h1)
                | none => (.invalid, h1)
          | r => r
/-- The loop over the elements of a slice, from index `i` on. -/
def translateElemsH : Nat → Heap → Place → Flag → Src → Flag → Nat → Status × Heap
  | 0, h, _, _, _, _, _ => (.overflow, h)
  | n + 1, h, copy, cf, orig, og, i =>
      -- i < original.Len()
      match orig.read h with
      | some (.nilSlice _) => (.done, h)
      | some (.slice _ b) =>
          if b.len ≤ i then (.done, h)
          else
            -- copy.Index(i)
            match load h copy with
            | some (.slice _ cb) =>
                if cb.len ≤ i then (.panic indexPanic, h)
                else
                  match translateRecursiveH n h (cb.arr.extend (cb.off + i)) cf.ro
                      (.place (b.arr.extend (b.off + i))) og.ro with
                  | (.done, h1) => translateElemsH n h1 copy cf orig og (i + 1)
                  | (.error _, h1) =>
                      -- copy.Index(i).Set(original.Index(i))
                      match load h1 copy, orig.read h1 with
                      | some (.slice _ cb'), some (.slice _ b') =>
                          if cb'.len ≤ i || b'.len ≤ i then (.panic indexPanic, h1)
                          else if cf.ro.isRO || og.ro.isRO then (.panic setPanic, h1)
                          else
                            match load h1 (b'.arr.extend (b'.off + i)) with
                            | some ov =>
                                match store h1 (cb'.arr.extend (cb'.off + i)) ov with
                                | some h2 => translateElemsH n h2 copy cf orig og (i + 1)
                                | none => (.invalid, h1)
                            | none => (.invalid, h1)
                      | _, _ => (.invalid, h1)
                  | r => r
            | _ => (.invalid, h)
      | _ => (.invalid, h)
/-- The loop over `original.MapKeys()`. -/
def translateEntriesH : Nat → Heap → Place → Flag → Src → Flag → List Key → Status × Heap
  | 0, h, _, _, _, _, _ => (.overflow, h)
  | _ + 1, h, _, _, _, _, [] => (.done, h)
  | n + 1, h, copy, cf, orig, og, k :: ks =>
      -- originalValue := original.MapIndex(key)
      match orig.read h with
      | some (.map _ m) =>
          match h[m]? with
          | some (.tbl es) =>
              match MapIndexH es k with
              -- originalValue.Type() on the zero Value
              | none => (.panic typePanic, h)
              | some ov =>
                  -- copyValue := reflect.New(originalValue.Type()).Elem()
                  match translateRecursiveH n (h ++ [Cell.obj (zeroLike ov)]) ⟨h.length, []⟩
                      Flag.clear (.value ov) og.ro with
                  | (.done, h1) =>
                      -- copy.SetMapIndex(key, copyValue)
                      match load h1 ⟨h.length, []⟩ with
                      | some x =>
                          match setMapIndexH h1 copy cf og k x with
                          | (.done, h2) => translateEntriesH n h2 copy cf orig og ks
                          | r => r
                      | none => (.invalid, h1)
                  | (.error _, h1) =>
                      -- copy.SetMapIndex(key, originalValue)
                      match setMapIndexH h1 copy cf og k ov with
                      | (.done, h2) => translateEntriesH n h2 copy cf orig og ks
                      | r => r
                  | r => r
          | _ => (.invalid, h)
      | _ => (.invalid, h)
end

/-- The function `Translate(obj)` on the memory `h`; `obj` is the
`interface{}` argument. -/
def TranslateH (n : Nat) (h : Heap) (obj : Option HVal) : Status × Heap :=
  match obj with
  | some (.ptr t p) =>
      -- copy := reflect.New(original.Type()).Elem()
      match translateRecursiveH n (h ++ [Cell.obj (.nilPtr t)]) ⟨h.length, []⟩ Flag.clear
          (.value (.ptr t p)) Flag.clear with
      | (.done, h2) =>
          -- original.Elem().Set(copy.Elem())
          match load h2 ⟨h.length, []⟩ with
          | some (.ptr _ c') =>
              match load h2 c' with
              | some x =>
                  match store h2 p x with
                  | some h3 => (.done, h3)
                  | none => (.invalid, h2)
              | none => (.invalid, h2)
          | some (.nilPtr _) => (.panic setZeroPanic, h2)
          | _ => (.invalid, h2)
      | (.error e, h2) => (.panic ("translate failed, err: " ++ e), h2)
      | r => r
  | some (.nilPtr _) => (.panic "must be not nil", h)
  | _ => (.panic "must be pointer", h)

/-- The memory `h'` extends `h` and agrees with it on every cell of `h` other
than cell `w`. -/
def frame (h h' : Heap) (w : Nat) : Prop :=
  h.length ≤ h'.length ∧ ∀ a, a < h.length → a ≠ w → h'[a]? = h[a]?

/-- The statement that the builder run with `n` units of fuel writes only
into its destination cell and into cells it allocates. -/
def FrameAt (n : Nat) : Prop :=
  (∀ h copy cf orig og st h', copy.addr < h.length →
    translateRecursiveH n h copy cf orig og = (st, h') → frame h h' copy.addr) ∧
  (∀ h copy cf orig og i vs st h', copy.addr < h.length →
    translateFieldsH n h copy cf orig og i vs = (st, h') → frame h h' copy.addr) ∧
  (∀ h copy cf orig og i st h' t cb, copy.addr < h.length →
    load h copy = some (.slice t cb) → cb.arr.addr < h.length → cb.arr.addr ≠ copy.addr →
    translateElemsH n h copy cf orig og i = (st, h') → frame h h' cb.arr.addr) ∧
  (∀ h copy cf orig og ks st h' t m, copy.addr < h.length →
    load h copy = some (.map t m) → m < h.length → m ≠ copy.addr →
    translateEntriesH n h copy cf orig og ks = (st, h') → frame h h' m)

/-- All the values of a list of optional values, when none is missing. -/
def allSome {α : Type} : List (Option α) → Option (List α)
  | [] => some []
  | none :: _ => none
  | some a :: l =>
      match allSome l with
      | some r => some (a :: r)
      | none => none

/-- The tree a value in memory unfolds to, following pointers, slice headers
and map tables at most `n` levels deep; `none` when the bound is reached (as
on a cyclic value) or a location does not exist. -/
def treeOf : Nat → Heap → HVal → Option Val
  | 0, _, _ => none
  | _ + 1, _, .leaf k t d => some (.leaf k t d)
  | _ + 1, _, .nilPtr t => some (.nilPtr t)
  | n + 1, h, .ptr t q =>
      match load h q with
      | some v =>
          match treeOf n h v with
          | some e => some (.ptr t e)
          | none => none
      | none => none
  | _ + 1, _, .nilIface t => some (.nilIface t)
  | n + 1, h, .iface t hv =>
      match treeOf n h hv with
      | some e => some (.iface t e)
      | none => none
  | n + 1, h, .struct t fs =>
      match allSome (fs.map fun f =>
          match treeOf n h f.2 with
          | some e => some (f.1, e)
          | none => none) with
      | some r => some (.struct t r)
      | none => none
  | n + 1, h, .array t es =>
      match allSome (es.map fun e => treeOf n h e) with
      | some r => some (.array t r)
      | none => none
  | _ + 1, _, .nilSlice t => some (.nilSlice t)
  | n + 1, h, .slice t b =>
      match allSome ((List.range b.len).map fun i =>
          match load h (b.arr.extend (b.off + i)) with
          | some e => treeOf n h e
          | none => none) with
      | some r => some (.slice t r b.cap)
      | none => none
  | _ + 1, _, .nilMap t => some (.nilMap t)
  | n + 1, h, .map t m =>
      match h[m]? with
      | some (.tbl es) =>
          match allSome (es.map fun e =>
              match treeOf n h e.2 with
              | some v => some (e.1, v)
              | none => none) with
          | some r => some (.map t r)
          | none => none
      | _ => none

/-- Example memory: `s := S{A: nil, B: []*T{&T{N: 7}}, I: nil}` at cell 0, with
`S struct{ A []int; B []*T; I interface{} }` and `T struct{ N int }`. -/
def heapNilIface : Heap :=
  [Cell.obj (.struct "S" [(Vis.exported, .nilSlice "[]int"),
      (Vis.exported, .slice "[]*T" ⟨⟨1, []⟩, 0, 1, 1⟩),
      (Vis.exported, .nilIface "interface {}")]),
    Cell.arr [.ptr "*T" ⟨2, []⟩],
    Cell.obj (.struct "T" [(Vis.exported, .leaf "int" "int" "7")])]

/-- Example memory: `s := S{A: nil, Tf: T{x: 3, B: &s.A}}` at cell 0, with
`S struct{ A []int; Tf T }` and `T struct{ x int; B *[]int }`: the field
`Tf.B` points into `s` itself. -/
def heapShared : Heap :=
  [Cell.obj (.struct "S" [(Vis.exported, .nilSlice "[]int"),
      (Vis.exported, .struct "T" [(Vis.unexported, .leaf "int" "int" "3"),
        (Vis.exported, .ptr "*[]int" ⟨0, [0]⟩)])])]

/-- Example memory: `s := S{A: nil, B: []*T{nil, &T{N: 7}}, M: {"a": nil}}` at
cell 0, with `S struct{ A []int; B []*T; M map[string][]int }` and
`T struct{ N int }`; nothing is shared. -/
def heapPlain : Heap :=
  [Cell.obj (.struct "S" [(Vis.exported, .nilSlice "[]int"),
      (Vis.exported, .slice "[]*T" ⟨⟨1, []⟩, 0, 2, 2⟩),
      (Vis.exported, .map "map[string][]int" 3)]),
    Cell.arr [.nilPtr "*T", .ptr "*T" ⟨2, []⟩],
    Cell.obj (.struct "T" [(Vis.exported, .leaf "int" "int" "7")]),
    Cell.tbl [(⟨"a", true⟩, .nilSlice "[]int")]]

mutual
/-- A tree laid out in memory without sharing: every pointee, every array
behind a slice and every map table gets a cell of its own, appended to `h`.
A tree does not record the element type of an empty slice with spare
capacity; the zero value of a first element, or a placeholder when there is
none, fills the spare capacity. -/
def encode : Heap → Val → Heap × HVal
  | h, .leaf k t d => (h, .leaf k t d)
  | h, .nilPtr t => (h, .nilPtr t)
  | h, .ptr t e =>
      match encode h e with
      | (h1, v) => (h1 ++ [Cell.obj v], .ptr t ⟨h1.length, []⟩)
  | h, .nilIface t => (h, .nilIface t)
  | h, .iface t e =>
      match encode h e with
      | (h1, v) => (h1, .iface t v)
  | h, .struct t fs =>
      match encodeFields h fs with
      | (h1, vs) => (h1, .struct t vs)
  | h, .array t es =>
      match encodeElems h es with
      | (h1, vs) => (h1, .array t vs)
  | h, .nilSlice t => (h, .nilSlice t)
  | h, .slice t es c =>
      match encodeElems h es with
      | (h1, vs) =>
          (h1 ++ [Cell.arr (vs ++ List.replicate (c - vs.length)
              (match vs with
               | v :: _ => zeroLike v
               | [] => .leaf "" "" ""))],
            .slice t ⟨⟨h1.length, []⟩, 0, vs.length, c⟩)
  | h, .nilMap t => (h, .nilMap t)
  | h, .map t es =>
      match encodeEntries h es with
      | (h1, vs) => (h1 ++ [Cell.tbl vs], .map t h1.length)
/-- The fields of a struct laid out in memory. -/
def encodeFields : Heap → List (Vis × Val) → Heap × List (Vis × HVal)
  | h, [] => (h, [])
  | h, (vis, v) :: fs =>
      match encode h v with
      | (h1, x) =>
          match encodeFields h1 fs with
          | (h2, xs) => (h2, (vis, x) :: xs)
/-- The elements of a slice or array laid out in memory. -/
def encodeElems : Heap → List Val → Heap × List HVal
  | h, [] => (h, [])
  | h, v :: vs =>
      match encode h v with
      | (h1, x) =>
          match encodeElems h1 vs with
          | (h2, xs) => (h2, x :: xs)
/-- The entries of a map laid out in memory. -/
def encodeEntries : Heap → List (Key × Val) → Heap × List (Key × HVal)
  | h, [] => (h, [])
  | h, (k, v) :: es =>
      match encode h v with
      | (h1, x) =>
          match encodeEntries h1 es with
          | (h2, xs) => (h2, (k, x) :: xs)
end

/-- What the caller sees of a run that ends with the given status: no message
for a normal return. -/
def Status.message : Status → Option String
  | .done => none
  | .error e => some e
  | .panic m => some m
  | .overflow => some "stack overflow"
  | .invalid => some "invalid memory"

/-- One call of `TranslateH` on the argument `obj` laid out in memory without
sharing, observed as `Translate` is: the message of the abort, if any, and the
tree the argument unfolds to afterwards. -/
def observe (n k : Nat) (obj : Val) : Exit :=
  match encode [] obj with
  | (h, v) =>
      match TranslateH n h (some v) with
      | (st, h') => ⟨st.message, treeOf k h' v⟩

/-! ## Basic facts -/

@[simp] theorem Flag.isRO_clear : Flag.clear.isRO = false := rfl

@[simp] theorem Flag.ro_clear : Flag.clear.ro = Flag.clear := rfl

@[simp] theorem Flag.field_clear_exported : Flag.clear.field Vis.exported = Flag.clear := rfl

/-- Induction over values, the hypotheses for the children of a container
being stated by membership. -/
theorem Val.induct {P : Val → Prop}
    (leaf : ∀ k t d, P (.leaf k t d))
    (nilPtr : ∀ t, P (.nilPtr t))
    (ptr : ∀ t e, P e → P (.ptr t e))
    (nilIface : ∀ t, P (.nilIface t))
    (iface : ∀ t h, P h → P (.iface t h))
    (struct : ∀ t fs, (∀ f ∈ fs, P f.2) → P (.struct t fs))
    (array : ∀ t es, (∀ e ∈ es, P e) → P (.array t es))
    (nilSlice : ∀ t, P (.nilSlice t))
    (slice : ∀ t es c, (∀ e ∈ es, P e) → P (.slice t es c))
    (nilMap : ∀ t, P (.nilMap t))
    (map : ∀ t es, (∀ e ∈ es, P e.2) → P (.map t es)) : ∀ v, P v :=
  Val.rec (motive_1 := P)
    (motive_2 := fun fs => ∀ f ∈ fs, P f.2)
    (motive_3 := fun es => ∀ e ∈ es, P e)
    (motive_4 := fun es => ∀ e ∈ es, P e.2)
    (motive_5 := fun f => P f.2)
    (motive_6 := fun e => P e.2)
    leaf nilPtr ptr nilIface iface struct array nilSlice slice nilMap map
    (fun _ h => absurd h (List.not_mem_nil _))
    (fun _ _ hh ht f hf => by
      rcases List.mem_cons.1 hf with rfl | hf
      · exact hh
      · exact ht f hf)
    (fun _ h => absurd h (List.not_mem_nil _))
    (fun _ _ hh ht f hf => by
      rcases List.mem_cons.1 hf with rfl | hf
      · exact hh
      · exact ht f hf)
    (fun _ h => absurd h (List.not_mem_nil _))
    (fun _ _ hh ht f hf => by
      rcases List.mem_cons.1 hf with rfl | hf
      · exact hh
      · exact ht f hf)
    (fun _ _ h => h)
    (fun _ _ h => h)

/-- With every field exported and no read-only bit on either handle, the field
loop never returns an error, and where it succeeds every nil slice field has
become the empty slice. -/
theorem translateFields_exported (fs : List (Vis × Val))
    (hexp : ∀ f ∈ fs, f.1 = Vis.exported) :
    (∀ m, translateFields Flag.clear Flag.clear fs ≠ .error m) ∧
    ∀ fs', translateFields Flag.clear Flag.clear fs = .ok fs' →
      ∀ (i : Nat) (t : String), fs[i]? = some (Vis.exported, Val.nilSlice t) →
        fs'[i]? = some (Vis.exported, Val.slice t [] 0) := by
  induction fs with
  | nil =>
    refine ⟨fun m h => by simp [translateFields] at h, ?_⟩
    intro fs' _ i t hi
    simp at hi
  | cons f fs ih =>
    obtain ⟨vis, v⟩ := f
    have hvis : vis = Vis.exported := hexp (vis, v) (List.mem_cons_self _ _)
    subst hvis
    obtain ⟨ihe, iho⟩ := ih (fun f hf => hexp f (List.mem_cons_of_mem _ hf))
    constructor
    · intro m h
      simp only [translateFields, Flag.field_clear_exported, Flag.isRO_clear] at h
      cases hv : translateRecursive Flag.clear Flag.clear v <;> rw [hv] at h <;>
        simp at h <;>
        cases hr : translateFields Flag.clear Flag.clear fs <;> rw [hr] at h <;>
        simp at h
      all_goals exact ihe _ hr
    · intro fs' h i t hi
      simp only [translateFields, Flag.field_clear_exported, Flag.isRO_clear] at h
      cases hv : translateRecursive Flag.clear Flag.clear v <;> rw [hv] at h <;>
        simp at h <;>
        cases hr : translateFields Flag.clear Flag.clear fs <;> rw [hr] at h <;>
        simp at h
      all_goals
        subst h
        cases i with
        | zero =>
          simp at hi
          subst hi
          simp [translateRecursive] at hv
          try simp [hv]
        | succ i =>
          simp at hi ⊢
          exact iho _ hr i t hi

/-! ## C1: nil slice fields become empty slices -/

/-- C1 (nil-to-empty): for a non-nil pointer to a struct whose fields are all
exported, if `Translate` returns normally then every slice field that was nil
before the call is afterwards a non-nil slice of length 0. -/
theorem Translate_nil_slice_field_empty (pty sty : String) (fs : List (Vis × Val))
    (after : Option Val) (i : Nat) (t : String)
    (hexp : ∀ f ∈ fs, f.1 = Vis.exported)
    (hret : Translate (some (.ptr pty (.struct sty fs))) = ⟨none, after⟩)
    (hnil : fs[i]? = some (Vis.exported, Val.nilSlice t)) :
    ∃ fs', after = some (.ptr pty (.struct sty fs')) ∧
      fs'[i]? = some (Vis.exported, Val.slice t [] 0) := by
  obtain ⟨hne, hok⟩ := translateFields_exported fs hexp
  cases hf : translateFields Flag.clear Flag.clear fs with
  | ok fs' =>
    refine ⟨fs', ?_, hok fs' hf i t hnil⟩
    simp [Translate, translateRecursive, hf] at hret
    exact hret.symm
  | error m => exact absurd hf (hne m)
  | panic m => simp [Translate, translateRecursive, hf] at hret

/-- Witness for C1: `&struct{ A []int; B int }{nil, 7}`. -/
theorem Translate_nil_slice_field_empty_witness :
    ∃ fs', some (Val.ptr "*S" (.struct "S"
        [(Vis.exported, .slice "[]int" [] 0), (Vis.exported, .leaf "int" "int" "7")]))
        = some (.ptr "*S" (.struct "S" fs')) ∧
      fs'[0]? = some (Vis.exported, Val.slice "[]int" [] 0) :=
  Translate_nil_slice_field_empty "*S" "S"
    [(Vis.exported, .nilSlice "[]int"), (Vis.exported, .leaf "int" "int" "7")]
    _ 0 "[]int" (by decide) rfl rfl

/-! ## Panic messages of the recursive builder -/

theorem notGuardMsg_of_length {m : String} (h : 16 < m.length) : notGuardMsg m := by
  constructor <;> intro hm <;> subst hm <;> revert h <;> decide

theorem notGuardMsg_interfacePanic (held : Val) (e : String) :
    notGuardMsg (interfacePanic held e) := by
  apply notGuardMsg_of_length
  have h : "can not translate interface, ".length = 29 := by decide
  simp only [interfacePanic, String.length_append, h]
  omega

theorem translateFields_panic_msg (fs : List (Vis × Val))
    (ih : ∀ f ∈ fs, ∀ cf og m, translateRecursive cf og f.2 = .panic m → notGuardMsg m) :
    ∀ cf og m, translateFields cf og fs = .panic m → notGuardMsg m := by
  induction fs with
  | nil => intro cf og m h; simp [translateFields] at h
  | cons f fs ihl =>
    obtain ⟨vis, v⟩ := f
    intro cf og m h
    have ihv := ih (vis, v) (List.mem_cons_self _ _) (cf.field vis) (og.field vis)
    have ihr := ihl (fun f hf => ih f (List.mem_cons_of_mem _ hf)) cf og
    simp only [translateFields] at h
    cases hv : translateRecursive (cf.field vis) (og.field vis) v <;> rw [hv] at h <;>
      simp only at h
    · cases hr : translateFields cf og fs <;> rw [hr] at h <;> simp at h
      subst h; exact ihr _ hr
    · split at h
      · simp at h
      · split at h
        · simp at h; subst h; exact notGuardMsg_of_length (by decide)
        · cases hr : translateFields cf og fs <;> rw [hr] at h <;> simp at h
          subst h; exact ihr _ hr
    · simp at h; subst h; exact ihv _ hv

theorem translateElems_panic_msg (vs : List Val)
    (ih : ∀ v ∈ vs, ∀ cf og m, translateRecursive cf og v = .panic m → notGuardMsg m) :
    ∀ cf og m, translateElems cf og vs = .panic m → notGuardMsg m := by
  induction vs with
  | nil => intro cf og m h; simp [translateElems] at h
  | cons v vs ihl =>
    intro cf og m h
    have ihv := ih v (List.mem_cons_self _ _) cf og
    have ihr := ihl (fun f hf => ih f (List.mem_cons_of_mem _ hf)) cf og
    simp only [translateElems] at h
    cases hv : translateRecursive cf og v <;> rw [hv] at h <;> simp only at h
    · cases hr : translateElems cf og vs <;> rw [hr] at h <;> simp at h
      subst h; exact ihr _ hr
    · split at h
      · simp at h; subst h; exact notGuardMsg_of_length (by decide)
      · cases hr : translateElems cf og vs <;> rw [hr] at h <;> simp at h
        subst h; exact ihr _ hr
    · simp at h; subst h; exact ihv _ hv

theorem translateEntries_panic_msg (es : List (Key × Val))
    (ih : ∀ e ∈ es, ∀ cf og m, translateRecursive cf og e.2 = .panic m → notGuardMsg m) :
    ∀ og acc m, translateEntries og acc es = .panic m → notGuardMsg m := by
  induction es with
  | nil => intro og acc m h; simp [translateEntries] at h
  | cons e es ihl =>
    obtain ⟨k, v⟩ := e
    intro og acc m h
    have ihv := ih (k, v) (List.mem_cons_self _ _) Flag.clear og.ro
    have ihr := ihl (fun f hf => ih f (List.mem_cons_of_mem _ hf)) og
    simp only [translateEntries] at h
    cases hk : k.reflexive
    · simp [hk] at h; subst h; exact notGuardMsg_of_length (by decide)
    simp only [hk, Bool.not_true, Bool.false_eq_true, if_false] at h
    cases hv : translateRecursive Flag.clear og.ro v <;> rw [hv] at h <;> simp only at h
    · split at h
      · simp at h; subst h; exact notGuardMsg_of_length (by decide)
      · exact ihr _ _ h
    · split at h
      · simp at h; subst h; exact notGuardMsg_of_length (by decide)
      · exact ihr _ _ h
    · simp at h; subst h; exact ihv _ hv

/-- No panic raised inside `translateRecursive` carries a message of the entry
guard. -/
theorem translateRecursive_panic_msg (v : Val) :
    ∀ cf og m, translateRecursive cf og v = .panic m → notGuardMsg m := by
  induction v using Val.induct with
  | leaf k t d =>
    intro cf og m h
    simp only [translateRecursive] at h
    split at h
    · simp at h
    · split at h
      · simp at h; subst h; exact notGuardMsg_of_length (by decide)
      · simp at h
  | nilPtr t => intro cf og m h; simp [translateRecursive] at h
  | ptr t e ih =>
    intro cf og m h
    simp only [translateRecursive] at h
    split at h
    · simp at h; subst h; exact notGuardMsg_of_length (by decide)
    · cases he : translateRecursive cf og e <;> rw [he] at h <;> simp only at h
      · simp at h
      · split at h
        · simp at h; subst h; exact notGuardMsg_of_length (by decide)
        · simp at h
      · simp at h; subst h; exact ih _ _ _ he
  | nilIface t =>
    intro cf og m h
    simp [translateRecursive] at h; subst h; exact notGuardMsg_of_length (by decide)
  | iface t held ih =>
    intro cf og m h
    simp only [translateRecursive] at h
    cases he : translateRecursive Flag.clear og.ro held <;> rw [he] at h <;> simp only at h
    · split at h
      · simp at h; subst h; exact notGuardMsg_of_length (by decide)
      · simp at h
    · simp at h; subst h; exact notGuardMsg_interfacePanic _ _
    · simp at h; subst h; exact ih _ _ _ he
  | struct t fs ih =>
    intro cf og m h
    simp only [translateRecursive] at h
    cases he : translateFields cf og fs <;> rw [he] at h <;> simp at h
    subst h; exact translateFields_panic_msg fs ih _ _ _ he
  | array t es _ =>
    intro cf og m h
    simp [translateRecursive] at h; subst h; exact notGuardMsg_of_length (by decide)
  | nilSlice t =>
    intro cf og m h
    simp only [translateRecursive] at h
    split at h
    · simp at h; subst h; exact notGuardMsg_of_length (by decide)
    · simp at h
  | slice t es c ih =>
    intro cf og m h
    simp only [translateRecursive] at h
    split at h
    · simp at h; subst h; exact notGuardMsg_of_length (by decide)
    · split at h
      · simp at h; subst h; exact notGuardMsg_of_length (by decide)
      · cases he : translateElems cf.ro og.ro es <;> rw [he] at h <;> simp at h
        subst h; exact translateElems_panic_msg es ih _ _ _ he
  | nilMap t =>
    intro cf og m h
    simp only [translateRecursive] at h
    split at h
    · simp at h; subst h; exact notGuardMsg_of_length (by decide)
    · simp at h
  | map t es ih =>
    intro cf og m h
    simp only [translateRecursive] at h
    split at h
    · simp at h; subst h; exact notGuardMsg_of_length (by decide)
    · cases he : translateEntries og [] es <;> rw [he] at h <;> simp at h
      subst h; exact translateEntries_panic_msg es ih _ _ _ he

/-! ## C7, C8, C10: the entry guard -/

/-- C7 (entry preconditions): `Translate` panics with "must be pointer" when
`obj` is not of pointer kind and with "must be not nil" when it is a nil
pointer, in both cases leaving `obj` as it was; for a non-nil pointer neither
of the two panics is raised. -/
theorem Translate_entry_guard :
    (∀ obj, isPointer obj = false → Translate obj = ⟨some "must be pointer", obj⟩) ∧
    (∀ t, Translate (some (.nilPtr t)) = ⟨some "must be not nil", some (.nilPtr t)⟩) ∧
    (∀ t e, (Translate (some (.ptr t e))).panic ≠ some "must be pointer" ∧
      (Translate (some (.ptr t e))).panic ≠ some "must be not nil") := by
  refine ⟨?_, fun t => rfl, ?_⟩
  · intro obj h
    unfold Translate
    split
    · simp [isPointer] at h
    · simp [isPointer] at h
    · rfl
  · intro t e
    have key : ∀ m, (Translate (some (.ptr t e))).panic = some m → notGuardMsg m := by
      intro m hm
      unfold Translate at hm
      simp only at hm
      split at hm <;> rename_i heq <;> simp only [Option.some.injEq] at hm
      · subst hm; exact translateRecursive_panic_msg _ _ _ _ heq
      · subst hm
        apply notGuardMsg_of_length
        have h : "translate failed, err: ".length = 23 := by decide
        simp only [String.length_append, h]
        omega
      · simp at hm
      · subst hm; exact notGuardMsg_of_length (by decide)
    exact ⟨fun h => (key _ h).1 rfl, fun h => (key _ h).2 rfl⟩

/-- Witness for C7: a struct passed by value is rejected. -/
theorem Translate_entry_guard_witness :
    Translate (some (.struct "S" [(Vis.exported, .nilSlice "[]int")]))
      = ⟨some "must be pointer", some (.struct "S" [(Vis.exported, .nilSlice "[]int")])⟩ :=
  Translate_entry_guard.1 _ rfl

/-- C8, as stated, fails: the pointee `struct{ x int }` escalates (the builder
returns an error on it), yet `Translate` does not abort. -/
theorem Translate_escalation_counterexample :
    translateRecursive Flag.clear Flag.clear
        (.struct "S" [(Vis.unexported, .leaf "int" "int" "0")]) = .error "cannot set: int" ∧
    (Translate (some (.ptr "*S" (.struct "S" [(Vis.unexported, .leaf "int" "int" "0")])))).panic
      = none := by
  constructor <;> rfl

/-- C8, amended: for every non-nil pointer whose pointee escalates (the builder
returns an error on the pointee), the pointer case absorbs the error, so
`Translate` returns normally and leaves the pointee unmodified. -/
theorem Translate_escalation_absorbed (t : String) (e : Val) (m : String)
    (h : translateRecursive Flag.clear Flag.clear e = .error m) :
    Translate (some (.ptr t e)) = ⟨none, some (.ptr t e)⟩ := by
  simp [Translate, translateRecursive, h]

/-- Witness for amended C8: `&struct{ x int; S []int }{}`. -/
theorem Translate_escalation_absorbed_witness :
    Translate (some (.ptr "*S" (.struct "S"
        [(Vis.unexported, .leaf "int" "int" "0"), (Vis.exported, .nilSlice "[]int")])))
      = ⟨none, some (.ptr "*S" (.struct "S"
        [(Vis.unexported, .leaf "int" "int" "0"), (Vis.exported, .nilSlice "[]int")]))⟩ :=
  Translate_escalation_absorbed "*S" _ "cannot set: int" rfl

/-- C10 at the failing inputs: with a nil interface as an exported struct
field, as an element of a slice of interfaces, or as a value of a map to
interfaces, `Translate` aborts with the panic of `Value.Type` on the zero
`Value`. -/
theorem Translate_nil_interface_panics :
    (Translate (some (.ptr "*S" (.struct "S" [(Vis.exported, .nilIface "interface {}")])))).panic
      = some typePanic ∧
    (Translate (some (.ptr "*[]interface {}"
        (.slice "[]interface {}" [.nilIface "interface {}"] 1)))).panic = some typePanic ∧
    (Translate (some (.ptr "*map[string]interface {}"
        (.map "map[string]interface {}" [(⟨"a", true⟩, .nilIface "interface {}")])))).panic
      = some typePanic := by
  refine ⟨rfl, rfl, rfl⟩

/-! ## The three loops, inverted -/

@[simp] theorem Flag.isRO_ro (f : Flag) : f.ro.isRO = f.isRO := by
  simp [Flag.ro, Flag.isRO]

/-- A successful field loop: field by field, same visibility and a child
result. -/
theorem translateFields_ok_inv (fs : List (Vis × Val)) :
    ∀ cf og fs', translateFields cf og fs = .ok fs' →
      List.Forall₂ (fun f f' => f'.1 = f.1 ∧
        childResult (cf.field f.1) (og.field f.1) f.2 f'.2) fs fs' := by
  induction fs with
  | nil => intro cf og fs' h; simp [translateFields] at h; subst h; exact .nil
  | cons f fs ih =>
    obtain ⟨vis, v⟩ := f
    intro cf og fs' h
    simp only [translateFields] at h
    cases hv : translateRecursive (cf.field vis) (og.field vis) v <;> rw [hv] at h <;>
      simp only at h
    · cases hr : translateFields cf og fs <;> rw [hr] at h <;> simp at h
      subst h
      exact .cons ⟨rfl, Or.inl hv⟩ (ih _ _ _ hr)
    · split at h
      · simp at h
      · split at h
        · simp at h
        · cases hr : translateFields cf og fs <;> rw [hr] at h <;> simp at h
          subst h
          refine .cons ⟨rfl, Or.inr ⟨⟨_, hv⟩, rfl, ?_, ?_⟩⟩ (ih _ _ _ hr) <;> simp_all
    · simp at h

/-- A successful element loop: element by element a child result. -/
theorem translateElems_ok_inv (vs : List Val) :
    ∀ cf og vs', translateElems cf og vs = .ok vs' →
      List.Forall₂ (fun v v' => childResult cf og v v') vs vs' := by
  induction vs with
  | nil => intro cf og vs' h; simp [translateElems] at h; subst h; exact .nil
  | cons v vs ih =>
    intro cf og vs' h
    simp only [translateElems] at h
    cases hv : translateRecursive cf og v <;> rw [hv] at h <;> simp only at h
    · cases hr : translateElems cf og vs <;> rw [hr] at h <;> simp at h
      subst h
      exact .cons (Or.inl hv) (ih _ _ _ hr)
    · split at h
      · simp at h
      · cases hr : translateElems cf og vs <;> rw [hr] at h <;> simp at h
        subst h
        refine .cons (Or.inr ⟨⟨_, hv⟩, rfl, ?_, ?_⟩) (ih _ _ _ hr) <;> simp_all
    · simp at h

/-- The element loop never returns an error. -/
theorem translateElems_ne_error (vs : List Val) :
    ∀ cf og m, translateElems cf og vs ≠ .error m := by
  induction vs with
  | nil => intro cf og m h; simp [translateElems] at h
  | cons v vs ih =>
    intro cf og m h
    simp only [translateElems] at h
    cases hv : translateRecursive cf og v <;> rw [hv] at h <;> simp only at h
    · cases hr : translateElems cf og vs <;> rw [hr] at h <;> simp at h
      exact ih _ _ _ hr
    · split at h
      · simp at h
      · cases hr : translateElems cf og vs <;> rw [hr] at h <;> simp at h
        exact ih _ _ _ hr
    · simp at h

/-- The entry loop never returns an error. -/
theorem translateEntries_ne_error (es : List (Key × Val)) :
    ∀ og acc m, translateEntries og acc es ≠ .error m := by
  induction es with
  | nil => intro og acc m h; simp [translateEntries] at h
  | cons e es ih =>
    obtain ⟨k, v⟩ := e
    intro og acc m h
    simp only [translateEntries] at h
    cases hk : k.reflexive
    · simp [hk] at h
    simp only [hk, Bool.not_true, Bool.false_eq_true, if_false] at h
    cases hv : translateRecursive Flag.clear og.ro v <;> rw [hv] at h <;> simp only at h
    · split at h
      · simp at h
      · exact ih _ _ _ h
    · split at h
      · simp at h
      · exact ih _ _ _ h
    · simp at h

/-- A successful entry loop: the map holds the result of setting, in order,
under each key of the source a child result of its value. -/
theorem translateEntries_ok_inv (es : List (Key × Val)) :
    ∀ og acc r, translateEntries og acc es = .ok r →
      ∃ l, List.Forall₂ (fun e e' => e'.1 = e.1 ∧ og.isRO = false ∧
          childResult Flag.clear og.ro e.2 e'.2) es l ∧ r = setAll acc l := by
  induction es with
  | nil =>
    intro og acc r h
    simp [translateEntries] at h
    subst h
    exact ⟨[], .nil, rfl⟩
  | cons e es ih =>
    obtain ⟨k, v⟩ := e
    intro og acc r h
    simp only [translateEntries] at h
    cases hk : k.reflexive
    · simp [hk] at h
    simp only [hk, Bool.not_true, Bool.false_eq_true, if_false] at h
    cases hv : translateRecursive Flag.clear og.ro v <;> rw [hv] at h <;> simp only at h
    · rename_i v'
      split at h
      · simp at h
      · rename_i hro
        obtain ⟨l, hl, hr⟩ := ih _ _ _ h
        refine ⟨(k, v') :: l, .cons ⟨rfl, by simpa using hro, Or.inl hv⟩ hl, ?_⟩
        simpa [setAll] using hr
    · split at h
      · simp at h
      · rename_i hro
        obtain ⟨l, hl, hr⟩ := ih _ _ _ h
        refine ⟨(k, v) :: l, .cons ⟨rfl, by simpa using hro,
          Or.inr ⟨⟨_, hv⟩, rfl, rfl, by simpa using hro⟩⟩ hl, ?_⟩
        simpa [setAll] using hr
    · simp at h

/-- A successful entry loop met only keys equal to themselves. -/
theorem translateEntries_ok_reflexive (es : List (Key × Val)) :
    ∀ og acc r, translateEntries og acc es = .ok r → ∀ e ∈ es, e.1.reflexive = true := by
  induction es with
  | nil => intro og acc r _ e he; simp at he
  | cons a es ih =>
    obtain ⟨k, v⟩ := a
    intro og acc r h
    simp only [translateEntries] at h
    cases hk : k.reflexive
    · simp [hk] at h
    simp only [hk, Bool.not_true, Bool.false_eq_true, if_false] at h
    have hrest : ∃ acc' r', translateEntries og acc' es = .ok r' := by
      cases hv : translateRecursive Flag.clear og.ro v <;> rw [hv] at h <;> simp only at h
      · split at h
        · simp at h
        · exact ⟨_, _, h⟩
      · split at h
        · simp at h
        · exact ⟨_, _, h⟩
      · simp at h
    obtain ⟨acc', r', hr'⟩ := hrest
    intro e he
    rcases List.mem_cons.1 he with rfl | he
    · exact hk
    · exact ih _ _ _ hr' e he

/-! ## `SetMapIndex` on association lists -/

theorem mem_SetMapIndex {acc : List (Key × Val)} {k : Key} {v : Val} {p : Key × Val}
    (h : p ∈ SetMapIndex acc k v) : p ∈ acc ∨ p = (k, v) := by
  induction acc with
  | nil => simp [SetMapIndex] at h; exact Or.inr h
  | cons a acc ih =>
    obtain ⟨k', v'⟩ := a
    simp only [SetMapIndex] at h
    split at h
    · rcases List.mem_cons.1 h with h | h
      · exact Or.inr h
      · exact Or.inl (List.mem_cons_of_mem _ h)
    · rcases List.mem_cons.1 h with h | h
      · exact Or.inl (h ▸ List.mem_cons_self _ _)
      · rcases ih h with h | h
        · exact Or.inl (List.mem_cons_of_mem _ h)
        · exact Or.inr h

theorem keys_SetMapIndex (acc : List (Key × Val)) (k : Key) (v : Val) :
    (SetMapIndex acc k v).map Prod.fst =
      if k ∈ acc.map Prod.fst then acc.map Prod.fst else acc.map Prod.fst ++ [k] := by
  induction acc with
  | nil => simp [SetMapIndex]
  | cons a acc ih =>
    obtain ⟨k', v'⟩ := a
    simp only [SetMapIndex]
    by_cases hk : k' = k
    · subst hk; simp
    · have hk' : ¬ k = k' := fun h => hk h.symm
      simp only [hk, if_false, List.map_cons, ih, List.mem_cons, hk', false_or]
      split <;> simp

theorem nodup_keys_SetMapIndex {acc : List (Key × Val)} (k : Key) (v : Val)
    (h : (acc.map Prod.fst).Nodup) : ((SetMapIndex acc k v).map Prod.fst).Nodup := by
  rw [keys_SetMapIndex]
  split
  · exact h
  · rename_i hk
    exact List.Nodup.append h (List.nodup_singleton k) (by simpa using hk)

theorem SetMapIndex_of_not_mem {acc : List (Key × Val)} {k : Key} (v : Val)
    (h : k ∉ acc.map Prod.fst) : SetMapIndex acc k v = acc ++ [(k, v)] := by
  induction acc with
  | nil => simp [SetMapIndex]
  | cons a acc ih =>
    obtain ⟨k', v'⟩ := a
    simp only [List.map_cons, List.mem_cons, not_or] at h
    have hk : ¬ k' = k := fun e => h.1 e.symm
    simp [SetMapIndex, hk, ih h.2]

theorem mem_setAll {l acc : List (Key × Val)} {p : Key × Val}
    (h : p ∈ setAll acc l) : p ∈ acc ∨ p ∈ l := by
  induction l generalizing acc with
  | nil => exact Or.inl h
  | cons e l ih =>
    simp only [setAll, List.foldl_cons] at h
    rcases ih h with h | h
    · rcases mem_SetMapIndex h with h | h
      · exact Or.inl h
      · exact Or.inr (h ▸ List.mem_cons_self _ _)
    · exact Or.inr (List.mem_cons_of_mem _ h)

theorem nodup_keys_setAll {l acc : List (Key × Val)}
    (h : (acc.map Prod.fst).Nodup) : ((setAll acc l).map Prod.fst).Nodup := by
  induction l generalizing acc with
  | nil => exact h
  | cons e l ih =>
    simp only [setAll, List.foldl_cons]
    exact ih (nodup_keys_SetMapIndex _ _ h)

theorem setAll_eq_append {l : List (Key × Val)} :
    ∀ acc : List (Key × Val), (l.map Prod.fst).Nodup →
      (∀ p ∈ l, p.1 ∉ acc.map Prod.fst) → setAll acc l = acc ++ l := by
  induction l with
  | nil => intro acc _ _; simp [setAll]
  | cons e l ih =>
    intro acc hnd hdis
    simp only [List.map_cons, List.nodup_cons] at hnd
    simp only [setAll, List.foldl_cons]
    rw [SetMapIndex_of_not_mem _ (hdis e (List.mem_cons_self _ _))]
    have := ih (acc ++ [(e.1, e.2)]) hnd.2 (by
      intro p hp
      simp only [List.map_append, List.map_cons, List.map_nil, List.mem_append,
        List.mem_singleton, not_or]
      refine ⟨hdis p (List.mem_cons_of_mem _ hp), ?_⟩
      intro hpe
      exact hnd.1 (hpe ▸ List.mem_map_of_mem Prod.fst hp))
    simpa [setAll] using this

/-! ## A successful call, case by case -/

theorem translateRecursive_leaf_ok {cf og : Flag} {k t d : String} {r : Val}
    (h : translateRecursive cf og (.leaf k t d) = .ok r) :
    r = .leaf k t d ∧ cf.isRO = false ∧ og.isRO = false := by
  simp only [translateRecursive] at h
  split at h
  · simp at h
  · split at h
    · simp at h
    · simp at h; simp_all

theorem translateRecursive_ptr_ok {cf og : Flag} {t : String} {e r : Val}
    (h : translateRecursive cf og (.ptr t e) = .ok r) :
    cf.isRO = false ∧ ∃ e', r = .ptr t e' ∧ childResult cf og e e' := by
  simp only [translateRecursive] at h
  split at h
  · simp at h
  · rename_i hcf
    refine ⟨by simpa using hcf, ?_⟩
    cases he : translateRecursive cf og e <;> rw [he] at h <;> simp only at h
    · simp at h; exact ⟨_, h.symm, Or.inl he⟩
    · split at h
      · simp at h
      · rename_i hog
        simp at h
        exact ⟨_, h.symm, Or.inr ⟨⟨_, he⟩, rfl, by simpa using hcf, by simpa using hog⟩⟩
    · simp at h

theorem translateRecursive_iface_ok {cf og : Flag} {t : String} {held r : Val}
    (h : translateRecursive cf og (.iface t held) = .ok r) :
    cf.isRO = false ∧ ∃ held', r = .iface t held' ∧
      translateRecursive Flag.clear og.ro held = .ok held' := by
  simp only [translateRecursive] at h
  cases he : translateRecursive Flag.clear og.ro held <;> rw [he] at h <;> simp only at h
  · split at h
    · simp at h
    · rename_i hcf
      simp at h
      exact ⟨by simpa using hcf, _, h.symm, rfl⟩
  · simp at h
  · simp at h

theorem translateRecursive_struct_ok {cf og : Flag} {t : String} {fs : List (Vis × Val)}
    {r : Val} (h : translateRecursive cf og (.struct t fs) = .ok r) :
    ∃ fs', r = .struct t fs' ∧ translateFields cf og fs = .ok fs' := by
  simp only [translateRecursive] at h
  cases he : translateFields cf og fs <;> rw [he] at h <;> simp at h
  exact ⟨_, h.symm, rfl⟩

theorem translateRecursive_slice_ok {cf og : Flag} {t : String} {es : List Val} {c : Nat}
    {r : Val} (h : translateRecursive cf og (.slice t es c) = .ok r) :
    es.length ≤ c ∧ cf.isRO = false ∧
      ∃ es', r = .slice t es' c ∧ translateElems cf.ro og.ro es = .ok es' := by
  simp only [translateRecursive] at h
  split at h
  · simp at h
  · rename_i hc
    split at h
    · simp at h
    · rename_i hcf
      cases he : translateElems cf.ro og.ro es <;> rw [he] at h <;> simp at h
      exact ⟨by omega, by simpa using hcf, _, h.symm, rfl⟩

theorem translateRecursive_map_ok {cf og : Flag} {t : String} {es : List (Key × Val)}
    {r : Val} (h : translateRecursive cf og (.map t es) = .ok r) :
    cf.isRO = false ∧ ∃ es', r = .map t es' ∧ translateEntries og [] es = .ok es' := by
  simp only [translateRecursive] at h
  split at h
  · simp at h
  · rename_i hcf
    cases he : translateEntries og [] es <;> rw [he] at h <;> simp at h
    exact ⟨by simpa using hcf, _, h.symm, rfl⟩

theorem translateRecursive_nilSlice_ok {cf og : Flag} {t : String} {r : Val}
    (h : translateRecursive cf og (.nilSlice t) = .ok r) :
    cf.isRO = false ∧ r = .slice t [] 0 := by
  simp only [translateRecursive] at h
  split at h
  · simp at h
  · rename_i hcf; simp at h; exact ⟨by simpa using hcf, h.symm⟩

theorem translateRecursive_nilMap_ok {cf og : Flag} {t : String} {r : Val}
    (h : translateRecursive cf og (.nilMap t) = .ok r) :
    cf.isRO = false ∧ r = .map t [] := by
  simp only [translateRecursive] at h
  split at h
  · simp at h
  · rename_i hcf; simp at h; exact ⟨by simpa using hcf, h.symm⟩

/-! ## C5: a second pass changes nothing -/

theorem translateFields_fixed {cf og : Flag} {fs fs' : List (Vis × Val)}
    (ih : ∀ f ∈ fs, ∀ cf og r, translateRecursive cf og f.2 = .ok r →
      translateRecursive cf og r = .ok r)
    (h : List.Forall₂ (fun f f' => f'.1 = f.1 ∧
        childResult (cf.field f.1) (og.field f.1) f.2 f'.2) fs fs') :
    translateFields cf og fs' = .ok fs' := by
  induction h with
  | nil => simp [translateFields]
  | @cons f f' fs fs' hf _ ihl =>
    obtain ⟨vis, v⟩ := f
    obtain ⟨vis', v'⟩ := f'
    obtain ⟨hvis, hc⟩ := hf
    simp only at hvis hc
    subst hvis
    have hr := ihl (fun f hf => ih f (List.mem_cons_of_mem _ hf))
    rcases hc with hc | ⟨⟨m, hm⟩, hv, hcf, hog⟩
    · have := ih (vis', v) (List.mem_cons_self _ _) _ _ _ hc
      simp [translateFields, this, hr]
    · subst hv
      simp [translateFields, hm, hcf, hog, hr]

theorem translateElems_fixed {cf og : Flag} {vs vs' : List Val}
    (ih : ∀ v ∈ vs, ∀ cf og r, translateRecursive cf og v = .ok r →
      translateRecursive cf og r = .ok r)
    (h : List.Forall₂ (fun v v' => childResult cf og v v') vs vs') :
    translateElems cf og vs' = .ok vs' := by
  induction h with
  | nil => simp [translateElems]
  | @cons v v' vs vs' hc _ ihl =>
    have hr := ihl (fun f hf => ih f (List.mem_cons_of_mem _ hf))
    rcases hc with hc | ⟨⟨m, hm⟩, hv, hcf, hog⟩
    · have := ih v (List.mem_cons_self _ _) _ _ _ hc
      simp [translateElems, this, hr]
    · subst hv
      simp [translateElems, hm, hcf, hog, hr]

/-- On entries with pairwise distinct keys, none of them set so far, whose
values are each kept by the builder, the entry loop appends the entries
unchanged. -/
theorem translateEntries_fixed {og : Flag} (hog : og.isRO = false) (l : List (Key × Val)) :
    ∀ acc : List (Key × Val), (l.map Prod.fst).Nodup →
      (∀ p ∈ l, p.1 ∉ acc.map Prod.fst) →
      (∀ p ∈ l, p.1.reflexive = true ∧
        (translateRecursive Flag.clear og.ro p.2 = .ok p.2 ∨
          ∃ m, translateRecursive Flag.clear og.ro p.2 = .error m)) →
      translateEntries og acc l = .ok (acc ++ l) := by
  induction l with
  | nil => intro acc _ _ _; simp [translateEntries]
  | cons e l ih =>
    obtain ⟨k, v⟩ := e
    intro acc hnd hdis hst
    simp only [List.map_cons, List.nodup_cons] at hnd
    have hk : k ∉ acc.map Prod.fst := hdis (k, v) (List.mem_cons_self _ _)
    have hrest := ih (acc ++ [(k, v)]) hnd.2 (by
      intro p hp
      simp only [List.map_append, List.map_cons, List.map_nil, List.mem_append,
        List.mem_singleton, not_or]
      refine ⟨hdis p (List.mem_cons_of_mem _ hp), ?_⟩
      intro hpe
      exact hnd.1 (hpe ▸ List.mem_map_of_mem Prod.fst hp))
      (fun p hp => hst p (List.mem_cons_of_mem _ hp))
    obtain ⟨hrk, hv⟩ := hst (k, v) (List.mem_cons_self _ _)
    simp only at hrk
    rcases hv with h | ⟨m, h⟩ <;>
      simp only at h <;>
      simp [translateEntries, h, hog, hrk, SetMapIndex_of_not_mem _ hk, hrest]

theorem translateEntries_setAll_fixed {og : Flag} {es l : List (Key × Val)}
    (ih : ∀ e ∈ es, ∀ cf og r, translateRecursive cf og e.2 = .ok r →
      translateRecursive cf og r = .ok r)
    (hrefl : ∀ e ∈ es, e.1.reflexive = true)
    (h : List.Forall₂ (fun e e' => e'.1 = e.1 ∧ og.isRO = false ∧
        childResult Flag.clear og.ro e.2 e'.2) es l) :
    translateEntries og [] (setAll [] l) = .ok (setAll [] l) := by
  have hst : ∀ p ∈ l, og.isRO = false ∧ p.1.reflexive = true ∧
      (translateRecursive Flag.clear og.ro p.2 = .ok p.2 ∨
        ∃ m, translateRecursive Flag.clear og.ro p.2 = .error m) := by
    induction h with
    | nil => intro p hp; simp at hp
    | @cons e e' es l he _ ihl =>
      intro p hp
      rcases List.mem_cons.1 hp with rfl | hp
      · refine ⟨he.2.1, he.1 ▸ hrefl e (List.mem_cons_self _ _), ?_⟩
        rcases he.2.2 with hc | ⟨hm, hv, _, _⟩
        · exact Or.inl (ih e (List.mem_cons_self _ _) _ _ _ hc)
        · exact Or.inr (hv ▸ hm)
      · exact ihl (fun f hf => ih f (List.mem_cons_of_mem _ hf))
          (fun f hf => hrefl f (List.mem_cons_of_mem _ hf)) p hp
  cases hl : setAll [] l with
  | nil => simp [translateEntries]
  | cons p ps =>
    have hmem : ∀ q ∈ setAll [] l, q ∈ l := fun q hq => by
      rcases mem_setAll hq with hq | hq
      · simp at hq
      · exact hq
    have hp : p ∈ l := hmem p (hl ▸ List.mem_cons_self _ _)
    have hnd : ((setAll [] l).map Prod.fst).Nodup := nodup_keys_setAll (by simp)
    have := translateEntries_fixed (hst p hp).1 (setAll [] l) [] hnd (by simp)
      (fun q hq => (hst q (hmem q hq)).2)
    simpa [hl] using this

/-- What the builder returned once, it returns again when run on it. -/
theorem translateRecursive_fixed (v : Val) :
    ∀ cf og r, translateRecursive cf og v = .ok r → translateRecursive cf og r = .ok r := by
  induction v using Val.induct with
  | leaf k t d =>
    intro cf og r h
    obtain ⟨rfl, _, _⟩ := translateRecursive_leaf_ok h
    exact h
  | nilPtr t => intro cf og r h; simp [translateRecursive] at h; subst h; rfl
  | ptr t e ih =>
    intro cf og r h
    obtain ⟨hcf, e', rfl, hc⟩ := translateRecursive_ptr_ok h
    rcases hc with hc | ⟨⟨m, hm⟩, hv, _, hog⟩
    · simp [translateRecursive, hcf, ih _ _ _ hc]
    · subst hv; exact h
  | nilIface t => intro cf og r h; simp [translateRecursive] at h
  | iface t held ih =>
    intro cf og r h
    obtain ⟨hcf, held', rfl, hc⟩ := translateRecursive_iface_ok h
    simp [translateRecursive, hcf, ih _ _ _ hc]
  | struct t fs ih =>
    intro cf og r h
    obtain ⟨fs', rfl, hf⟩ := translateRecursive_struct_ok h
    simp [translateRecursive, translateFields_fixed ih (translateFields_ok_inv _ _ _ _ hf)]
  | array t es _ => intro cf og r h; simp [translateRecursive] at h
  | nilSlice t =>
    intro cf og r h
    obtain ⟨hcf, rfl⟩ := translateRecursive_nilSlice_ok h
    simp [translateRecursive, translateElems, hcf]
  | slice t es c ih =>
    intro cf og r h
    obtain ⟨hc, hcf, es', rfl, he⟩ := translateRecursive_slice_ok h
    have hinv := translateElems_ok_inv _ _ _ _ he
    have hlen : es'.length ≤ c := hinv.length_eq ▸ hc
    simp [translateRecursive, hcf, translateElems_fixed ih hinv, Nat.not_lt.2 hlen]
  | nilMap t =>
    intro cf og r h
    obtain ⟨hcf, rfl⟩ := translateRecursive_nilMap_ok h
    simp [translateRecursive, translateEntries, hcf]
  | map t es ih =>
    intro cf og r h
    obtain ⟨hcf, es', rfl, he⟩ := translateRecursive_map_ok h
    have hrefl := translateEntries_ok_reflexive _ _ _ _ he
    obtain ⟨l, hl, rfl⟩ := translateEntries_ok_inv _ _ _ _ he
    simp [translateRecursive, hcf, translateEntries_setAll_fixed ih hrefl hl]

/-- C5 (idempotence): when `Translate` returns normally on a non-nil pointer, a
second call on the pointer it left behind also returns normally and leaves the
pointee equal to the value produced by the first call. -/
theorem Translate_idempotent (t : String) (e : Val) (after : Option Val)
    (h : Translate (some (.ptr t e)) = ⟨none, after⟩) :
    Translate after = ⟨none, after⟩ := by
  unfold Translate at h
  simp only at h
  split at h <;> rename_i heq
  · simp at h
  · simp at h
  · rename_i t' e'
    simp only [Exit.mk.injEq, true_and] at h
    subst h
    obtain ⟨_, e'', hr, _⟩ := translateRecursive_ptr_ok heq
    cases hr
    have := translateRecursive_fixed _ _ _ _ heq
    simp [Translate, this]
  · simp at h

/-- Witness for C5: `&struct{ A []int; M map[string][]int }{nil, {"a": nil}}`. -/
theorem Translate_idempotent_witness :
    Translate (some (.ptr "*S" (.struct "S" [(Vis.exported, .slice "[]int" [] 0),
        (Vis.exported, .map "map[string][]int" [(⟨"a", true⟩, .slice "[]int" [] 0)])])))
      = ⟨none, some (.ptr "*S" (.struct "S" [(Vis.exported, .slice "[]int" [] 0),
        (Vis.exported, .map "map[string][]int" [(⟨"a", true⟩, .slice "[]int" [] 0)])]))⟩ :=
  Translate_idempotent "*S" (.struct "S" [(Vis.exported, .nilSlice "[]int"),
    (Vis.exported, .map "map[string][]int" [(⟨"a", true⟩, .nilSlice "[]int")])]) _ rfl

/-! ## C3: the result agrees with the input up to nil-to-empty -/

theorem simFields_refl (fs : List (Vis × Val)) (ih : ∀ f ∈ fs, sim f.2 f.2 = true) :
    simFields fs fs = true := by
  induction fs with
  | nil => simp [simFields]
  | cons f fs ihl =>
    obtain ⟨vis, v⟩ := f
    simp [simFields, ih (vis, v) (List.mem_cons_self _ _),
      ihl (fun f hf => ih f (List.mem_cons_of_mem _ hf))]

theorem simElems_refl (vs : List Val) (ih : ∀ v ∈ vs, sim v v = true) :
    simElems vs vs = true := by
  induction vs with
  | nil => simp [simElems]
  | cons v vs ihl =>
    simp [simElems, ih v (List.mem_cons_self _ _),
      ihl (fun f hf => ih f (List.mem_cons_of_mem _ hf))]

theorem simEntries_refl (es : List (Key × Val)) (ih : ∀ e ∈ es, sim e.2 e.2 = true) :
    simEntries es es = true := by
  induction es with
  | nil => simp [simEntries]
  | cons e es ihl =>
    obtain ⟨k, v⟩ := e
    simp [simEntries, ih (k, v) (List.mem_cons_self _ _),
      ihl (fun f hf => ih f (List.mem_cons_of_mem _ hf))]

/-- Every value agrees with itself. -/
theorem sim_refl (v : Val) : sim v v = true := by
  induction v using Val.induct with
  | leaf k t d => simp [sim]
  | nilPtr t => simp [sim]
  | ptr t e ih => simp [sim, ih]
  | nilIface t => simp [sim]
  | iface t h ih => simp [sim, ih]
  | struct t fs ih => simp [sim, simFields_refl fs ih]
  | array t es ih => simp [sim, simElems_refl es ih]
  | nilSlice t => simp [sim]
  | slice t es c ih => simp [sim, simElems_refl es ih]
  | nilMap t => simp [sim]
  | map t es ih => simp [sim, simEntries_refl es ih]

theorem distinctKeysFields_mem {fs : List (Vis × Val)} (h : distinctKeysFields fs = true) :
    ∀ f ∈ fs, distinctKeys f.2 = true := by
  induction fs with
  | nil => intro f hf; simp at hf
  | cons f fs ih =>
    obtain ⟨vis, v⟩ := f
    simp only [distinctKeysFields, Bool.and_eq_true] at h
    intro g hg
    rcases List.mem_cons.1 hg with rfl | hg
    · exact h.1
    · exact ih h.2 g hg

theorem distinctKeysElems_mem {vs : List Val} (h : distinctKeysElems vs = true) :
    ∀ v ∈ vs, distinctKeys v = true := by
  induction vs with
  | nil => intro f hf; simp at hf
  | cons v vs ih =>
    simp only [distinctKeysElems, Bool.and_eq_true] at h
    intro g hg
    rcases List.mem_cons.1 hg with rfl | hg
    · exact h.1
    · exact ih h.2 g hg

theorem distinctKeysEntries_mem {es : List (Key × Val)} (h : distinctKeysEntries es = true) :
    ∀ e ∈ es, distinctKeys e.2 = true := by
  induction es with
  | nil => intro f hf; simp at hf
  | cons e es ih =>
    obtain ⟨k, v⟩ := e
    simp only [distinctKeysEntries, Bool.and_eq_true] at h
    intro g hg
    rcases List.mem_cons.1 hg with rfl | hg
    · exact h.1
    · exact ih h.2 g hg

theorem simFields_of_results {cf og : Flag} {fs fs' : List (Vis × Val)}
    (ih : ∀ f ∈ fs, ∀ cf og r, translateRecursive cf og f.2 = .ok r → sim f.2 r = true)
    (h : List.Forall₂ (fun f f' => f'.1 = f.1 ∧
        childResult (cf.field f.1) (og.field f.1) f.2 f'.2) fs fs') :
    simFields fs fs' = true := by
  induction h with
  | nil => simp [simFields]
  | @cons f f' fs fs' hf _ ihl =>
    obtain ⟨vis, v⟩ := f
    obtain ⟨vis', v'⟩ := f'
    obtain ⟨hvis, hc⟩ := hf
    simp only at hvis hc
    subst hvis
    have hr := ihl (fun f hf => ih f (List.mem_cons_of_mem _ hf))
    have hv : sim v v' = true := by
      rcases hc with hc | ⟨_, hv, _, _⟩
      · exact ih (vis', v) (List.mem_cons_self _ _) _ _ _ hc
      · exact hv ▸ sim_refl v
    simp [simFields, hv, hr]

theorem simElems_of_results {cf og : Flag} {vs vs' : List Val}
    (ih : ∀ v ∈ vs, ∀ cf og r, translateRecursive cf og v = .ok r → sim v r = true)
    (h : List.Forall₂ (fun v v' => childResult cf og v v') vs vs') :
    simElems vs vs' = true := by
  induction h with
  | nil => simp [simElems]
  | @cons v v' vs vs' hc _ ihl =>
    have hr := ihl (fun f hf => ih f (List.mem_cons_of_mem _ hf))
    have hv : sim v v' = true := by
      rcases hc with hc | ⟨_, hv, _, _⟩
      · exact ih v (List.mem_cons_self _ _) _ _ _ hc
      · exact hv ▸ sim_refl v
    simp [simElems, hv, hr]

theorem simEntries_of_results {og : Flag} {es l : List (Key × Val)}
    (ih : ∀ e ∈ es, ∀ cf og r, translateRecursive cf og e.2 = .ok r → sim e.2 r = true)
    (h : List.Forall₂ (fun e e' => e'.1 = e.1 ∧ og.isRO = false ∧
        childResult Flag.clear og.ro e.2 e'.2) es l) :
    simEntries es l = true ∧ l.map Prod.fst = es.map Prod.fst := by
  induction h with
  | nil => simp [simEntries]
  | @cons e e' es l he _ ihl =>
    obtain ⟨k, v⟩ := e
    obtain ⟨k', v'⟩ := e'
    obtain ⟨hk, _, hc⟩ := he
    simp only at hk hc
    subst hk
    have hr := ihl (fun f hf => ih f (List.mem_cons_of_mem _ hf))
    have hv : sim v v' = true := by
      rcases hc with hc | ⟨_, hv, _, _⟩
      · exact ih (k', v) (List.mem_cons_self _ _) _ _ _ hc
      · exact hv ▸ sim_refl v
    simp [simEntries, hv, hr.1, hr.2]

/-- On a value whose maps have distinct keys, what the builder returns agrees
with the source up to nil-to-empty. -/
theorem translateRecursive_sim (v : Val) :
    distinctKeys v = true →
      ∀ cf og r, translateRecursive cf og v = .ok r → sim v r = true := by
  induction v using Val.induct with
  | leaf k t d =>
    intro _ cf og r h
    obtain ⟨rfl, _, _⟩ := translateRecursive_leaf_ok h
    exact sim_refl _
  | nilPtr t => intro _ cf og r h; simp [translateRecursive] at h; subst h; exact sim_refl _
  | ptr t e ih =>
    intro hd cf og r h
    simp only [distinctKeys] at hd
    obtain ⟨_, e', rfl, hc⟩ := translateRecursive_ptr_ok h
    rcases hc with hc | ⟨_, hv, _, _⟩
    · simp [sim, ih hd _ _ _ hc]
    · subst hv; exact sim_refl _
  | nilIface t => intro _ cf og r h; simp [translateRecursive] at h
  | iface t held ih =>
    intro hd cf og r h
    simp only [distinctKeys] at hd
    obtain ⟨_, held', rfl, hc⟩ := translateRecursive_iface_ok h
    simp [sim, ih hd _ _ _ hc]
  | struct t fs ih =>
    intro hd cf og r h
    simp only [distinctKeys] at hd
    obtain ⟨fs', rfl, hf⟩ := translateRecursive_struct_ok h
    have := simFields_of_results
      (fun f hf => ih f hf (distinctKeysFields_mem hd f hf)) (translateFields_ok_inv _ _ _ _ hf)
    simp [sim, this]
  | array t es _ => intro _ cf og r h; simp [translateRecursive] at h
  | nilSlice t =>
    intro _ cf og r h
    obtain ⟨_, rfl⟩ := translateRecursive_nilSlice_ok h
    simp [sim]
  | slice t es c ih =>
    intro hd cf og r h
    simp only [distinctKeys] at hd
    obtain ⟨_, _, es', rfl, he⟩ := translateRecursive_slice_ok h
    have := simElems_of_results
      (fun f hf => ih f hf (distinctKeysElems_mem hd f hf)) (translateElems_ok_inv _ _ _ _ he)
    simp [sim, this]
  | nilMap t =>
    intro _ cf og r h
    obtain ⟨_, rfl⟩ := translateRecursive_nilMap_ok h
    simp [sim]
  | map t es ih =>
    intro hd cf og r h
    simp only [distinctKeys, Bool.and_eq_true, decide_eq_true_eq] at hd
    obtain ⟨_, es', rfl, he⟩ := translateRecursive_map_ok h
    obtain ⟨l, hl, rfl⟩ := translateEntries_ok_inv _ _ _ _ he
    obtain ⟨hs, hkeys⟩ := simEntries_of_results
      (fun f hf => ih f hf (distinctKeysEntries_mem hd.2 f hf)) hl
    have : setAll [] l = l := by
      simpa using setAll_eq_append (l := l) [] (hkeys ▸ hd.1) (by simp)
    simp [sim, this, hs]

/-! ## C9: nil pointers stay nil -/

theorem simFields_getElem? {fs fs' : List (Vis × Val)} (h : simFields fs fs' = true) :
    ∀ (i : Nat) (f : Vis × Val), fs[i]? = some f →
      ∃ f', fs'[i]? = some f' ∧ sim f.2 f'.2 = true := by
  induction fs generalizing fs' with
  | nil => intro i f hf; simp at hf
  | cons g fs ih =>
    obtain ⟨vis, v⟩ := g
    cases fs' with
    | nil => simp [simFields] at h
    | cons g' fs' =>
      obtain ⟨vis', v'⟩ := g'
      simp only [simFields, Bool.and_eq_true] at h
      intro i f hf
      cases i with
      | zero =>
        simp only [List.getElem?_cons_zero, Option.some.injEq] at hf
        subst hf
        exact ⟨(vis', v'), by simp, h.1.2⟩
      | succ i =>
        simp only [List.getElem?_cons_succ] at hf ⊢
        exact ih h.2 i f hf

theorem simElems_getElem? {vs vs' : List Val} (h : simElems vs vs' = true) :
    ∀ (i : Nat) (v : Val), vs[i]? = some v →
      ∃ v', vs'[i]? = some v' ∧ sim v v' = true := by
  induction vs generalizing vs' with
  | nil => intro i f hf; simp at hf
  | cons g vs ih =>
    cases vs' with
    | nil => simp [simElems] at h
    | cons g' vs' =>
      simp only [simElems, Bool.and_eq_true] at h
      intro i f hf
      cases i with
      | zero =>
        simp only [List.getElem?_cons_zero, Option.some.injEq] at hf
        subst hf
        exact ⟨g', by simp, h.1⟩
      | succ i =>
        simp only [List.getElem?_cons_succ] at hf ⊢
        exact ih h.2 i f hf

theorem simEntries_lookup {es es' : List (Key × Val)} (h : simEntries es es' = true) :
    ∀ (k : Key) (v : Val), es.lookup k = some v →
      ∃ v', es'.lookup k = some v' ∧ sim v v' = true := by
  induction es generalizing es' with
  | nil => intro k v hv; simp at hv
  | cons g es ih =>
    obtain ⟨k0, v0⟩ := g
    cases es' with
    | nil => simp [simEntries] at h
    | cons g' es' =>
      obtain ⟨k1, v1⟩ := g'
      simp only [simEntries, Bool.and_eq_true, decide_eq_true_eq] at h
      obtain ⟨⟨hk, hv01⟩, hrest⟩ := h
      subst hk
      intro k v hv
      by_cases hkk : k = k0
      · subst hkk
        simp only [List.lookup_cons, beq_self_eq_true, Option.some.injEq] at hv ⊢
        subst hv
        exact ⟨v1, rfl, hv01⟩
      · have hb : (k == k0) = false := by simpa using hkk
        simp only [List.lookup_cons, hb] at hv ⊢
        exact ih hrest k v hv

/-- Agreement up to nil-to-empty goes down to the children. -/
theorem sim_child {v r : Val} (h : sim v r = true) (s : Step) (c : Val)
    (hc : v.child s = some c) : ∃ c', r.child s = some c' ∧ sim c c' = true := by
  cases v <;> cases s <;> simp only [Val.child] at hc <;> try (cases hc; done)
  all_goals cases r <;> simp only [sim, Bool.and_eq_true] at h <;> try (cases h; done)
  · cases hc; exact ⟨_, rfl, h.2⟩
  · cases hc; exact ⟨_, rfl, h.2⟩
  · rename_i fs i _ fs'
    cases hf : fs[i]? with
    | none => simp [hf] at hc
    | some f =>
      simp only [hf, Option.map_some', Option.some.injEq] at hc
      subst hc
      obtain ⟨f', hf', hs⟩ := simFields_getElem? h.2 i f hf
      exact ⟨f'.2, by simp [Val.child, hf'], hs⟩
  · exact simElems_getElem? h.2 _ _ hc
  · exact simElems_getElem? h.2 _ _ hc
  · exact simEntries_lookup h.2 _ _ hc

/-- Agreement up to nil-to-empty goes down along every path. -/
theorem sim_follow (path : List Step) :
    ∀ {v r : Val}, sim v r = true → ∀ c, v.follow path = some c →
      ∃ c', r.follow path = some c' ∧ sim c c' = true := by
  induction path with
  | nil =>
    intro v r h c hc
    simp only [Val.follow, Option.some.injEq] at hc
    subst hc
    exact ⟨r, rfl, h⟩
  | cons s path ih =>
    intro v r h c hc
    simp only [Val.follow] at hc
    cases hs : v.child s with
    | none => simp [hs] at hc
    | some d =>
      simp only [hs] at hc
      obtain ⟨d', hd', hsim⟩ := sim_child h s d hs
      obtain ⟨c', hc', hcs⟩ := ih hsim c hc
      exact ⟨c', by simp [Val.follow, hd', hc'], hcs⟩

/-- C9 (non-sequence absence preserved): when `Translate` returns normally on a
non-nil pointer (to a value whose maps have distinct keys, as every Go map
has), every pointer that was nil in the original value, at any depth (behind
struct fields, slice elements, map values, pointers and interfaces), is still
a nil pointer of the same type, at the same position, in the result. -/
theorem Translate_nil_pointer_stays_nil (t : String) (e : Val) (after : Option Val)
    (path : List Step) (tn : String)
    (hk : distinctKeys e = true)
    (h : Translate (some (.ptr t e)) = ⟨none, after⟩)
    (hp : e.follow path = some (.nilPtr tn)) :
    ∃ e', after = some (.ptr t e') ∧ e'.follow path = some (.nilPtr tn) := by
  unfold Translate at h
  simp only at h
  split at h <;> rename_i heq
  · simp at h
  · simp at h
  · rename_i t' e'
    simp only [Exit.mk.injEq, true_and] at h
    subst h
    have hs := translateRecursive_sim (.ptr t e) (by simpa [distinctKeys] using hk) _ _ _ heq
    simp only [sim, Bool.and_eq_true] at hs
    obtain ⟨c', hc', hcs⟩ := sim_follow path hs.2 _ hp
    refine ⟨e', rfl, ?_⟩
    cases c' <;> simp only [sim] at hcs <;> try cases hcs
    simp only [beq_iff_eq] at hcs
    subst hcs
    exact hc'
  · simp at h

/-- Witness for C9: `&struct{ A []*int; M map[string]*int }{{nil}, {"a": nil}}`,
the nil pointer under key "a" of the map field. -/
theorem Translate_nil_pointer_stays_nil_witness :
    ∃ e', some (Val.ptr "*S" (.struct "S" [(Vis.exported, .slice "[]*int" [.nilPtr "*int"] 1),
          (Vis.exported, .map "map[string]*int" [(⟨"a", true⟩, .nilPtr "*int")])]))
        = some (.ptr "*S" e') ∧
      e'.follow [.field 1, .key ⟨"a", true⟩] = some (.nilPtr "*int") :=
  Translate_nil_pointer_stays_nil "*S"
    (.struct "S" [(Vis.exported, .slice "[]*int" [.nilPtr "*int"] 1),
      (Vis.exported, .map "map[string]*int" [(⟨"a", true⟩, .nilPtr "*int")])])
    _ [.field 1, .key ⟨"a", true⟩] "*int" rfl rfl rfl

/-! ## C4: no nil slice survives where every field is exported -/

theorem exportedOnlyFields_mem {fs : List (Vis × Val)} (h : exportedOnlyFields fs = true) :
    ∀ f ∈ fs, f.1 = Vis.exported ∧ exportedOnly f.2 = true := by
  induction fs with
  | nil => intro f hf; simp at hf
  | cons f fs ih =>
    obtain ⟨vis, v⟩ := f
    simp only [exportedOnlyFields, Bool.and_eq_true, decide_eq_true_eq] at h
    intro g hg
    rcases List.mem_cons.1 hg with rfl | hg
    · exact h.1
    · exact ih h.2 g hg

theorem exportedOnlyElems_mem {vs : List Val} (h : exportedOnlyElems vs = true) :
    ∀ v ∈ vs, exportedOnly v = true := by
  induction vs with
  | nil => intro f hf; simp at hf
  | cons v vs ih =>
    simp only [exportedOnlyElems, Bool.and_eq_true] at h
    intro g hg
    rcases List.mem_cons.1 hg with rfl | hg
    · exact h.1
    · exact ih h.2 g hg

theorem exportedOnlyEntries_mem {es : List (Key × Val)} (h : exportedOnlyEntries es = true) :
    ∀ e ∈ es, exportedOnly e.2 = true := by
  induction es with
  | nil => intro f hf; simp at hf
  | cons e es ih =>
    obtain ⟨k, v⟩ := e
    simp only [exportedOnlyEntries, Bool.and_eq_true] at h
    intro g hg
    rcases List.mem_cons.1 hg with rfl | hg
    · exact h.1
    · exact ih h.2 g hg

theorem noNilSliceEntries_of_mem (es : List (Key × Val))
    (h : ∀ e ∈ es, noNilSlice e.2 = true) : noNilSliceEntries es = true := by
  induction es with
  | nil => simp [noNilSliceEntries]
  | cons e es ih =>
    obtain ⟨k, v⟩ := e
    simp [noNilSliceEntries, h (k, v) (List.mem_cons_self _ _),
      ih (fun f hf => h f (List.mem_cons_of_mem _ hf))]

theorem noNilSliceFields_of_results {fs fs' : List (Vis × Val)}
    (ih : ∀ f ∈ fs, f.1 = Vis.exported ∧
      (∀ m, translateRecursive Flag.clear Flag.clear f.2 ≠ .error m) ∧
      ∀ r, translateRecursive Flag.clear Flag.clear f.2 = .ok r → noNilSlice r = true)
    (h : List.Forall₂ (fun f f' => f'.1 = f.1 ∧
        childResult (Flag.clear.field f.1) (Flag.clear.field f.1) f.2 f'.2) fs fs') :
    noNilSliceFields fs' = true := by
  induction h with
  | nil => simp [noNilSliceFields]
  | @cons f f' fs fs' hf _ ihl =>
    obtain ⟨vis, v⟩ := f
    obtain ⟨vis', v'⟩ := f'
    obtain ⟨hvis, hc⟩ := hf
    obtain ⟨he, hne, hok⟩ := ih (vis, v) (List.mem_cons_self _ _)
    simp only at hvis hc he hne hok
    subst he
    have hr := ihl (fun f hf => ih f (List.mem_cons_of_mem _ hf))
    rcases hc with hc | ⟨⟨m, hm⟩, _⟩
    · simp [noNilSliceFields, hok _ hc, hr]
    · exact absurd hm (hne m)

theorem noNilSliceElems_of_results {vs vs' : List Val}
    (ih : ∀ v ∈ vs, (∀ m, translateRecursive Flag.clear Flag.clear v ≠ .error m) ∧
      ∀ r, translateRecursive Flag.clear Flag.clear v = .ok r → noNilSlice r = true)
    (h : List.Forall₂ (fun v v' => childResult Flag.clear Flag.clear v v') vs vs') :
    noNilSliceElems vs' = true := by
  induction h with
  | nil => simp [noNilSliceElems]
  | @cons v v' vs vs' hc _ ihl =>
    obtain ⟨hne, hok⟩ := ih v (List.mem_cons_self _ _)
    have hr := ihl (fun f hf => ih f (List.mem_cons_of_mem _ hf))
    rcases hc with hc | ⟨⟨m, hm⟩, _⟩
    · simp [noNilSliceElems, hok _ hc, hr]
    · exact absurd hm (hne m)

theorem noNilSlice_of_entry_results {es l : List (Key × Val)}
    (ih : ∀ e ∈ es, (∀ m, translateRecursive Flag.clear Flag.clear e.2 ≠ .error m) ∧
      ∀ r, translateRecursive Flag.clear Flag.clear e.2 = .ok r → noNilSlice r = true)
    (h : List.Forall₂ (fun e e' => e'.1 = e.1 ∧ Flag.clear.isRO = false ∧
        childResult Flag.clear Flag.clear.ro e.2 e'.2) es l) :
    ∀ p ∈ l, noNilSlice p.2 = true := by
  induction h with
  | nil => intro p hp; simp at hp
  | @cons e e' es l he _ ihl =>
    obtain ⟨hne, hok⟩ := ih e (List.mem_cons_self _ _)
    intro p hp
    rcases List.mem_cons.1 hp with rfl | hp
    · rcases he.2.2 with hc | ⟨⟨m, hm⟩, _⟩
      · exact hok _ hc
      · exact absurd hm (hne m)
    · exact ihl (fun f hf => ih f (List.mem_cons_of_mem _ hf)) p hp

/-- Where no struct has an unexported field, the builder never returns an
error and its result holds no nil slice. -/
theorem translateRecursive_exportedOnly (v : Val) :
    exportedOnly v = true →
      (∀ m, translateRecursive Flag.clear Flag.clear v ≠ .error m) ∧
      ∀ r, translateRecursive Flag.clear Flag.clear v = .ok r → noNilSlice r = true := by
  induction v using Val.induct with
  | leaf k t d =>
    intro _
    refine ⟨fun m h => by simp [translateRecursive] at h, fun r h => ?_⟩
    obtain ⟨rfl, _, _⟩ := translateRecursive_leaf_ok h
    rfl
  | nilPtr t =>
    intro _
    refine ⟨fun m h => by simp [translateRecursive] at h, fun r h => ?_⟩
    simp [translateRecursive] at h; subst h; rfl
  | ptr t e ih =>
    intro hx
    simp only [exportedOnly] at hx
    obtain ⟨hne, hok⟩ := ih hx
    constructor
    · intro m h
      simp only [translateRecursive, Flag.isRO_clear] at h
      cases he : translateRecursive Flag.clear Flag.clear e <;> rw [he] at h <;> simp at h
    · intro r h
      obtain ⟨_, e', rfl, hc⟩ := translateRecursive_ptr_ok h
      rcases hc with hc | ⟨⟨m, hm⟩, _⟩
      · simpa [noNilSlice] using hok _ hc
      · exact absurd hm (hne m)
  | nilIface t =>
    intro _
    exact ⟨fun m h => by simp [translateRecursive] at h,
      fun r h => by simp [translateRecursive] at h⟩
  | iface t held ih =>
    intro hx
    simp only [exportedOnly] at hx
    obtain ⟨hne, hok⟩ := ih hx
    constructor
    · intro m h
      simp only [translateRecursive, Flag.isRO_clear, Flag.ro_clear] at h
      cases he : translateRecursive Flag.clear Flag.clear held <;> rw [he] at h <;> simp at h
    · intro r h
      obtain ⟨_, held', rfl, hc⟩ := translateRecursive_iface_ok h
      simpa [noNilSlice] using hok _ hc
  | struct t fs ih =>
    intro hx
    simp only [exportedOnly] at hx
    have hmem := exportedOnlyFields_mem hx
    constructor
    · intro m h
      simp only [translateRecursive] at h
      cases he : translateFields Flag.clear Flag.clear fs <;> rw [he] at h <;> simp at h
      exact (translateFields_exported fs (fun f hf => (hmem f hf).1)).1 _ he
    · intro r h
      obtain ⟨fs', rfl, hf⟩ := translateRecursive_struct_ok h
      have := noNilSliceFields_of_results
        (fun f hf => ⟨(hmem f hf).1, ih f hf (hmem f hf).2⟩) (translateFields_ok_inv _ _ _ _ hf)
      simpa [noNilSlice] using this
  | array t es _ =>
    intro _
    exact ⟨fun m h => by simp [translateRecursive] at h,
      fun r h => by simp [translateRecursive] at h⟩
  | nilSlice t =>
    intro _
    refine ⟨fun m h => by simp [translateRecursive] at h, fun r h => ?_⟩
    obtain ⟨_, rfl⟩ := translateRecursive_nilSlice_ok h
    rfl
  | slice t es c ih =>
    intro hx
    simp only [exportedOnly] at hx
    have hmem := exportedOnlyElems_mem hx
    constructor
    · intro m h
      simp only [translateRecursive] at h
      split at h
      · simp at h
      · split at h
        · simp at h
        · cases he : translateElems Flag.clear.ro Flag.clear.ro es <;> rw [he] at h <;>
            simp at h
          exact translateElems_ne_error _ _ _ _ he
    · intro r h
      obtain ⟨_, _, es', rfl, he⟩ := translateRecursive_slice_ok h
      have := noNilSliceElems_of_results
        (fun f hf => ih f hf (hmem f hf)) (translateElems_ok_inv _ _ _ _ he)
      simpa [noNilSlice] using this
  | nilMap t =>
    intro _
    refine ⟨fun m h => by simp [translateRecursive] at h, fun r h => ?_⟩
    obtain ⟨_, rfl⟩ := translateRecursive_nilMap_ok h
    rfl
  | map t es ih =>
    intro hx
    simp only [exportedOnly] at hx
    have hmem := exportedOnlyEntries_mem hx
    constructor
    · intro m h
      simp only [translateRecursive, Flag.isRO_clear] at h
      cases he : translateEntries Flag.clear [] es <;> rw [he] at h <;> simp at h
      exact translateEntries_ne_error _ _ _ _ he
    · intro r h
      obtain ⟨_, es', rfl, he⟩ := translateRecursive_map_ok h
      obtain ⟨l, hl, rfl⟩ := translateEntries_ok_inv _ _ _ _ he
      have hall := noNilSlice_of_entry_results (fun f hf => ih f hf (hmem f hf)) hl
      have := noNilSliceEntries_of_mem (setAll [] l) (fun p hp => by
        rcases mem_setAll hp with hp | hp
        · simp at hp
        · exact hall p hp)
      simpa [noNilSlice] using this

/-- C4, as stated, fails: on `&struct{ x int; S []int }{}` the call returns
normally (the pointer case falls back to the original) and the nil slice `S`
is still nil afterwards. -/
theorem Translate_nil_slice_survives_counterexample :
    Translate (some (.ptr "*S" (.struct "S"
        [(Vis.unexported, .leaf "int" "int" "0"), (Vis.exported, .nilSlice "[]int")])))
      = ⟨none, some (.ptr "*S" (.struct "S"
        [(Vis.unexported, .leaf "int" "int" "0"), (Vis.exported, .nilSlice "[]int")]))⟩ ∧
    noNilSlice (.ptr "*S" (.struct "S"
        [(Vis.unexported, .leaf "int" "int" "0"), (Vis.exported, .nilSlice "[]int")])) = false := by
  constructor <;> rfl

/-- C4, amended: for every non-nil pointer to a value in which no struct has
an unexported field, if `Translate` returns normally then no nil slice remains
anywhere in the value reachable from the pointer after the call, whether as a
struct field, a slice element, a map value, behind a pointer or inside an
interface. -/
theorem Translate_no_nil_slice_left (t : String) (e : Val) (after : Val)
    (hx : exportedOnly e = true)
    (h : Translate (some (.ptr t e)) = ⟨none, some after⟩) :
    noNilSlice after = true := by
  unfold Translate at h
  simp only at h
  split at h <;> rename_i heq
  · simp at h
  · simp at h
  · rename_i t' e'
    simp only [Exit.mk.injEq, true_and, Option.some.injEq] at h
    subst h
    obtain ⟨_, e'', hr, _⟩ := translateRecursive_ptr_ok heq
    cases hr
    exact (translateRecursive_exportedOnly (.ptr t e) (by simpa [exportedOnly] using hx)).2 _ heq
  · simp at h

/-- Witness for amended C4:
`&struct{ A []int; M map[string][]int; I interface{} }{nil, {"a": nil}, [][]int{nil}}`. -/
theorem Translate_no_nil_slice_left_witness :
    noNilSlice (.ptr "*S" (.struct "S" [(Vis.exported, .slice "[]int" [] 0),
        (Vis.exported, .map "map[string][]int" [(⟨"a", true⟩, .slice "[]int" [] 0)]),
        (Vis.exported, .iface "interface {}"
          (.slice "[][]int" [.slice "[]int" [] 0] 1))])) = true :=
  Translate_no_nil_slice_left "*S"
    (.struct "S" [(Vis.exported, .nilSlice "[]int"),
      (Vis.exported, .map "map[string][]int" [(⟨"a", true⟩, .nilSlice "[]int")]),
      (Vis.exported, .iface "interface {}" (.slice "[][]int" [.nilSlice "[]int"] 1))])
    _ rfl rfl

/-! ## C2: on well-formed inputs `Translate` computes `norm` -/

theorem translateFields_wellFormed (fs : List (Vis × Val))
    (ih : ∀ f ∈ fs, wellFormed f.2 = true →
      translateRecursive Flag.clear Flag.clear f.2 = .ok (norm f.2))
    (hw : wellFormedFields fs = true) :
    translateFields Flag.clear Flag.clear fs = .ok (normFields fs) := by
  induction fs with
  | nil => simp [translateFields, normFields]
  | cons f fs ihl =>
    obtain ⟨vis, v⟩ := f
    simp only [wellFormedFields, Bool.and_eq_true, decide_eq_true_eq] at hw
    obtain ⟨⟨hvis, hv⟩, hrest⟩ := hw
    subst hvis
    have h1 := ih (Vis.exported, v) (List.mem_cons_self _ _) hv
    have h2 := ihl (fun f hf => ih f (List.mem_cons_of_mem _ hf)) hrest
    simp only at h1
    simp [translateFields, normFields, h1, h2]

theorem translateElems_wellFormed (vs : List Val)
    (ih : ∀ v ∈ vs, wellFormed v = true →
      translateRecursive Flag.clear Flag.clear v = .ok (norm v))
    (hw : wellFormedElems vs = true) :
    translateElems Flag.clear Flag.clear vs = .ok (normElems vs) := by
  induction vs with
  | nil => simp [translateElems, normElems]
  | cons v vs ihl =>
    simp only [wellFormedElems, Bool.and_eq_true] at hw
    have h1 := ih v (List.mem_cons_self _ _) hw.1
    have h2 := ihl (fun f hf => ih f (List.mem_cons_of_mem _ hf)) hw.2
    simp [translateElems, normElems, h1, h2]

theorem translateEntries_wellFormed (es : List (Key × Val))
    (ih : ∀ e ∈ es, wellFormed e.2 = true →
      translateRecursive Flag.clear Flag.clear e.2 = .ok (norm e.2)) :
    ∀ acc : List (Key × Val), wellFormedEntries es = true → (es.map Prod.fst).Nodup →
      (∀ e ∈ es, e.1 ∉ acc.map Prod.fst) →
      translateEntries Flag.clear acc es = .ok (acc ++ normEntries es) := by
  induction es with
  | nil => intro acc _ _ _; simp [translateEntries, normEntries]
  | cons e es ihl =>
    obtain ⟨k, v⟩ := e
    intro acc hw hnd hdis
    simp only [wellFormedEntries, Bool.and_eq_true] at hw
    simp only [List.map_cons, List.nodup_cons] at hnd
    have hrk : k.reflexive = true := hw.1.1
    have h1 := ih (k, v) (List.mem_cons_self _ _) hw.1.2
    have hk : k ∉ acc.map Prod.fst := hdis (k, v) (List.mem_cons_self _ _)
    have h2 := ihl (fun f hf => ih f (List.mem_cons_of_mem _ hf)) (acc ++ [(k, norm v)])
      hw.2 hnd.2 (by
        intro p hp
        simp only [List.map_append, List.map_cons, List.map_nil, List.mem_append,
          List.mem_singleton, not_or]
        refine ⟨hdis p (List.mem_cons_of_mem _ hp), ?_⟩
        intro hpe
        exact hnd.1 (hpe ▸ List.mem_map_of_mem Prod.fst hp))
    simp only at h1
    simp [translateEntries, normEntries, h1, hrk, SetMapIndex_of_not_mem _ hk, h2]

/-- On a well-formed value the builder succeeds with `norm` of the value. -/
theorem translateRecursive_wellFormed (v : Val) :
    wellFormed v = true → translateRecursive Flag.clear Flag.clear v = .ok (norm v) := by
  induction v using Val.induct with
  | leaf k t d => intro _; simp [translateRecursive, norm]
  | nilPtr t => intro _; simp [translateRecursive, norm]
  | ptr t e ih =>
    intro hw
    simp only [wellFormed] at hw
    simp [translateRecursive, norm, ih hw]
  | nilIface t => intro hw; simp [wellFormed] at hw
  | iface t held ih =>
    intro hw
    simp only [wellFormed] at hw
    simp [translateRecursive, norm, ih hw]
  | struct t fs ih =>
    intro hw
    simp only [wellFormed] at hw
    simp [translateRecursive, norm, translateFields_wellFormed fs ih hw]
  | array t es _ => intro hw; simp [wellFormed] at hw
  | nilSlice t => intro _; simp [translateRecursive, norm]
  | slice t es c ih =>
    intro hw
    simp only [wellFormed, Bool.and_eq_true, decide_eq_true_eq] at hw
    simp [translateRecursive, norm, translateElems_wellFormed es ih hw.2, Nat.not_lt.2 hw.1]
  | nilMap t => intro _; simp [translateRecursive, norm]
  | map t es ih =>
    intro hw
    simp only [wellFormed, Bool.and_eq_true, decide_eq_true_eq] at hw
    have := translateEntries_wellFormed es ih [] hw.2 hw.1 (by simp)
    simp only [List.nil_append] at this
    simp [translateRecursive, norm, this]

/-- The function `norm` keeps the length of a slice. -/
theorem normElems_length (vs : List Val) : (normElems vs).length = vs.length := by
  induction vs with
  | nil => rfl
  | cons v vs ih => simp [normElems, ih]

/-- The function `norm` keeps the keys of a map. -/
theorem normEntries_keys (es : List (Key × Val)) :
    (normEntries es).map Prod.fst = es.map Prod.fst := by
  induction es with
  | nil => rfl
  | cons e es ih => obtain ⟨k, v⟩ := e; simp [normEntries, ih]

/-- C2, as stated, fails: `&map[float64][]int{NaN: nil}` is built only from a
map, a slice and leaves (no unexported field, no array, no nil interface), yet
the call panics, `original.MapIndex(key)` being the zero `Value` for the key
NaN and `originalValue.Type()` panicking on it; the pointee is not `norm` of
what it was, it is unchanged. -/
theorem Translate_eq_norm_counterexample :
    exportedOnly (.map "map[float64][]int" [(⟨"NaN", false⟩, .nilSlice "[]int")]) = true ∧
    distinctKeys (.map "map[float64][]int" [(⟨"NaN", false⟩, .nilSlice "[]int")]) = true ∧
    Translate (some (.ptr "*map[float64][]int"
        (.map "map[float64][]int" [(⟨"NaN", false⟩, .nilSlice "[]int")])))
      = ⟨some typePanic, some (.ptr "*map[float64][]int"
        (.map "map[float64][]int" [(⟨"NaN", false⟩, .nilSlice "[]int")]))⟩ ∧
    norm (.map "map[float64][]int" [(⟨"NaN", false⟩, .nilSlice "[]int")])
      ≠ .map "map[float64][]int" [(⟨"NaN", false⟩, .nilSlice "[]int")] := by
  refine ⟨rfl, rfl, rfl, ?_⟩
  simp [norm, normEntries]

/-- C2, amended (reference equality on well-formed inputs): for every non-nil
pointer to a finite tree built only from structs with exported fields, slices,
maps none of whose keys is unequal to itself (no NaN key), pointers, non-nil
interfaces and leaves, `Translate` returns normally and the pointee afterwards
is `norm` of the pointee before. -/
theorem Translate_eq_norm (t : String) (e : Val) (hw : wellFormed e = true) :
    Translate (some (.ptr t e)) = ⟨none, some (.ptr t (norm e))⟩ := by
  have := translateRecursive_wellFormed (.ptr t e) (by simpa [wellFormed] using hw)
  simp only [norm] at this
  simp [Translate, this]

/-- Witness for amended C2: `&S{B: []*T{nil, &T{}}, M: {"a": nil, "b": {1}}, I: T{}}`
with `type T struct{ A []int; N map[string]int }`. -/
theorem Translate_eq_norm_witness :
    Translate (some (.ptr "*S" (.struct "S" [
        (Vis.exported, .slice "[]*T" [.nilPtr "*T",
          .ptr "*T" (.struct "T" [(Vis.exported, .nilSlice "[]int"),
            (Vis.exported, .nilMap "map[string]int")])] 4),
        (Vis.exported, .map "map[string][]int" [(⟨"a", true⟩, .nilSlice "[]int"),
          (⟨"b", true⟩, .slice "[]int" [.leaf "int" "int" "1"] 1)]),
        (Vis.exported, .iface "interface {}" (.struct "T" [(Vis.exported, .nilSlice "[]int"),
            (Vis.exported, .nilMap "map[string]int")]))])))
      = ⟨none, some (.ptr "*S" (.struct "S" [
        (Vis.exported, .slice "[]*T" [.nilPtr "*T",
          .ptr "*T" (.struct "T" [(Vis.exported, .slice "[]int" [] 0),
            (Vis.exported, .map "map[string]int" [])])] 4),
        (Vis.exported, .map "map[string][]int" [(⟨"a", true⟩, .slice "[]int" [] 0),
          (⟨"b", true⟩, .slice "[]int" [.leaf "int" "int" "1"] 1)]),
        (Vis.exported, .iface "interface {}" (.struct "T" [(Vis.exported, .slice "[]int" [] 0),
            (Vis.exported, .map "map[string]int" [])]))]))⟩ :=
  Translate_eq_norm "*S" _ rfl

/-! ## C12: an interface is transparent -/

/-- The builder returns a value of the type and kind of its source. -/
theorem translateRecursive_type {cf og : Flag} {v r : Val}
    (h : translateRecursive cf og v = .ok r) : r.type = v.type ∧ r.kind = v.kind := by
  cases v with
  | leaf k t d => obtain ⟨rfl, _, _⟩ := translateRecursive_leaf_ok h; exact ⟨rfl, rfl⟩
  | nilPtr t => simp [translateRecursive] at h; subst h; exact ⟨rfl, rfl⟩
  | ptr t e => obtain ⟨_, e', rfl, _⟩ := translateRecursive_ptr_ok h; exact ⟨rfl, rfl⟩
  | nilIface t => simp [translateRecursive] at h
  | iface t held => obtain ⟨_, e', rfl, _⟩ := translateRecursive_iface_ok h; exact ⟨rfl, rfl⟩
  | struct t fs => obtain ⟨fs', rfl, _⟩ := translateRecursive_struct_ok h; exact ⟨rfl, rfl⟩
  | array t es => simp [translateRecursive] at h
  | nilSlice t => obtain ⟨_, rfl⟩ := translateRecursive_nilSlice_ok h; exact ⟨rfl, rfl⟩
  | slice t es c => obtain ⟨_, _, es', rfl, _⟩ := translateRecursive_slice_ok h; exact ⟨rfl, rfl⟩
  | nilMap t => obtain ⟨_, rfl⟩ := translateRecursive_nilMap_ok h; exact ⟨rfl, rfl⟩
  | map t es => obtain ⟨_, es', rfl, _⟩ := translateRecursive_map_ok h; exact ⟨rfl, rfl⟩

/-- C12 (dynamic-slot transparency): for a non-nil interface holding `held`, if
transforming `held` into a fresh settable destination succeeds with result
`held'`, then transforming the interface into a settable destination succeeds
and yields an interface holding exactly `held'`, whose concrete type (and
kind) is that of `held`. -/
theorem translateRecursive_interface_transparent (cf og : Flag) (t : String)
    (held held' : Val) (hcf : cf.isRO = false)
    (h : translateRecursive Flag.clear og.ro held = .ok held') :
    translateRecursive cf og (.iface t held) = .ok (.iface t held') ∧
      held'.type = held.type ∧ held'.kind = held.kind := by
  refine ⟨?_, translateRecursive_type h⟩
  simp [translateRecursive, h, hcf]

/-- Witness for C12: an interface holding `struct{ A []int }{nil}` normalizes
as the struct held directly does. -/
theorem translateRecursive_interface_transparent_witness :
    translateRecursive Flag.clear Flag.clear
        (.iface "interface {}" (.struct "T" [(Vis.exported, .nilSlice "[]int")]))
      = .ok (.iface "interface {}" (.struct "T" [(Vis.exported, .slice "[]int" [] 0)])) ∧
    (Val.struct "T" [(Vis.exported, .slice "[]int" [] 0)]).type
      = (Val.struct "T" [(Vis.exported, .nilSlice "[]int")]).type ∧
    (Val.struct "T" [(Vis.exported, .slice "[]int" [] 0)]).kind
      = (Val.struct "T" [(Vis.exported, .nilSlice "[]int")]).kind :=
  translateRecursive_interface_transparent Flag.clear Flag.clear "interface {}"
    (.struct "T" [(Vis.exported, .nilSlice "[]int")])
    (.struct "T" [(Vis.exported, .slice "[]int" [] 0)]) rfl rfl

/-! ## C14 and C20: arrays and unexported container fields -/

/-- C14 at the failing input: an array reaches `reflect.MakeSlice` with its
array type, which panics, whatever the handles; so `Translate` aborts on
`&struct{ A [2]int }{}`, on `&[2]int{}` and on `&[0]int{}`. -/
theorem Translate_array_panics :
    (∀ cf og t es, translateRecursive cf og (.array t es) = .panic makeSliceKindPanic) ∧
    (Translate (some (.ptr "*S" (.struct "S" [(Vis.exported,
        .array "[2]int" [.leaf "int" "int" "0", .leaf "int" "int" "0"])])))).panic
      = some makeSliceKindPanic ∧
    (Translate (some (.ptr "*[2]int"
        (.array "[2]int" [.leaf "int" "int" "0", .leaf "int" "int" "0"])))).panic
      = some makeSliceKindPanic ∧
    (Translate (some (.ptr "*[0]int" (.array "[0]int" [])))).panic
      = some makeSliceKindPanic := by
  refine ⟨fun cf og t es => ?_, rfl, rfl, rfl⟩
  simp [translateRecursive]

/-- C20 at the failing inputs: an unexported field holding a nil slice, a
non-nil slice, a nil map, a non-nil map or a non-nil pointer makes
`copy.Set` panic and `Translate` abort, whereas an unexported scalar is
reported as the error "cannot set: int". -/
theorem Translate_unexported_container_panics :
    (Translate (some (.ptr "*S" (.struct "S" [(Vis.unexported, .nilSlice "[]int")])))).panic
      = some setPanic ∧
    (Translate (some (.ptr "*S" (.struct "S" [(Vis.unexported,
        .slice "[]int" [.leaf "int" "int" "1"] 1)])))).panic = some setPanic ∧
    (Translate (some (.ptr "*S" (.struct "S" [(Vis.unexported,
        .nilMap "map[string]int")])))).panic = some setPanic ∧
    (Translate (some (.ptr "*S" (.struct "S" [(Vis.unexported,
        .map "map[string]int" [(⟨"a", true⟩, .leaf "int" "int" "1")])])))).panic = some setPanic ∧
    (Translate (some (.ptr "*S" (.struct "S" [(Vis.unexported,
        .ptr "*int" (.leaf "int" "int" "1"))])))).panic = some setPanic ∧
    translateRecursive (Flag.clear.field Vis.unexported) (Flag.clear.field Vis.unexported)
        (.leaf "int" "int" "1") = .error "cannot set: int" := by
  refine ⟨rfl, rfl, rfl, rfl, rfl, rfl⟩

/-! ## C18: the pointer rule -/

/-- C18, as stated, fails: with a settable destination and a source pointer
read through an unexported field (here the pointer `&T{y: 1}` held by an
unexported interface field), the pointee's transformation returns an error and
the fallback `copy.Set(original)` panics instead of setting the destination to
the original pointer. -/
theorem translateRecursive_pointer_fallback_counterexample :
    translateRecursive Flag.clear (Flag.clear.field Vis.unexported).ro
        (.struct "T" [(Vis.unexported, .leaf "int" "int" "1")]) = .error "cannot set: int" ∧
    translateRecursive Flag.clear (Flag.clear.field Vis.unexported).ro
        (.ptr "*T" (.struct "T" [(Vis.unexported, .leaf "int" "int" "1")])) = .panic setPanic ∧
    (Translate (some (.ptr "*S" (.struct "S" [(Vis.unexported, .iface "interface {}"
        (.ptr "*T" (.struct "T" [(Vis.unexported, .leaf "int" "int" "1")])))])))).panic
      = some setPanic := by
  refine ⟨rfl, rfl, rfl⟩

/-- C18, amended: `translateRecursive` on a pointer source never returns an
error.  With a settable destination: if the source is nil the destination is
left nil; if the source is non-nil and the pointee's transformation succeeds
the destination points to a new referent holding the transformed pointee; if
the pointee's transformation returns an error and the source pointer was not
read through an unexported field, the destination is set to the original
pointer itself. -/
theorem translateRecursive_pointer_rule (cf og : Flag) (t : String) (hcf : cf.isRO = false) :
    (∀ cf' og' e m, translateRecursive cf' og' (.nilPtr t) ≠ .error m ∧
      translateRecursive cf' og' (.ptr t e) ≠ .error m) ∧
    translateRecursive cf og (.nilPtr t) = .ok (.nilPtr t) ∧
    (∀ e e', translateRecursive cf og e = .ok e' →
      translateRecursive cf og (.ptr t e) = .ok (.ptr t e')) ∧
    (∀ e m, translateRecursive cf og e = .error m → og.isRO = false →
      translateRecursive cf og (.ptr t e) = .ok (.ptr t e)) := by
  refine ⟨?_, by simp [translateRecursive], ?_, ?_⟩
  · intro cf' og' e m
    constructor
    · simp [translateRecursive]
    · intro h
      simp only [translateRecursive] at h
      split at h
      · simp at h
      · cases he : translateRecursive cf' og' e <;> rw [he] at h <;> simp only at h
        · simp at h
        · split at h <;> simp at h
        · simp at h
  · intro e e' h
    simp [translateRecursive, hcf, h]
  · intro e m h hog
    simp [translateRecursive, hcf, h, hog]

/-- Witness for amended C18: the pointer `&T{y: 1}` with settable handles falls
back to the original pointer. -/
theorem translateRecursive_pointer_rule_witness :
    translateRecursive Flag.clear Flag.clear
        (.ptr "*T" (.struct "T" [(Vis.unexported, .leaf "int" "int" "1")]))
      = .ok (.ptr "*T" (.struct "T" [(Vis.unexported, .leaf "int" "int" "1")])) :=
  (translateRecursive_pointer_rule Flag.clear Flag.clear "*T" rfl).2.2.2
    (.struct "T" [(Vis.unexported, .leaf "int" "int" "1")]) "cannot set: int" rfl rfl

/-! ## C16: the record rule -/

theorem childResult_stored {cf og : Flag} {v r : Val} (h : childResult cf og v r) :
    r = stored cf og v := by
  rcases h with h | ⟨⟨m, hm⟩, hv, _, _⟩
  · simp [stored, h]
  · simp [stored, hm, hv]

theorem translateFields_ok_stored {cf og : Flag} {fs fs' : List (Vis × Val)}
    (h : translateFields cf og fs = .ok fs') :
    fs' = fs.map fun f => (f.1, stored (cf.field f.1) (og.field f.1) f.2) := by
  have hinv := translateFields_ok_inv fs cf og fs' h
  induction hinv with
  | nil => rfl
  | @cons f f' fs fs' hf hrest ih =>
    obtain ⟨vis, v⟩ := f
    obtain ⟨vis', v'⟩ := f'
    obtain ⟨hvis, hc⟩ := hf
    simp only at hvis hc
    subst hvis
    have hfs : translateFields cf og fs = .ok fs' := by
      simp only [translateFields] at h
      cases hv : translateRecursive (cf.field vis') (og.field vis') v <;> rw [hv] at h <;>
        simp only at h
      · cases hr : translateFields cf og fs <;> rw [hr] at h <;> simp at h
        rw [h.2]
      · split at h
        · simp at h
        · split at h
          · simp at h
          · cases hr : translateFields cf og fs <;> rw [hr] at h <;> simp at h
            rw [h.2]
      · simp at h
    simp [childResult_stored hc, ← ih hfs]

/-- An error of the field loop comes from the first escalating field, all
fields before it having been transformed or recovered. -/
theorem translateFields_error_inv (fs : List (Vis × Val)) :
    ∀ cf og m, translateFields cf og fs = .error m →
      ∃ pre f post, fs = pre ++ f :: post ∧ (∀ g ∈ pre, ¬ fieldEscalates cf og g) ∧
        fieldEscalates cf og f ∧ m = "cannot set: " ++ f.2.type := by
  induction fs with
  | nil => intro cf og m h; simp [translateFields] at h
  | cons f fs ih =>
    obtain ⟨vis, v⟩ := f
    intro cf og m h
    simp only [translateFields] at h
    cases hv : translateRecursive (cf.field vis) (og.field vis) v <;> rw [hv] at h <;>
      simp only at h
    · cases hr : translateFields cf og fs <;> rw [hr] at h <;> simp at h
      subst h
      obtain ⟨pre, g, post, hfs, hpre, hg, hm⟩ := ih _ _ _ hr
      refine ⟨(vis, v) :: pre, g, post, by simp [hfs], ?_, hg, hm⟩
      intro x hx
      rcases List.mem_cons.1 hx with rfl | hx
      · rintro ⟨⟨m', hm'⟩, _⟩
        simp only [hv] at hm'
        cases hm'
      · exact hpre x hx
    · split at h
      · rename_i hro
        simp at h
        exact ⟨[], (vis, v), fs, rfl, by simp, ⟨⟨_, hv⟩, hro⟩, h.symm⟩
      · rename_i hro
        split at h
        · simp at h
        · cases hr : translateFields cf og fs <;> rw [hr] at h <;> simp at h
          subst h
          obtain ⟨pre, g, post, hfs, hpre, hg, hm⟩ := ih _ _ _ hr
          refine ⟨(vis, v) :: pre, g, post, by simp [hfs], ?_, hg, hm⟩
          intro x hx
          rcases List.mem_cons.1 hx with rfl | hx
          · rintro ⟨_, hro'⟩
            exact hro hro'
          · exact hpre x hx
    · simp at h

/-- C16 (record rule): for a struct whose traversal does not abort, the fields
are visited in index order; a field whose transformation returns an error
while its destination is settable is set to the original field value and the
remaining fields are still processed (on success the struct holds, field by
field, the stored value); and the struct returns an error if and only if some
field's transformation returns an error while its destination is not
settable, the error being that of the first such field. -/
theorem translateRecursive_struct_rule (cf og : Flag) (t : String) (fs : List (Vis × Val))
    (hnp : ∀ m, translateRecursive cf og (.struct t fs) ≠ .panic m) :
    ((∃ m, translateRecursive cf og (.struct t fs) = .error m) ↔
      ∃ f ∈ fs, fieldEscalates cf og f) ∧
    (∀ r, translateRecursive cf og (.struct t fs) = .ok r →
      r = .struct t (fs.map fun f => (f.1, stored (cf.field f.1) (og.field f.1) f.2))) ∧
    (∀ m, translateRecursive cf og (.struct t fs) = .error m →
      ∃ pre f post, fs = pre ++ f :: post ∧ (∀ g ∈ pre, ¬ fieldEscalates cf og g) ∧
        fieldEscalates cf og f ∧ m = "cannot set: " ++ f.2.type) := by
  have herr : ∀ m, translateRecursive cf og (.struct t fs) = .error m →
      translateFields cf og fs = .error m := by
    intro m h
    simp only [translateRecursive] at h
    cases he : translateFields cf og fs <;> rw [he] at h <;> simp at h
    rw [h]
  refine ⟨⟨?_, ?_⟩, ?_, ?_⟩
  · rintro ⟨m, h⟩
    obtain ⟨pre, f, post, hfs, _, hf, _⟩ := translateFields_error_inv fs _ _ _ (herr m h)
    exact ⟨f, by simp [hfs], hf⟩
  · rintro ⟨f, hf, ⟨m, hm⟩, hro⟩
    cases h : translateRecursive cf og (.struct t fs) with
    | panic m' => exact absurd h (hnp m')
    | error m' => exact ⟨m', rfl⟩
    | ok r =>
      exfalso
      obtain ⟨fs', -, hfs'⟩ := translateRecursive_struct_ok h
      have hinv := translateFields_ok_inv fs cf og fs' hfs'
      clear hfs' h hnp herr
      induction hinv with
      | nil => simp at hf
      | @cons g g' fs fs' hg _ ih =>
        rcases List.mem_cons.1 hf with rfl | hf
        · rcases hg.2 with hc | ⟨_, _, hcf, _⟩
          · rw [hm] at hc; cases hc
          · rw [hro] at hcf; cases hcf
        · exact ih hf
  · intro r h
    obtain ⟨fs', rfl, hfs'⟩ := translateRecursive_struct_ok h
    rw [translateFields_ok_stored hfs']
  · intro m h
    exact translateFields_error_inv fs _ _ _ (herr m h)

/-- Witness for C16: `struct{ A []int; T struct{ x int }; y int; B []int }`
read with settable handles; `T` is recovered, `y` escalates, `B` is not
reached. -/
theorem translateRecursive_struct_rule_witness :
    ∃ pre f post,
      [(Vis.exported, Val.nilSlice "[]int"),
        (Vis.exported, .struct "T" [(Vis.unexported, .leaf "int" "int" "1")]),
        (Vis.unexported, .leaf "int" "int" "2"),
        (Vis.exported, .nilSlice "[]int")] = pre ++ f :: post ∧
      (∀ g ∈ pre, ¬ fieldEscalates Flag.clear Flag.clear g) ∧
      fieldEscalates Flag.clear Flag.clear f ∧ "cannot set: int" = "cannot set: " ++ f.2.type :=
  (translateRecursive_struct_rule Flag.clear Flag.clear "S"
    [(Vis.exported, Val.nilSlice "[]int"),
      (Vis.exported, .struct "T" [(Vis.unexported, .leaf "int" "int" "1")]),
      (Vis.unexported, .leaf "int" "int" "2"),
      (Vis.exported, .nilSlice "[]int")]
    (fun _ h => Outcome.noConfusion h)).2.2 "cannot set: int" rfl

/-! ## C15: recovery locality -/

/-- C15, as stated, fails: in `&struct{ A []int; x int; B []int }{}` the
unexported scalar `x` cannot be transformed and its destination is unsettable;
the struct as a whole fails, the pointer case keeps the original, and the
sibling nil slices `A` and `B` are still nil after `Translate`. -/
theorem Translate_recovery_locality_counterexample :
    fieldEscalates Flag.clear Flag.clear (Vis.unexported, .leaf "int" "int" "0") ∧
    Translate (some (.ptr "*S" (.struct "S" [(Vis.exported, .nilSlice "[]int"),
        (Vis.unexported, .leaf "int" "int" "0"), (Vis.exported, .nilSlice "[]int")])))
      = ⟨none, some (.ptr "*S" (.struct "S" [(Vis.exported, .nilSlice "[]int"),
        (Vis.unexported, .leaf "int" "int" "0"), (Vis.exported, .nilSlice "[]int")]))⟩ :=
  ⟨⟨⟨"cannot set: int", rfl⟩, rfl⟩, rfl⟩

/-- C15, amended: for every struct with exported fields in which one field
cannot be transformed (its transformation returns an error) and the
destination of that field is settable, the builder returns nil on the struct
and has assigned the original field to that field of the copy
(`copy.Field(i).Set(original.Field(i))`, a shallow assignment made before the
commit: what the field refers to is shared with the original), and the sibling
fields are still normalized: when `Translate` returns, every nil slice field
of the struct is a non-nil empty slice. -/
theorem Translate_recovery_locality (pty sty : String) (fs : List (Vis × Val))
    (after : Option Val) (j : Nat) (v : Val) (m : String)
    (hexp : ∀ f ∈ fs, f.1 = Vis.exported)
    (hj : fs[j]? = some (Vis.exported, v))
    (hv : translateRecursive Flag.clear Flag.clear v = .error m)
    (hret : Translate (some (.ptr pty (.struct sty fs))) = ⟨none, after⟩) :
    (∃ cs, translateRecursive Flag.clear Flag.clear (.struct sty fs) = .ok (.struct sty cs) ∧
      cs[j]? = some (Vis.exported, v)) ∧
    ∃ fs', after = some (.ptr pty (.struct sty fs')) ∧
      ∀ (i : Nat) (t : String), fs[i]? = some (Vis.exported, Val.nilSlice t) →
        fs'[i]? = some (Vis.exported, Val.slice t [] 0) := by
  cases hf : translateFields Flag.clear Flag.clear fs with
  | ok fs' =>
    have hst := translateFields_ok_stored hf
    refine ⟨⟨fs', ?_, ?_⟩, fs', ?_, ?_⟩
    · simp [translateRecursive, hf]
    · rw [hst, List.getElem?_map, hj]
      simp [stored, hv]
    · simp [Translate, translateRecursive, hf] at hret
      exact hret.symm
    · intro i t hi
      rw [hst, List.getElem?_map, hi]
      simp [stored, translateRecursive]
  | error m' => exact absurd hf ((translateFields_exported fs hexp).1 m')
  | panic m' => simp [Translate, translateRecursive, hf] at hret

/-- Witness for amended C15: `&struct{ A []int; T struct{ x int }; B []int }{}`. -/
theorem Translate_recovery_locality_witness :
    (∃ cs, translateRecursive Flag.clear Flag.clear (.struct "S"
          [(Vis.exported, .nilSlice "[]int"),
            (Vis.exported, .struct "T" [(Vis.unexported, .leaf "int" "int" "0")]),
            (Vis.exported, .nilSlice "[]int")]) = .ok (.struct "S" cs) ∧
      cs[1]? = some (Vis.exported, .struct "T" [(Vis.unexported, .leaf "int" "int" "0")])) ∧
    ∃ fs', some (Val.ptr "*S" (.struct "S" [(Vis.exported, .slice "[]int" [] 0),
          (Vis.exported, .struct "T" [(Vis.unexported, .leaf "int" "int" "0")]),
          (Vis.exported, .slice "[]int" [] 0)])) = some (.ptr "*S" (.struct "S" fs')) ∧
      ∀ (i : Nat) (t : String),
        [(Vis.exported, Val.nilSlice "[]int"),
          (Vis.exported, .struct "T" [(Vis.unexported, .leaf "int" "int" "0")]),
          (Vis.exported, .nilSlice "[]int")][i]? = some (Vis.exported, Val.nilSlice t) →
        fs'[i]? = some (Vis.exported, Val.slice t [] 0) :=
  Translate_recovery_locality "*S" "S"
    [(Vis.exported, .nilSlice "[]int"),
      (Vis.exported, .struct "T" [(Vis.unexported, .leaf "int" "int" "0")]),
      (Vis.exported, .nilSlice "[]int")]
    _ 1 _ "cannot set: int" (by decide) rfl rfl rfl

/-! ## C11 and C17: the map rule and the sequence rule -/

theorem stored_of_not_panic {cf og : Flag} {v : Val}
    (h : ∀ m, translateRecursive cf og v ≠ .panic m) :
    translateRecursive cf og v = .ok (stored cf og v) ∨
      ((∃ m, translateRecursive cf og v = .error m) ∧ stored cf og v = v) := by
  cases hv : translateRecursive cf og v with
  | ok r => left; simp [stored, hv]
  | error m => right; exact ⟨⟨m, rfl⟩, by simp [stored, hv]⟩
  | panic m => exact absurd hv (h m)

/-- With settable handles and no panic below, the element loop stores a value
for every element. -/
theorem translateElems_stored {cf og : Flag} (hcf : cf.isRO = false) (hog : og.isRO = false)
    (vs : List Val) (hnp : ∀ v ∈ vs, ∀ m, translateRecursive cf og v ≠ .panic m) :
    translateElems cf og vs = .ok (vs.map (stored cf og)) := by
  induction vs with
  | nil => simp [translateElems]
  | cons v vs ih =>
    have hr := ih (fun x hx => hnp x (List.mem_cons_of_mem _ hx))
    rcases stored_of_not_panic (hnp v (List.mem_cons_self _ _)) with h | ⟨⟨m, hm⟩, hs⟩
    · simp [translateElems, h, hr]
    · simp [translateElems, hm, hs, hr, hcf, hog]

/-- With a source not read through an unexported field, distinct keys, none of
them set so far, and no panic below, the entry loop stores a value under every
key. -/
theorem translateEntries_stored {og : Flag} (hog : og.isRO = false) (es : List (Key × Val)) :
    ∀ acc : List (Key × Val), (es.map Prod.fst).Nodup →
      (∀ e ∈ es, e.1 ∉ acc.map Prod.fst) →
      (∀ e ∈ es, e.1.reflexive = true) →
      (∀ e ∈ es, ∀ m, translateRecursive Flag.clear og.ro e.2 ≠ .panic m) →
      translateEntries og acc es =
        .ok (acc ++ es.map fun e => (e.1, stored Flag.clear og.ro e.2)) := by
  induction es with
  | nil => intro acc _ _ _ _; simp [translateEntries]
  | cons e es ih =>
    obtain ⟨k, v⟩ := e
    intro acc hnd hdis hrefl hnp
    simp only [List.map_cons, List.nodup_cons] at hnd
    have hrk : k.reflexive = true := hrefl (k, v) (List.mem_cons_self _ _)
    have hk : k ∉ acc.map Prod.fst := hdis (k, v) (List.mem_cons_self _ _)
    have hr := ih (acc ++ [(k, stored Flag.clear og.ro v)]) hnd.2 (by
      intro p hp
      simp only [List.map_append, List.map_cons, List.map_nil, List.mem_append,
        List.mem_singleton, not_or]
      refine ⟨hdis p (List.mem_cons_of_mem _ hp), ?_⟩
      intro hpe
      exact hnd.1 (hpe ▸ List.mem_map_of_mem Prod.fst hp))
      (fun x hx => hrefl x (List.mem_cons_of_mem _ hx))
      (fun x hx => hnp x (List.mem_cons_of_mem _ hx))
    rcases stored_of_not_panic (hnp (k, v) (List.mem_cons_self _ _)) with h | ⟨⟨m, hm⟩, hs⟩
    · simp only at h
      simp [translateEntries, h, hog, hrk, SetMapIndex_of_not_mem _ hk, hr]
    · simp only at hm hs
      rw [hs] at hr
      simp [translateEntries, hm, hog, hrk, SetMapIndex_of_not_mem _ hk, hr, hs]

/-- C11, as stated, fails: the non-nil map
`map[string]interface{}{"a": T{x: 1}}` with a settable destination does not
make `translateRecursive` return nil, the interface case panics on the value;
and on `map[float64]int{NaN: 1}` the value under the key is not found again,
so `originalValue.Type()` panics before any value is transformed. -/
theorem translateRecursive_map_rule_counterexample :
    translateRecursive Flag.clear Flag.clear (.map "map[string]interface {}"
        [(⟨"a", true⟩,
          .iface "interface {}" (.struct "T" [(Vis.unexported, .leaf "int" "int" "1")]))])
      = .panic "can not translate interface, struct T to struct T, cannot set: int" ∧
    translateRecursive Flag.clear Flag.clear (.map "map[float64]int"
        [(⟨"NaN", false⟩, .leaf "int" "int" "1")]) = .panic typePanic := by
  constructor <;> rfl

/-- C11, amended: for every non-nil map source (with distinct keys, as every Go
map has) that was not read through an unexported field and has no key unequal
to itself (no NaN key), with a settable destination, if the transformation of
no value panics then `translateRecursive` returns nil and the destination is a
map with exactly the keys of the source; under each key it holds the
transformed source value when the transformation succeeds and the original
source value when it returns an error. -/
theorem translateRecursive_map_rule (cf og : Flag) (t : String) (es : List (Key × Val))
    (hcf : cf.isRO = false) (hog : og.isRO = false)
    (hnd : (es.map Prod.fst).Nodup)
    (hrefl : ∀ e ∈ es, e.1.reflexive = true)
    (hnp : ∀ e ∈ es, ∀ m, translateRecursive Flag.clear og.ro e.2 ≠ .panic m) :
    translateRecursive cf og (.map t es) =
        .ok (.map t (es.map fun e => (e.1, stored Flag.clear og.ro e.2))) ∧
      (es.map fun e => (e.1, stored Flag.clear og.ro e.2)).map Prod.fst = es.map Prod.fst ∧
      ∀ e ∈ es, translateRecursive Flag.clear og.ro e.2 = .ok (stored Flag.clear og.ro e.2) ∨
        ((∃ m, translateRecursive Flag.clear og.ro e.2 = .error m) ∧
          stored Flag.clear og.ro e.2 = e.2) := by
  refine ⟨?_, ?_, fun e he => stored_of_not_panic (hnp e he)⟩
  · have := translateEntries_stored hog es [] hnd (by simp) hrefl hnp
    simp only [List.nil_append] at this
    simp [translateRecursive, hcf, this]
  · simp [List.map_map, Function.comp_def]

/-- Witness for amended C11: `map[string][]int{"a": nil, "b": {1}}` becomes
`{"a": {}, "b": {1}}`. -/
theorem translateRecursive_map_rule_witness :
    translateRecursive Flag.clear Flag.clear (.map "map[string][]int"
        [(⟨"a", true⟩, .nilSlice "[]int"),
          (⟨"b", true⟩, .slice "[]int" [.leaf "int" "int" "1"] 1)])
      = .ok (.map "map[string][]int"
        [(⟨"a", true⟩, .slice "[]int" [] 0),
          (⟨"b", true⟩, .slice "[]int" [.leaf "int" "int" "1"] 1)]) :=
  (translateRecursive_map_rule Flag.clear Flag.clear "map[string][]int"
    [(⟨"a", true⟩, .nilSlice "[]int"),
      (⟨"b", true⟩, .slice "[]int" [.leaf "int" "int" "1"] 1)]
    rfl rfl (by decide) (by decide)
    (by
      intro e he m h
      simp only [List.mem_cons, List.mem_singleton, List.not_mem_nil, or_false] at he
      rcases he with rfl | rfl <;> exact Outcome.noConfusion h)).1

/-- C17, as stated, fails: the slice `[]interface{}{T{x: 1}}` with a settable
destination does not make `translateRecursive` return nil; the interface case
panics on the element. -/
theorem translateRecursive_slice_rule_counterexample :
    translateRecursive Flag.clear Flag.clear (.slice "[]interface {}"
        [.iface "interface {}" (.struct "T" [(Vis.unexported, .leaf "int" "int" "1")])] 1)
      = .panic "can not translate interface, struct T to struct T, cannot set: int" := by
  rfl

/-- C17, amended: for every slice source (nil or not, of capacity at least its
length) that was not read through an unexported field, with a settable
destination, if the transformation of no element panics then
`translateRecursive` returns nil and the destination is a non-nil slice of the
length and capacity of the source; at every index it holds the transformed
source element when the transformation succeeds and the original source
element when it returns an error. -/
theorem translateRecursive_slice_rule (cf og : Flag) (t : String)
    (hcf : cf.isRO = false) (hog : og.isRO = false) :
    translateRecursive cf og (.nilSlice t) = .ok (.slice t [] 0) ∧
    ∀ (es : List Val) (c : Nat), es.length ≤ c →
      (∀ v ∈ es, ∀ m, translateRecursive cf.ro og.ro v ≠ .panic m) →
      translateRecursive cf og (.slice t es c) = .ok (.slice t (es.map (stored cf.ro og.ro)) c) ∧
      (es.map (stored cf.ro og.ro)).length = es.length ∧
      ∀ v ∈ es, translateRecursive cf.ro og.ro v = .ok (stored cf.ro og.ro v) ∨
        ((∃ m, translateRecursive cf.ro og.ro v = .error m) ∧ stored cf.ro og.ro v = v) := by
  refine ⟨by simp [translateRecursive, hcf], ?_⟩
  intro es c hc hnp
  refine ⟨?_, by simp, fun v hv => stored_of_not_panic (hnp v hv)⟩
  have : translateElems cf.ro og.ro es = .ok (es.map (stored cf.ro og.ro)) :=
    translateElems_stored (by simpa using hcf) (by simpa using hog) es hnp
  simp [translateRecursive, hcf, this, Nat.not_lt.2 hc]

/-- Witness for amended C17: `[][]int{nil, {1}}` with capacity 4. -/
theorem translateRecursive_slice_rule_witness :
    translateRecursive Flag.clear Flag.clear
        (.slice "[][]int" [.nilSlice "[]int", .slice "[]int" [.leaf "int" "int" "1"] 1] 4)
      = .ok (.slice "[][]int"
        [.slice "[]int" [] 0, .slice "[]int" [.leaf "int" "int" "1"] 1] 4) :=
  ((translateRecursive_slice_rule Flag.clear Flag.clear "[][]int" rfl rfl).2
    [.nilSlice "[]int", .slice "[]int" [.leaf "int" "int" "1"] 1] 4 (by decide)
    (by
      intro v hv m h
      simp only [List.mem_cons, List.mem_singleton, List.not_mem_nil, or_false] at hv
      rcases hv with rfl | rfl <;> exact Outcome.noConfusion h)).1

/-! ## C19: a failing interface aborts the call -/

theorem forall₂_exists_of_mem {α β : Type} {R : α → β → Prop} {l : List α} {l' : List β}
    (h : List.Forall₂ R l l') {a : α} (ha : a ∈ l) : ∃ b, R a b := by
  induction h with
  | nil => simp at ha
  | @cons x y xs ys hxy _ ih =>
    rcases List.mem_cons.1 ha with rfl | ha
    · exact ⟨y, hxy⟩
    · exact ih ha

theorem childResult_not_panic {cf og : Flag} {v r : Val} {m : String}
    (h : childResult cf og v r) (hp : translateRecursive cf og v = .panic m) : False := by
  rcases h with h | ⟨⟨m', hm'⟩, _⟩
  · rw [hp] at h; cases h
  · rw [hp] at hm'; cases hm'

/-- A panic on an element makes the element loop panic. -/
theorem translateElems_panic_of_mem {cf og : Flag} {vs : List Val} {v : Val} {m : String}
    (hv : v ∈ vs) (hp : translateRecursive cf og v = .panic m) :
    ∃ m', translateElems cf og vs = .panic m' := by
  cases h : translateElems cf og vs with
  | panic m' => exact ⟨m', rfl⟩
  | error m' => exact absurd h (translateElems_ne_error _ _ _ _)
  | ok vs' =>
    obtain ⟨r, hr⟩ := forall₂_exists_of_mem (translateElems_ok_inv _ _ _ _ h) hv
    exact (childResult_not_panic hr hp).elim

/-- A panic on a value makes the entry loop panic. -/
theorem translateEntries_panic_of_mem {og : Flag} {acc es : List (Key × Val)}
    {e : Key × Val} {m : String} (he : e ∈ es)
    (hp : translateRecursive Flag.clear og.ro e.2 = .panic m) :
    ∃ m', translateEntries og acc es = .panic m' := by
  cases h : translateEntries og acc es with
  | panic m' => exact ⟨m', rfl⟩
  | error m' => exact absurd h (translateEntries_ne_error _ _ _ _)
  | ok r =>
    obtain ⟨l, hl, _⟩ := translateEntries_ok_inv _ _ _ _ h
    obtain ⟨e', he'⟩ := forall₂_exists_of_mem hl he
    exact (childResult_not_panic he'.2.2 hp).elim

/-- A panic on a field makes the loop over exported fields panic. -/
theorem translateFields_panic_of_mem {fs : List (Vis × Val)} {f : Vis × Val} {m : String}
    (hexp : ∀ g ∈ fs, g.1 = Vis.exported) (hf : f ∈ fs)
    (hp : translateRecursive Flag.clear Flag.clear f.2 = .panic m) :
    ∃ m', translateFields Flag.clear Flag.clear fs = .panic m' := by
  cases h : translateFields Flag.clear Flag.clear fs with
  | panic m' => exact ⟨m', rfl⟩
  | error m' => exact absurd h ((translateFields_exported fs hexp).1 m')
  | ok fs' =>
    obtain ⟨f', hf'⟩ := forall₂_exists_of_mem (translateFields_ok_inv _ _ _ _ h) hf
    have := hf'.2
    rw [hexp f hf] at this
    exact (childResult_not_panic this hp).elim

/-- C19, as stated, fails: on `&struct{ A []int; I interface{} }{nil, T{x: 1}}`
the held value `T{x: 1}` fails to transform, the failure is not absorbed by
the enclosing struct, and `Translate` aborts. -/
theorem Translate_interface_failure_counterexample :
    translateRecursive Flag.clear Flag.clear
        (.struct "T" [(Vis.unexported, .leaf "int" "int" "1")]) = .error "cannot set: int" ∧
    (Translate (some (.ptr "*S" (.struct "S" [(Vis.exported, .nilSlice "[]int"),
        (Vis.exported, .iface "interface {}"
          (.struct "T" [(Vis.unexported, .leaf "int" "int" "1")]))])))).panic
      = some "can not translate interface, struct T to struct T, cannot set: int" := by
  constructor <;> rfl

/-- C19, amended: when the concrete value held by an interface fails to
transform (its transformation returns an error), the interface case panics
with "can not translate interface, ..."; the panic is not absorbed by the
enclosing container: whether the interface is an exported field of a struct
with exported fields, an element of a slice or a value of a map behind the
pointer given to `Translate`, the call aborts. -/
theorem Translate_interface_failure_aborts (t : String) (held : Val) (e : String)
    (h : translateRecursive Flag.clear Flag.clear held = .error e) :
    (∀ cf, translateRecursive cf Flag.clear (.iface t held) = .panic (interfacePanic held e)) ∧
    (∀ pty sty fs, (∀ f ∈ fs, f.1 = Vis.exported) → (Vis.exported, Val.iface t held) ∈ fs →
      (Translate (some (.ptr pty (.struct sty fs)))).panic ≠ none) ∧
    (∀ pty sty es c, Val.iface t held ∈ es →
      (Translate (some (.ptr pty (.slice sty es c)))).panic ≠ none) ∧
    (∀ pty mty es k, (k, Val.iface t held) ∈ es →
      (Translate (some (.ptr pty (.map mty es)))).panic ≠ none) := by
  have hi : ∀ cf, translateRecursive cf Flag.clear (.iface t held)
      = .panic (interfacePanic held e) := by
    intro cf
    simp [translateRecursive, h]
  refine ⟨hi, ?_, ?_, ?_⟩
  · intro pty sty fs hexp hmem
    obtain ⟨m', hm'⟩ := translateFields_panic_of_mem hexp hmem (hi Flag.clear)
    simp [Translate, translateRecursive, hm']
  · intro pty sty es c hmem
    have hp : ∃ m', translateElems Flag.clear Flag.clear es = .panic m' :=
      translateElems_panic_of_mem hmem (hi Flag.clear)
    obtain ⟨m', hm'⟩ := hp
    by_cases hc : c < es.length
    · simp [Translate, translateRecursive, hc]
    · simp [Translate, translateRecursive, hc, hm']
  · intro pty mty es k hmem
    have hp : ∃ m', translateEntries Flag.clear [] es = .panic m' :=
      translateEntries_panic_of_mem hmem (hi Flag.clear)
    obtain ⟨m', hm'⟩ := hp
    simp [Translate, translateRecursive, hm']

/-- Witness for amended C19: `&[]interface{}{nil slice of int, T{x: 1}}`. -/
theorem Translate_interface_failure_aborts_witness :
    (Translate (some (.ptr "*[]interface {}" (.slice "[]interface {}"
        [.iface "interface {}" (.nilSlice "[]int"),
          .iface "interface {}" (.struct "T" [(Vis.unexported, .leaf "int" "int" "1")])]
        2)))).panic ≠ none :=
  (Translate_interface_failure_aborts "interface {}"
    (.struct "T" [(Vis.unexported, .leaf "int" "int" "1")]) "cannot set: int" rfl).2.2.1
    "*[]interface {}" "[]interface {}" _ 2 (List.mem_cons_of_mem _ (List.mem_cons_self _ _))

/-! ## C13: types are preserved -/

theorem sameTypeFields_of_sim (fs : List (Vis × Val))
    (ih : ∀ f ∈ fs, ∀ r, sim f.2 r = true → sameType f.2 r = true) :
    ∀ fs', simFields fs fs' = true → sameTypeFields fs fs' = true := by
  induction fs with
  | nil => intro fs' h; simpa [simFields, sameTypeFields] using h
  | cons f fs ihl =>
    obtain ⟨vis, v⟩ := f
    intro fs' h
    cases fs' with
    | nil => simp [simFields] at h
    | cons f' fs' =>
      obtain ⟨vis', v'⟩ := f'
      simp only [simFields, Bool.and_eq_true, decide_eq_true_eq] at h
      simp [sameTypeFields, h.1.1, ih (vis, v) (List.mem_cons_self _ _) v' h.1.2,
        ihl (fun f hf => ih f (List.mem_cons_of_mem _ hf)) fs' h.2]

theorem sameTypeElems_of_sim (vs : List Val)
    (ih : ∀ v ∈ vs, ∀ r, sim v r = true → sameType v r = true) :
    ∀ vs', simElems vs vs' = true → sameTypeElems vs vs' = true := by
  induction vs with
  | nil => intro vs' h; simpa [simElems, sameTypeElems] using h
  | cons v vs ihl =>
    intro vs' h
    cases vs' with
    | nil => simp [simElems] at h
    | cons v' vs' =>
      simp only [simElems, Bool.and_eq_true] at h
      simp [sameTypeElems, ih v (List.mem_cons_self _ _) v' h.1,
        ihl (fun f hf => ih f (List.mem_cons_of_mem _ hf)) vs' h.2]

theorem sameTypeEntries_of_sim (es : List (Key × Val))
    (ih : ∀ e ∈ es, ∀ r, sim e.2 r = true → sameType e.2 r = true) :
    ∀ es', simEntries es es' = true → sameTypeEntries es es' = true := by
  induction es with
  | nil => intro es' h; simpa [simEntries, sameTypeEntries] using h
  | cons e es ihl =>
    obtain ⟨k, v⟩ := e
    intro es' h
    cases es' with
    | nil => simp [simEntries] at h
    | cons e' es' =>
      obtain ⟨k', v'⟩ := e'
      simp only [simEntries, Bool.and_eq_true, decide_eq_true_eq] at h
      simp [sameTypeEntries, h.1.1, ih (k, v) (List.mem_cons_self _ _) v' h.1.2,
        ihl (fun f hf => ih f (List.mem_cons_of_mem _ hf)) es' h.2]

/-- Values that agree up to nil-to-empty have the same type at every node. -/
theorem sameType_of_sim (v : Val) : ∀ r, sim v r = true → sameType v r = true := by
  induction v using Val.induct with
  | leaf k t d =>
    intro r h
    cases r <;> simp only [sim, Bool.and_eq_true] at h <;> try (cases h; done)
    simp [sameType, h.1.1, h.1.2]
  | nilPtr t =>
    intro r h
    cases r <;> simp only [sim] at h <;> try cases h
    simpa [sameType] using h
  | ptr t e ih =>
    intro r h
    cases r <;> simp only [sim, Bool.and_eq_true] at h <;> try (cases h; done)
    simp [sameType, h.1, ih _ h.2]
  | nilIface t =>
    intro r h
    cases r <;> simp only [sim] at h <;> try cases h
    simpa [sameType] using h
  | iface t held ih =>
    intro r h
    cases r <;> simp only [sim, Bool.and_eq_true] at h <;> try (cases h; done)
    simp [sameType, h.1, ih _ h.2]
  | struct t fs ih =>
    intro r h
    cases r <;> simp only [sim, Bool.and_eq_true] at h <;> try (cases h; done)
    simp [sameType, h.1, sameTypeFields_of_sim fs ih _ h.2]
  | array t es ih =>
    intro r h
    cases r <;> simp only [sim, Bool.and_eq_true] at h <;> try (cases h; done)
    simp [sameType, h.1, sameTypeElems_of_sim es ih _ h.2]
  | nilSlice t =>
    intro r h
    cases r with
    | nilSlice t' => simpa [sim, sameType] using h
    | slice t' es c =>
      cases es with
      | nil => simp only [sim, Bool.and_eq_true] at h; simp [sameType, h.1]
      | cons _ _ => simp [sim] at h
    | _ => simp [sim] at h
  | slice t es c ih =>
    intro r h
    cases r <;> simp only [sim, Bool.and_eq_true] at h <;> try (cases h; done)
    simp [sameType, h.1.1, sameTypeElems_of_sim es ih _ h.2]
  | nilMap t =>
    intro r h
    cases r with
    | nilMap t' => simpa [sim, sameType] using h
    | map t' es =>
      cases es with
      | nil => simpa [sim, sameType] using h
      | cons _ _ => simp [sim] at h
    | _ => simp [sim] at h
  | map t es ih =>
    intro r h
    cases r <;> simp only [sim, Bool.and_eq_true] at h <;> try (cases h; done)
    simp [sameType, h.1, sameTypeEntries_of_sim es ih _ h.2]

/-- C13 (type preservation): when `Translate` returns normally on a non-nil
pointer (to a value whose maps have distinct keys, as every Go map has), the
result has the same type as the input at every node: structs have the same
fields, slices the same element type and length, maps the same type and key
set, pointers the same pointee type, and every interface holds a value of the
same concrete type as before. -/
theorem Translate_preserves_types (t : String) (e : Val) (after : Option Val)
    (hk : distinctKeys e = true)
    (h : Translate (some (.ptr t e)) = ⟨none, after⟩) :
    ∃ e', after = some (.ptr t e') ∧ sameType (.ptr t e) (.ptr t e') = true := by
  unfold Translate at h
  simp only at h
  split at h <;> rename_i heq
  · simp at h
  · simp at h
  · rename_i t' e'
    simp only [Exit.mk.injEq, true_and] at h
    subst h
    have hs := translateRecursive_sim (.ptr t e) (by simpa [distinctKeys] using hk) _ _ _ heq
    have ht : t' = t := by
      simp only [sim, Bool.and_eq_true, beq_iff_eq] at hs
      exact hs.1.symm
    subst ht
    exact ⟨e', rfl, sameType_of_sim _ _ hs⟩
  · simp at h

/-- Witness for C13:
`&S{A: nil, M: {"a": nil}, I: T{x: 1, B: nil}, P: nil}`. -/
theorem Translate_preserves_types_witness :
    ∃ e', some (Val.ptr "*S" (.struct "S" [(Vis.exported, .slice "[]int" [] 0),
          (Vis.exported, .map "map[string]*T" [(⟨"a", true⟩, .nilPtr "*T")]),
          (Vis.exported, .struct "T" [(Vis.unexported, .leaf "int" "int" "1"),
            (Vis.exported, .nilSlice "[]int")]),
          (Vis.exported, .nilPtr "*T")])) = some (.ptr "*S" e') ∧
      sameType (.ptr "*S" (.struct "S" [(Vis.exported, .nilSlice "[]int"),
          (Vis.exported, .map "map[string]*T" [(⟨"a", true⟩, .nilPtr "*T")]),
          (Vis.exported, .struct "T" [(Vis.unexported, .leaf "int" "int" "1"),
            (Vis.exported, .nilSlice "[]int")]),
          (Vis.exported, .nilPtr "*T")])) (.ptr "*S" e') = true :=
  Translate_preserves_types "*S"
    (.struct "S" [(Vis.exported, .nilSlice "[]int"),
      (Vis.exported, .map "map[string]*T" [(⟨"a", true⟩, .nilPtr "*T")]),
      (Vis.exported, .struct "T" [(Vis.unexported, .leaf "int" "int" "1"),
        (Vis.exported, .nilSlice "[]int")]),
      (Vis.exported, .nilPtr "*T")])
    _ rfl rfl

/-! ## C21, C22, C23: leaves, nil maps and the top-level call -/

/-- C21, as stated, fails: with a settable destination and a leaf read through
an unexported field (here the `int` held by an unexported interface field),
`copy.Set(original)` panics instead of returning nil. -/
theorem translateRecursive_leaf_rule_counterexample :
    translateRecursive Flag.clear (Flag.clear.field Vis.unexported).ro
        (.leaf "int" "int" "5") = .panic setPanic ∧
    (Translate (some (.ptr "*S" (.struct "S" [(Vis.unexported,
        .iface "interface {}" (.leaf "int" "int" "5"))])))).panic = some setPanic := by
  constructor <;> rfl

/-- C21, amended: for every source of a leaf kind, `translateRecursive` returns
nil with the destination equal to the source when the destination is settable
and the source was not read through an unexported field, and returns the error
"cannot set: " followed by the destination's type name, writing nothing, when
the destination is not settable. -/
theorem translateRecursive_leaf_rule (cf og : Flag) (k t d : String) :
    (cf.isRO = false → og.isRO = false →
      translateRecursive cf og (.leaf k t d) = .ok (.leaf k t d)) ∧
    (cf.isRO = true →
      translateRecursive cf og (.leaf k t d) = .error ("cannot set: " ++ t)) := by
  constructor
  · intro hcf hog
    simp [translateRecursive, hcf, hog]
  · intro hcf
    simp [translateRecursive, hcf]

/-- Witness for amended C21: a string leaf behind a settable destination. -/
theorem translateRecursive_leaf_rule_witness :
    translateRecursive Flag.clear Flag.clear (.leaf "string" "string" "abc")
      = .ok (.leaf "string" "string" "abc") :=
  (translateRecursive_leaf_rule Flag.clear Flag.clear "string" "string" "abc").1 rfl rfl

/-- C22, as stated, fails in its consequence: in
`&struct{ x int; M map[string]int }{}` the map field `M` has a settable
destination, yet after `Translate`, which returns normally, it is still the
nil map. -/
theorem Translate_nil_map_field_counterexample :
    Translate (some (.ptr "*S" (.struct "S" [(Vis.unexported, .leaf "int" "int" "0"),
        (Vis.exported, .nilMap "map[string]int")])))
      = ⟨none, some (.ptr "*S" (.struct "S" [(Vis.unexported, .leaf "int" "int" "0"),
        (Vis.exported, .nilMap "map[string]int")]))⟩ ∧
    Val.nilMap "map[string]int" ≠ Val.map "map[string]int" [] :=
  ⟨rfl, fun h => Val.noConfusion h⟩

/-- C22, amended: for every nil map source with a settable destination,
`translateRecursive` returns nil and sets the destination to a non-nil, empty
map of the same type; so after a `Translate` that returns normally, a nil
map-typed field of a struct whose fields are all exported is a non-nil map
with no entries. -/
theorem translateRecursive_nil_map_rule :
    (∀ (cf og : Flag) (t : String), cf.isRO = false →
      translateRecursive cf og (.nilMap t) = .ok (.map t [])) ∧
    (∀ (pty sty : String) (fs : List (Vis × Val)) (after : Option Val) (i : Nat) (t : String),
      (∀ f ∈ fs, f.1 = Vis.exported) →
      Translate (some (.ptr pty (.struct sty fs))) = ⟨none, after⟩ →
      fs[i]? = some (Vis.exported, Val.nilMap t) →
      ∃ fs', after = some (.ptr pty (.struct sty fs')) ∧
        fs'[i]? = some (Vis.exported, Val.map t [])) := by
  constructor
  · intro cf og t hcf
    simp [translateRecursive, hcf]
  · intro pty sty fs after i t hexp hret hi
    cases hf : translateFields Flag.clear Flag.clear fs with
    | ok fs' =>
      refine ⟨fs', ?_, ?_⟩
      · simp [Translate, translateRecursive, hf] at hret
        exact hret.symm
      · rw [translateFields_ok_stored hf, List.getElem?_map, hi]
        simp [stored, translateRecursive]
    | error m' => exact absurd hf ((translateFields_exported fs hexp).1 m')
    | panic m' => simp [Translate, translateRecursive, hf] at hret

/-- Witness for amended C22: `&struct{ A int; M map[string]int }{1, nil}`. -/
theorem translateRecursive_nil_map_rule_witness :
    ∃ fs', some (Val.ptr "*S" (.struct "S" [(Vis.exported, .leaf "int" "int" "1"),
          (Vis.exported, .map "map[string]int" [])])) = some (.ptr "*S" (.struct "S" fs')) ∧
      fs'[1]? = some (Vis.exported, Val.map "map[string]int" []) :=
  translateRecursive_nil_map_rule.2 "*S" "S"
    [(Vis.exported, .leaf "int" "int" "1"), (Vis.exported, .nilMap "map[string]int")]
    _ 1 "map[string]int" (by decide) rfl rfl

/-- C23 (the "translate failed" branch is unreachable): for every non-nil
pointer the top-level call `translateRecursive(copy, original)` made by
`Translate` never returns an error, the pointer case absorbing any error of
the pointee; and when the transformation of the pointee returns an error,
`Translate` returns normally and leaves the pointee equal to its value before
the call. -/
theorem Translate_failed_branch_unreachable (t : String) (e : Val) :
    (∀ m, translateRecursive Flag.clear Flag.clear (.ptr t e) ≠ .error m) ∧
    (∀ m, translateRecursive Flag.clear Flag.clear e = .error m →
      translateRecursive Flag.clear Flag.clear (.ptr t e) = .ok (.ptr t e) ∧
      Translate (some (.ptr t e)) = ⟨none, some (.ptr t e)⟩) := by
  constructor
  · intro m h
    simp only [translateRecursive, Flag.isRO_clear] at h
    cases he : translateRecursive Flag.clear Flag.clear e <;> rw [he] at h <;> simp at h
  · intro m h
    simp [Translate, translateRecursive, h]

/-- Witness for C23: `&struct{ S []int; x int }{}`; the nil slice `S` stays
nil. -/
theorem Translate_failed_branch_unreachable_witness :
    translateRecursive Flag.clear Flag.clear (.ptr "*S" (.struct "S"
        [(Vis.exported, .nilSlice "[]int"), (Vis.unexported, .leaf "int" "int" "0")]))
      = .ok (.ptr "*S" (.struct "S"
        [(Vis.exported, .nilSlice "[]int"), (Vis.unexported, .leaf "int" "int" "0")])) ∧
    Translate (some (.ptr "*S" (.struct "S"
        [(Vis.exported, .nilSlice "[]int"), (Vis.unexported, .leaf "int" "int" "0")])))
      = ⟨none, some (.ptr "*S" (.struct "S"
        [(Vis.exported, .nilSlice "[]int"), (Vis.unexported, .leaf "int" "int" "0")]))⟩ :=
  (Translate_failed_branch_unreachable "*S" (.struct "S"
    [(Vis.exported, .nilSlice "[]int"), (Vis.unexported, .leaf "int" "int" "0")])).2
    "cannot set: int" rfl

/-! ## C24: the outcome does not depend on the order of map keys -/

theorem mapEqEntries_mem {es es' : List (Key × Val)} (h : mapEqEntries es es' = true) :
    ∀ e ∈ es, ∃ e' ∈ es', e'.1 = e.1 ∧ mapEq e.2 e'.2 = true := by
  induction es with
  | nil => intro e he; simp at he
  | cons a es ih =>
    obtain ⟨k, v⟩ := a
    simp only [mapEqEntries, Bool.and_eq_true, List.any_eq_true, decide_eq_true_eq] at h
    intro e he
    rcases List.mem_cons.1 he with rfl | he
    · obtain ⟨p, hp, hk, hv⟩ := h.1
      exact ⟨p, hp, hk, hv⟩
    · exact ih h.2 e he

theorem mapEqEntries_of_mem {es es' : List (Key × Val)}
    (h : ∀ e ∈ es, ∃ e' ∈ es', e'.1 = e.1 ∧ mapEq e.2 e'.2 = true) :
    mapEqEntries es es' = true := by
  induction es with
  | nil => simp [mapEqEntries]
  | cons a es ih =>
    obtain ⟨k, v⟩ := a
    simp only [mapEqEntries, Bool.and_eq_true, List.any_eq_true, decide_eq_true_eq]
    refine ⟨?_, ih (fun e he => h e (List.mem_cons_of_mem _ he))⟩
    obtain ⟨p, hp, hk, hv⟩ := h (k, v) (List.mem_cons_self _ _)
    exact ⟨p, hp, hk, hv⟩

theorem keys_subset_of_all {es es' : List (Key × Val)}
    (h : (es'.all fun p => es.any fun q => decide (q.1 = p.1)) = true) :
    ∀ e' ∈ es', ∃ e ∈ es, e.1 = e'.1 := by
  intro e' he'
  simp only [List.all_eq_true, List.any_eq_true, decide_eq_true_eq] at h
  exact h e' he'

theorem value_unique_of_nodup_keys {l : List (Key × Val)} (hnd : (l.map Prod.fst).Nodup)
    {a b : Key × Val} (ha : a ∈ l) (hb : b ∈ l) (hk : a.1 = b.1) : a = b := by
  induction l with
  | nil => simp at ha
  | cons x l ih =>
    simp only [List.map_cons, List.nodup_cons] at hnd
    rcases List.mem_cons.1 ha with ha' | ha' <;> rcases List.mem_cons.1 hb with hb' | hb'
    · rw [ha', hb']
    · subst ha'
      exact absurd (hk ▸ List.mem_map_of_mem Prod.fst hb') hnd.1
    · subst hb'
      exact absurd (hk ▸ List.mem_map_of_mem Prod.fst ha') hnd.1
    · exact ih hnd.2 ha' hb'

/-- In maps equal as mappings, every entry of the second has its partner in
the first. -/
theorem mapEqEntries_mem_right {es es' : List (Key × Val)}
    (h : mapEqEntries es es' = true)
    (hall : (es'.all fun p => es.any fun q => decide (q.1 = p.1)) = true)
    (hnd' : (es'.map Prod.fst).Nodup) :
    ∀ e' ∈ es', ∃ e ∈ es, e.1 = e'.1 ∧ mapEq e.2 e'.2 = true := by
  intro e' he'
  obtain ⟨e, he, hk⟩ := keys_subset_of_all hall e' he'
  obtain ⟨e'', he'', hk'', hv⟩ := mapEqEntries_mem h e he
  have : e'' = e' := value_unique_of_nodup_keys hnd' he'' he' (hk''.trans hk)
  subst this
  exact ⟨e, he, hk, hv⟩

/-- A key unequal to itself makes the entry loop panic. -/
theorem translateEntries_panic_of_nan (og : Flag) (acc : List (Key × Val))
    {es : List (Key × Val)} {e : Key × Val} (he : e ∈ es) (hk : e.1.reflexive = false) :
    ∃ m, translateEntries og acc es = .panic m := by
  cases h : translateEntries og acc es with
  | panic m => exact ⟨m, rfl⟩
  | error m => exact absurd h (translateEntries_ne_error _ _ _ _)
  | ok r =>
    have := translateEntries_ok_reflexive _ _ _ _ h e he
    rw [hk] at this
    cases this

/-- With a source read through an unexported field, the entry loop of a
non-empty map panics. -/
theorem translateEntries_panic_of_ro {og : Flag} (hog : og.isRO = true)
    {es : List (Key × Val)} (hes : es ≠ []) (acc : List (Key × Val)) :
    ∃ m, translateEntries og acc es = .panic m := by
  cases es with
  | nil => exact absurd rfl hes
  | cons e es =>
    obtain ⟨k, v⟩ := e
    simp only [translateEntries]
    cases k.reflexive <;> cases translateRecursive Flag.clear og.ro v <;> simp [hog]

theorem agree_stored {cf og : Flag} {v v' : Val}
    (h : Outcome.agree (fun r r' => mapEq r r' = true)
      (translateRecursive cf og v) (translateRecursive cf og v'))
    (hv : mapEq v v' = true)
    (hnp : ∀ m, translateRecursive cf og v ≠ .panic m) :
    mapEq (stored cf og v) (stored cf og v') = true := by
  cases h1 : translateRecursive cf og v <;> cases h2 : translateRecursive cf og v' <;>
    rw [h1, h2] at h <;> simp only [Outcome.agree] at h
  · simpa [stored, h1, h2] using h
  · simpa [stored, h1, h2] using hv
  · exact absurd h1 (hnp _)

theorem translateFields_agree (fs : List (Vis × Val))
    (ih : ∀ f ∈ fs, ∀ w, mapEq f.2 w = true → distinctKeys f.2 = true →
      distinctKeys w = true → ∀ cf og, Outcome.agree (fun r r' => mapEq r r' = true)
        (translateRecursive cf og f.2) (translateRecursive cf og w)) :
    ∀ fs', mapEqFields fs fs' = true → distinctKeysFields fs = true →
      distinctKeysFields fs' = true → ∀ cf og,
        Outcome.agree (fun l l' => mapEqFields l l' = true)
          (translateFields cf og fs) (translateFields cf og fs') := by
  induction fs with
  | nil =>
    intro fs' h _ _ cf og
    cases fs' with
    | nil => simp [translateFields, Outcome.agree, mapEqFields]
    | cons _ _ => simp [mapEqFields] at h
  | cons f fs ihl =>
    obtain ⟨vis, v⟩ := f
    intro fs' h hd hd' cf og
    cases fs' with
    | nil => simp [mapEqFields] at h
    | cons f' fs'' =>
      obtain ⟨vis', v'⟩ := f'
      simp only [mapEqFields, Bool.and_eq_true, decide_eq_true_eq] at h
      obtain ⟨⟨hvis, hv⟩, hrest⟩ := h
      subst hvis
      simp only [distinctKeysFields, Bool.and_eq_true] at hd hd'
      have hhead := ih (vis, v) (List.mem_cons_self _ _) v' hv hd.1 hd'.1
        (cf.field vis) (og.field vis)
      have htail := ihl (fun f hf => ih f (List.mem_cons_of_mem _ hf)) fs'' hrest hd.2 hd'.2
        cf og
      simp only at hhead
      simp only [translateFields]
      by_cases hc : (cf.field vis).isRO = true <;>
        by_cases ho : (og.field vis).isRO = true <;>
        cases h1 : translateRecursive (cf.field vis) (og.field vis) v <;>
        cases h2 : translateRecursive (cf.field vis) (og.field vis) v' <;>
        rw [h1, h2] at hhead <;> simp only [Outcome.agree] at hhead <;>
        cases h3 : translateFields cf og fs <;>
        cases h4 : translateFields cf og fs'' <;>
        rw [h3, h4] at htail <;> simp only [Outcome.agree] at htail <;>
        simp [Outcome.agree, mapEqFields, hc, ho, hhead, htail, hv]

theorem translateElems_agree (vs : List Val)
    (ih : ∀ v ∈ vs, ∀ w, mapEq v w = true → distinctKeys v = true →
      distinctKeys w = true → ∀ cf og, Outcome.agree (fun r r' => mapEq r r' = true)
        (translateRecursive cf og v) (translateRecursive cf og w)) :
    ∀ vs', mapEqElems vs vs' = true → distinctKeysElems vs = true →
      distinctKeysElems vs' = true → ∀ cf og,
        Outcome.agree (fun l l' => mapEqElems l l' = true)
          (translateElems cf og vs) (translateElems cf og vs') := by
  induction vs with
  | nil =>
    intro vs' h _ _ cf og
    cases vs' with
    | nil => simp [translateElems, Outcome.agree, mapEqElems]
    | cons _ _ => simp [mapEqElems] at h
  | cons v vs ihl =>
    intro vs' h hd hd' cf og
    cases vs' with
    | nil => simp [mapEqElems] at h
    | cons v' vs'' =>
      simp only [mapEqElems, Bool.and_eq_true] at h
      obtain ⟨hv, hrest⟩ := h
      simp only [distinctKeysElems, Bool.and_eq_true] at hd hd'
      have hhead := ih v (List.mem_cons_self _ _) v' hv hd.1 hd'.1 cf og
      have htail := ihl (fun f hf => ih f (List.mem_cons_of_mem _ hf)) vs'' hrest hd.2 hd'.2
        cf og
      simp only [translateElems]
      by_cases hc : cf.isRO = true <;>
        by_cases ho : og.isRO = true <;>
        cases h1 : translateRecursive cf og v <;>
        cases h2 : translateRecursive cf og v' <;>
        rw [h1, h2] at hhead <;> simp only [Outcome.agree] at hhead <;>
        cases h3 : translateElems cf og vs <;>
        cases h4 : translateElems cf og vs'' <;>
        rw [h3, h4] at htail <;> simp only [Outcome.agree] at htail <;>
        simp [Outcome.agree, mapEqElems, hc, ho, hhead, htail, hv]

theorem translateEntries_agree {es es' : List (Key × Val)} (og : Flag)
    (ih : ∀ e ∈ es, ∀ w, mapEq e.2 w = true → distinctKeys e.2 = true →
      distinctKeys w = true → ∀ cf og, Outcome.agree (fun r r' => mapEq r r' = true)
        (translateRecursive cf og e.2) (translateRecursive cf og w))
    (h : mapEqEntries es es' = true)
    (hall : (es'.all fun p => es.any fun q => decide (q.1 = p.1)) = true)
    (hnd : (es.map Prod.fst).Nodup) (hnd' : (es'.map Prod.fst).Nodup)
    (hd : distinctKeysEntries es = true) (hd' : distinctKeysEntries es' = true) :
    Outcome.agree (fun l l' => mapEqEntries l l' = true ∧
        (l'.all fun p => l.any fun q => decide (q.1 = p.1)) = true)
      (translateEntries og [] es) (translateEntries og [] es') := by
  -- partners agree
  have hpair : ∀ e ∈ es, ∀ e' ∈ es', mapEq e.2 e'.2 = true →
      Outcome.agree (fun r r' => mapEq r r' = true)
        (translateRecursive Flag.clear og.ro e.2) (translateRecursive Flag.clear og.ro e'.2) :=
    fun e he e' he' hv => ih e he e'.2 hv (distinctKeysEntries_mem hd e he)
      (distinctKeysEntries_mem hd' e' he') _ _
  by_cases hes : es = []
  · subst hes
    cases es' with
    | nil => simp [translateEntries, Outcome.agree, mapEqEntries]
    | cons _ _ => simp at hall
  · have hes' : es' ≠ [] := by
      cases es with
      | nil => exact absurd rfl hes
      | cons a _ =>
        obtain ⟨e', he', _⟩ := mapEqEntries_mem h a (List.mem_cons_self _ _)
        exact List.ne_nil_of_mem he'
    by_cases hN : ∃ e ∈ es, e.1.reflexive = false
    · obtain ⟨e, he, hk⟩ := hN
      obtain ⟨e', he', hk', _⟩ := mapEqEntries_mem h e he
      obtain ⟨m1, h1⟩ := translateEntries_panic_of_nan og [] he hk
      obtain ⟨m2, h2⟩ := translateEntries_panic_of_nan og [] he' (hk' ▸ hk)
      rw [h1, h2]
      trivial
    have hrefl : ∀ e ∈ es, e.1.reflexive = true := by
      intro e he
      cases hk : e.1.reflexive
      · exact absurd ⟨e, he, hk⟩ hN
      · rfl
    have hrefl' : ∀ e' ∈ es', e'.1.reflexive = true := by
      intro e' he'
      obtain ⟨e, he, hk⟩ := keys_subset_of_all hall e' he'
      exact hk ▸ hrefl e he
    by_cases hA : ∃ e ∈ es, ∃ m, translateRecursive Flag.clear og.ro e.2 = .panic m
    · obtain ⟨e, he, m, hm⟩ := hA
      obtain ⟨e', he', _, hv⟩ := mapEqEntries_mem h e he
      have hag := hpair e he e' he' hv
      rw [hm] at hag
      cases hm' : translateRecursive Flag.clear og.ro e'.2 <;> rw [hm'] at hag <;>
        simp only [Outcome.agree] at hag
      obtain ⟨m1, h1⟩ : ∃ m1, translateEntries og [] es = .panic m1 :=
        translateEntries_panic_of_mem he hm
      obtain ⟨m2, h2⟩ : ∃ m2, translateEntries og [] es' = .panic m2 :=
        translateEntries_panic_of_mem he' hm'
      rw [h1, h2]
      trivial
    · have hnp : ∀ e ∈ es, ∀ m, translateRecursive Flag.clear og.ro e.2 ≠ .panic m :=
        fun e he m hm => hA ⟨e, he, m, hm⟩
      have hnp' : ∀ e' ∈ es', ∀ m, translateRecursive Flag.clear og.ro e'.2 ≠ .panic m := by
        intro e' he' m hm'
        obtain ⟨e, he, _, hv⟩ := mapEqEntries_mem_right h hall hnd' e' he'
        have hag := hpair e he e' he' hv
        rw [hm'] at hag
        cases hm : translateRecursive Flag.clear og.ro e.2 <;> rw [hm] at hag <;>
          simp only [Outcome.agree] at hag
        exact hnp e he _ hm
      by_cases hog : og.isRO = true
      · obtain ⟨m1, h1⟩ := translateEntries_panic_of_ro hog hes []
        obtain ⟨m2, h2⟩ := translateEntries_panic_of_ro hog hes' []
        rw [h1, h2]
        trivial
      · have hog' : og.isRO = false := by simpa using hog
        have h1 := translateEntries_stored hog' es [] hnd (by simp) hrefl hnp
        have h2 := translateEntries_stored hog' es' [] hnd' (by simp) hrefl' hnp'
        rw [h1, h2]
        simp only [Outcome.agree, List.nil_append]
        constructor
        · apply mapEqEntries_of_mem
          intro p hp
          obtain ⟨e, he, rfl⟩ := List.mem_map.1 hp
          obtain ⟨e', he', hk, hv⟩ := mapEqEntries_mem h e he
          refine ⟨(e'.1, stored Flag.clear og.ro e'.2),
            List.mem_map.2 ⟨e', he', rfl⟩, hk, ?_⟩
          exact agree_stored (hpair e he e' he' hv) hv (hnp e he)
        · simp only [List.all_eq_true, List.any_eq_true, decide_eq_true_eq]
          intro p hp
          obtain ⟨e', he', rfl⟩ := List.mem_map.1 hp
          obtain ⟨e, he, hk⟩ := keys_subset_of_all hall e' he'
          exact ⟨(e.1, stored Flag.clear og.ro e.2), List.mem_map.2 ⟨e, he, rfl⟩, hk⟩

/-- On two sources equal up to the order of map entries, with the same handles,
the builder has agreeing outcomes. -/
theorem translateRecursive_agree (v : Val) :
    ∀ w, mapEq v w = true → distinctKeys v = true → distinctKeys w = true →
      ∀ cf og, Outcome.agree (fun r r' => mapEq r r' = true)
        (translateRecursive cf og v) (translateRecursive cf og w) := by
  induction v using Val.induct with
  | leaf k t d =>
    intro w h _ _ cf og
    cases w <;> simp only [mapEq, Bool.and_eq_true, beq_iff_eq] at h <;> try (cases h; done)
    obtain ⟨⟨rfl, rfl⟩, rfl⟩ := h
    simp only [translateRecursive]
    by_cases hc : cf.isRO = true <;> by_cases ho : og.isRO = true <;>
      simp [Outcome.agree, mapEq, hc, ho]
  | nilPtr t =>
    intro w h _ _ cf og
    cases w <;> simp only [mapEq] at h <;> try cases h
    simp [translateRecursive, Outcome.agree, mapEq, h]
  | ptr t e ih =>
    intro w h hd hd' cf og
    cases w <;> simp only [mapEq, Bool.and_eq_true] at h <;> try (cases h; done)
    rename_i t' e'
    simp only [distinctKeys] at hd hd'
    have hag := ih e' h.2 hd hd' cf og
    simp only [translateRecursive]
    by_cases hc : cf.isRO = true <;> by_cases ho : og.isRO = true <;>
      cases h1 : translateRecursive cf og e <;>
      cases h2 : translateRecursive cf og e' <;>
      rw [h1, h2] at hag <;> simp only [Outcome.agree] at hag <;>
      simp [Outcome.agree, mapEq, hc, ho, hag, h.1, h.2]
  | nilIface t =>
    intro w h _ _ cf og
    cases w <;> simp only [mapEq] at h <;> try cases h
    simp [translateRecursive, Outcome.agree]
  | iface t held ih =>
    intro w h hd hd' cf og
    cases w <;> simp only [mapEq, Bool.and_eq_true] at h <;> try (cases h; done)
    rename_i t' held'
    simp only [distinctKeys] at hd hd'
    have hag := ih held' h.2 hd hd' Flag.clear og.ro
    simp only [translateRecursive]
    by_cases hc : cf.isRO = true <;>
      cases h1 : translateRecursive Flag.clear og.ro held <;>
      cases h2 : translateRecursive Flag.clear og.ro held' <;>
      rw [h1, h2] at hag <;> simp only [Outcome.agree] at hag <;>
      simp [Outcome.agree, mapEq, hc, hag, h.1]
  | struct t fs ih =>
    intro w h hd hd' cf og
    cases w <;> simp only [mapEq, Bool.and_eq_true] at h <;> try (cases h; done)
    rename_i t' fs'
    simp only [distinctKeys] at hd hd'
    have hag := translateFields_agree fs ih fs' h.2 hd hd' cf og
    simp only [translateRecursive]
    cases h1 : translateFields cf og fs <;> cases h2 : translateFields cf og fs' <;>
      rw [h1, h2] at hag <;> simp only [Outcome.agree] at hag <;>
      simp [Outcome.agree, mapEq, hag, h.1]
  | array t es _ =>
    intro w h _ _ cf og
    cases w <;> simp only [mapEq, Bool.and_eq_true] at h <;> try (cases h; done)
    simp [translateRecursive, Outcome.agree]
  | nilSlice t =>
    intro w h _ _ cf og
    cases w <;> simp only [mapEq] at h <;> try cases h
    simp only [translateRecursive]
    by_cases hc : cf.isRO = true <;> simp [Outcome.agree, mapEq, mapEqElems, hc, h]
  | slice t es c ih =>
    intro w h hd hd' cf og
    cases w <;> simp only [mapEq, Bool.and_eq_true, beq_iff_eq] at h <;>
      try (cases h; done)
    rename_i t' es' c'
    obtain ⟨⟨rfl, rfl⟩, hes⟩ := h
    simp only [distinctKeys] at hd hd'
    have hag := translateElems_agree es ih es' hes hd hd' cf.ro og.ro
    have hlen : es'.length = es.length := by
      clear hag ih hd hd'
      induction es generalizing es' with
      | nil => cases es' with
        | nil => rfl
        | cons _ _ => simp [mapEqElems] at hes
      | cons a es ihl => cases es' with
        | nil => simp [mapEqElems] at hes
        | cons b es' =>
          simp only [mapEqElems, Bool.and_eq_true] at hes
          simp [ihl es' hes.2]
    simp only [translateRecursive, hlen]
    by_cases hc : cf.isRO = true <;> by_cases hl : c < es.length <;>
      cases h1 : translateElems cf.ro og.ro es <;>
      cases h2 : translateElems cf.ro og.ro es' <;>
      rw [h1, h2] at hag <;> simp only [Outcome.agree] at hag <;>
      simp [Outcome.agree, mapEq, hc, hl, hag]
  | nilMap t =>
    intro w h _ _ cf og
    cases w <;> simp only [mapEq] at h <;> try cases h
    simp only [translateRecursive]
    by_cases hc : cf.isRO = true <;> simp [Outcome.agree, mapEq, mapEqEntries, hc, h]
  | map t es ih =>
    intro w h hd hd' cf og
    cases w <;> simp only [mapEq, Bool.and_eq_true] at h <;> try (cases h; done)
    rename_i t' es'
    obtain ⟨⟨ht, hes⟩, hall⟩ := h
    simp only [distinctKeys, Bool.and_eq_true, decide_eq_true_eq] at hd hd'
    have hag := translateEntries_agree og ih hes hall hd.1 hd'.1 hd.2 hd'.2
    simp only [translateRecursive]
    by_cases hc : cf.isRO = true <;>
      cases h1 : translateEntries og [] es <;>
      cases h2 : translateEntries og [] es' <;>
      rw [h1, h2] at hag <;> simp only [Outcome.agree] at hag <;>
      simp [Outcome.agree, mapEq, hc, hag, ht]

/-- C24, amended: the outcome of `translateRecursive` (whether it succeeds,
returns an error or aborts, and on success the resulting value with maps
compared as key-to-value mappings) is a function of the source value and of
the read-only bits of the source and destination handles only, and it is the
same for every order in which the keys of any map in the value are visited:
on two sources that differ only in the order of map entries, with the same
handles, both calls succeed with results equal as mappings, or both return an
error, or both abort. -/
theorem translateRecursive_order_independent (v w : Val) (cf og : Flag)
    (h : mapEq v w = true) (hd : distinctKeys v = true) (hd' : distinctKeys w = true) :
    Outcome.agree (fun r r' => mapEq r r' = true)
      (translateRecursive cf og v) (translateRecursive cf og w) :=
  translateRecursive_agree v w h hd hd' cf og

/-- Witness for amended C24: `map[string][]int{"a": nil, "b": {1}}` visited in
the two orders of its keys. -/
theorem translateRecursive_order_independent_witness :
    Outcome.agree (fun r r' => mapEq r r' = true)
      (translateRecursive Flag.clear Flag.clear (.map "map[string][]int"
        [(⟨"a", true⟩, .nilSlice "[]int"), (⟨"b", true⟩, .slice "[]int" [.leaf "int" "int" "1"] 1)]))
      (translateRecursive Flag.clear Flag.clear (.map "map[string][]int"
        [(⟨"b", true⟩, .slice "[]int" [.leaf "int" "int" "1"] 1), (⟨"a", true⟩, .nilSlice "[]int")])) :=
  translateRecursive_order_independent _ _ Flag.clear Flag.clear rfl rfl rfl

theorem mapEqFields_refl (fs : List (Vis × Val)) (ih : ∀ f ∈ fs, mapEq f.2 f.2 = true) :
    mapEqFields fs fs = true := by
  induction fs with
  | nil => simp [mapEqFields]
  | cons f fs ihl =>
    obtain ⟨vis, v⟩ := f
    simp [mapEqFields, ih (vis, v) (List.mem_cons_self _ _),
      ihl (fun f hf => ih f (List.mem_cons_of_mem _ hf))]

theorem mapEqElems_refl (vs : List Val) (ih : ∀ v ∈ vs, mapEq v v = true) :
    mapEqElems vs vs = true := by
  induction vs with
  | nil => simp [mapEqElems]
  | cons v vs ihl =>
    simp [mapEqElems, ih v (List.mem_cons_self _ _),
      ihl (fun f hf => ih f (List.mem_cons_of_mem _ hf))]

/-- Every value is equal to itself with maps compared as mappings. -/
theorem mapEq_refl (v : Val) : mapEq v v = true := by
  induction v using Val.induct with
  | leaf k t d => simp [mapEq]
  | nilPtr t => simp [mapEq]
  | ptr t e ih => simp [mapEq, ih]
  | nilIface t => simp [mapEq]
  | iface t h ih => simp [mapEq, ih]
  | struct t fs ih => simp [mapEq, mapEqFields_refl fs ih]
  | array t es ih => simp [mapEq, mapEqElems_refl es ih]
  | nilSlice t => simp [mapEq]
  | slice t es c ih => simp [mapEq, mapEqElems_refl es ih]
  | nilMap t => simp [mapEq]
  | map t es ih =>
    have h1 : mapEqEntries es es = true :=
      mapEqEntries_of_mem (fun e he => ⟨e, he, rfl, ih e he⟩)
    have h2 : (es.all fun p => es.any fun q => decide (q.1 = p.1)) = true := by
      simp only [List.all_eq_true, List.any_eq_true, decide_eq_true_eq]
      exact fun p hp => ⟨p, hp, rfl⟩
    simp [mapEq, h1, h2]

/-- C24, as stated, fails in its first part: the outcome is not a function of
the source value and the settability of the destination only.  The struct
`inner{A: 0}` read through the same handle, with a destination that is
unsettable both times, makes the builder panic when the destination is an
embedded field of a fresh copy and return an error when it lies under an
unexported field; both calls occur, in `Translate(&S{x: W{}})` and in
`Translate(&S2{})` for `type W struct{ inner }`, `type S struct{ x interface{} }`,
`type T1 struct{ inner }`, `type S2 struct{ y T1 }`. -/
theorem translateRecursive_settability_counterexample :
    Flag.isRO ⟨false, true⟩ = true ∧ Flag.isRO ⟨true, true⟩ = true ∧
    translateRecursive ⟨false, true⟩ ⟨true, true⟩
        (.struct "inner" [(Vis.exported, .leaf "int" "int" "0")]) = .panic setPanic ∧
    translateRecursive ⟨true, true⟩ ⟨true, true⟩
        (.struct "inner" [(Vis.exported, .leaf "int" "int" "0")]) = .error "cannot set: int" ∧
    ((Flag.clear.field Vis.unexported).ro.field Vis.embedded = ⟨true, true⟩ ∧
      Flag.clear.field Vis.embedded = ⟨false, true⟩) ∧
    (Flag.clear.field Vis.unexported).field Vis.embedded = ⟨true, true⟩ ∧
    (Translate (some (.ptr "*S" (.struct "S" [(Vis.unexported, .iface "interface {}"
        (.struct "W" [(Vis.embedded,
          .struct "inner" [(Vis.exported, .leaf "int" "int" "0")])]))])))).panic
      = some setPanic ∧
    (Translate (some (.ptr "*S2" (.struct "S2" [(Vis.unexported,
        .struct "T1" [(Vis.embedded,
          .struct "inner" [(Vis.exported, .leaf "int" "int" "0")])])])))).panic = none := by
  refine ⟨rfl, rfl, rfl, rfl, ⟨rfl, rfl⟩, rfl, rfl, rfl⟩

/-! ## C3, continued: what is rebuilt and what is recovered -/

theorem childResult_rebuilt {cf og : Flag} {v r : Val}
    (ih : ∀ cf og r, translateRecursive cf og v = .ok r → rebuilt cf og v r = true)
    (h : childResult cf og v r) :
    (if (translateRecursive cf og v).isError then sim v r else rebuilt cf og v r) = true := by
  rcases h with h | ⟨⟨m, hm⟩, hv, _, _⟩
  · simp [h, Outcome.isError, ih _ _ _ h]
  · subst hv
    simp [hm, Outcome.isError, sim_refl]

theorem rebuiltFields_of_results {cf og : Flag} {fs fs' : List (Vis × Val)}
    (ih : ∀ f ∈ fs, ∀ cf og r, translateRecursive cf og f.2 = .ok r →
      rebuilt cf og f.2 r = true)
    (h : List.Forall₂ (fun f f' => f'.1 = f.1 ∧
        childResult (cf.field f.1) (og.field f.1) f.2 f'.2) fs fs') :
    rebuiltFields cf og fs fs' = true := by
  induction h with
  | nil => simp [rebuiltFields]
  | @cons f f' fs fs' hf _ ihl =>
    obtain ⟨vis, v⟩ := f
    obtain ⟨vis', v'⟩ := f'
    obtain ⟨hvis, hc⟩ := hf
    simp only at hvis hc
    subst hvis
    have hr := ihl (fun f hf => ih f (List.mem_cons_of_mem _ hf))
    have hv := childResult_rebuilt (ih (vis', v) (List.mem_cons_self _ _)) hc
    simp only at hv
    simp only [rebuiltFields, Bool.and_eq_true, decide_eq_true_eq]
    exact ⟨⟨trivial, hv⟩, hr⟩

theorem rebuiltElems_of_results {cf og : Flag} {vs vs' : List Val}
    (ih : ∀ v ∈ vs, ∀ cf og r, translateRecursive cf og v = .ok r →
      rebuilt cf og v r = true)
    (h : List.Forall₂ (fun v v' => childResult cf og v v') vs vs') :
    rebuiltElems cf og vs vs' = true := by
  induction h with
  | nil => simp [rebuiltElems]
  | @cons v v' vs vs' hc _ ihl =>
    have hr := ihl (fun f hf => ih f (List.mem_cons_of_mem _ hf))
    have hv := childResult_rebuilt (ih v (List.mem_cons_self _ _)) hc
    simp only [rebuiltElems, Bool.and_eq_true]
    exact ⟨hv, hr⟩

theorem rebuiltEntries_of_results {og : Flag} {es l : List (Key × Val)}
    (ih : ∀ e ∈ es, ∀ cf og r, translateRecursive cf og e.2 = .ok r →
      rebuilt cf og e.2 r = true)
    (h : List.Forall₂ (fun e e' => e'.1 = e.1 ∧ og.isRO = false ∧
        childResult Flag.clear og.ro e.2 e'.2) es l) :
    rebuiltEntries og es l = true := by
  induction h with
  | nil => simp [rebuiltEntries]
  | @cons e e' es l he _ ihl =>
    obtain ⟨k, v⟩ := e
    obtain ⟨k', v'⟩ := e'
    obtain ⟨hk, _, hc⟩ := he
    simp only at hk hc
    subst hk
    have hr := ihl (fun f hf => ih f (List.mem_cons_of_mem _ hf))
    have hv := childResult_rebuilt (ih (k', v) (List.mem_cons_self _ _)) hc
    simp only at hv
    simp only [rebuiltEntries, Bool.and_eq_true, decide_eq_true_eq]
    exact ⟨⟨trivial, hv⟩, hr⟩

/-- On a value whose maps have distinct keys, what the builder returns is
rebuilt from the source. -/
theorem translateRecursive_rebuilt (v : Val) :
    distinctKeys v = true →
      ∀ cf og r, translateRecursive cf og v = .ok r → rebuilt cf og v r = true := by
  induction v using Val.induct with
  | leaf k t d =>
    intro _ cf og r h
    obtain ⟨rfl, _, _⟩ := translateRecursive_leaf_ok h
    simp [rebuilt]
  | nilPtr t =>
    intro _ cf og r h
    simp [translateRecursive] at h
    subst h
    simp [rebuilt]
  | ptr t e ih =>
    intro hd cf og r h
    simp only [distinctKeys] at hd
    obtain ⟨_, e', rfl, hc⟩ := translateRecursive_ptr_ok h
    have hv := childResult_rebuilt (ih hd) hc
    simp only [rebuilt, Bool.and_eq_true, beq_self_eq_true, true_and]
    exact hv
  | nilIface t => intro _ cf og r h; simp [translateRecursive] at h
  | iface t held ih =>
    intro hd cf og r h
    simp only [distinctKeys] at hd
    obtain ⟨_, held', rfl, hc⟩ := translateRecursive_iface_ok h
    simp [rebuilt, ih hd _ _ _ hc]
  | struct t fs ih =>
    intro hd cf og r h
    simp only [distinctKeys] at hd
    obtain ⟨fs', rfl, hf⟩ := translateRecursive_struct_ok h
    have := rebuiltFields_of_results
      (fun f hf => ih f hf (distinctKeysFields_mem hd f hf)) (translateFields_ok_inv _ _ _ _ hf)
    simp [rebuilt, this]
  | array t es _ => intro _ cf og r h; simp [translateRecursive] at h
  | nilSlice t =>
    intro _ cf og r h
    obtain ⟨_, rfl⟩ := translateRecursive_nilSlice_ok h
    simp [rebuilt]
  | slice t es c ih =>
    intro hd cf og r h
    simp only [distinctKeys] at hd
    obtain ⟨_, _, es', rfl, he⟩ := translateRecursive_slice_ok h
    have := rebuiltElems_of_results
      (fun f hf => ih f hf (distinctKeysElems_mem hd f hf)) (translateElems_ok_inv _ _ _ _ he)
    simp [rebuilt, this]
  | nilMap t =>
    intro _ cf og r h
    obtain ⟨_, rfl⟩ := translateRecursive_nilMap_ok h
    simp [rebuilt]
  | map t es ih =>
    intro hd cf og r h
    simp only [distinctKeys, Bool.and_eq_true, decide_eq_true_eq] at hd
    obtain ⟨_, es', rfl, he⟩ := translateRecursive_map_ok h
    obtain ⟨l, hl, rfl⟩ := translateEntries_ok_inv _ _ _ _ he
    have hkeys := (simEntries_of_results
      (fun f hf => translateRecursive_sim f.2 (distinctKeysEntries_mem hd.2 f hf)) hl).2
    have hr := rebuiltEntries_of_results
      (fun f hf => ih f hf (distinctKeysEntries_mem hd.2 f hf)) hl
    have : setAll [] l = l := by
      simpa using setAll_eq_append (l := l) [] (hkeys ▸ hd.1) (by simp)
    simp [rebuilt, this, hr]

/-- C3, as stated, fails: on `&struct{ M map[string]int }{nil}` the call
returns normally and the map field, which is not a nil slice, is not equal to
the original, the nil map has become a non-nil empty map; and on
`&struct{ T struct{ x int; S []int } }{}` the field `T` is recovered with the
original, so the position of the nil slice `S` still holds a nil slice. -/
theorem Translate_deep_equality_counterexample :
    Translate (some (.ptr "*S" (.struct "S" [(Vis.exported, .nilMap "map[string]int")])))
      = ⟨none, some (.ptr "*S" (.struct "S" [(Vis.exported, .map "map[string]int" [])]))⟩ ∧
    Val.map "map[string]int" [] ≠ Val.nilMap "map[string]int" ∧
    Translate (some (.ptr "*S" (.struct "S" [(Vis.exported,
        .struct "T" [(Vis.unexported, .leaf "int" "int" "0"),
          (Vis.exported, .nilSlice "[]int")])])))
      = ⟨none, some (.ptr "*S" (.struct "S" [(Vis.exported,
        .struct "T" [(Vis.unexported, .leaf "int" "int" "0"),
          (Vis.exported, .nilSlice "[]int")])]))⟩ := by
  exact ⟨rfl, fun h => Val.noConfusion h, rfl⟩

/-- C3, amended: when `Translate` returns normally on a non-nil pointer (to a
value whose maps have distinct keys, as every Go map has), the value after the
call is structurally identical to the value before the call except at
positions where the original held a nil slice or a nil map (`sim`); outside
the children whose transformation returned an error every such position holds
the empty slice, respectively the empty map, of the same type, and only inside
such a child, which is recovered with the original, may it still hold the nil
value (`rebuilt`); every other position is equal to the original. -/
theorem Translate_agrees_up_to_nil (t : String) (e : Val) (after : Option Val)
    (hk : distinctKeys e = true)
    (h : Translate (some (.ptr t e)) = ⟨none, after⟩) :
    ∃ e', after = some (.ptr t e') ∧ sim e e' = true ∧
      rebuilt Flag.clear Flag.clear (.ptr t e) (.ptr t e') = true := by
  unfold Translate at h
  simp only at h
  split at h <;> rename_i heq
  · simp at h
  · simp at h
  · rename_i t' e'
    simp only [Exit.mk.injEq, true_and] at h
    subst h
    have hd : distinctKeys (.ptr t e) = true := by simpa [distinctKeys] using hk
    have hs := translateRecursive_sim (.ptr t e) hd _ _ _ heq
    have hr := translateRecursive_rebuilt (.ptr t e) hd _ _ _ heq
    have ht : t' = t := by
      simp only [sim, Bool.and_eq_true, beq_iff_eq] at hs
      exact hs.1.symm
    subst ht
    simp only [sim, Bool.and_eq_true] at hs
    exact ⟨e', rfl, hs.2, hr⟩
  · simp at h

/-- Witness for amended C3: `&S{}` for
`struct{ A []int; M map[string]int; P *int; T struct{ x int; B []int } }`;
`A` and `M` become empty, the field `T` is recovered, its nil slice
included. -/
theorem Translate_agrees_up_to_nil_witness :
    ∃ e', some (Val.ptr "*S" (.struct "S" [(Vis.exported, .slice "[]int" [] 0),
          (Vis.exported, .map "map[string]int" []), (Vis.exported, .nilPtr "*int"),
          (Vis.exported, .struct "T" [(Vis.unexported, .leaf "int" "int" "3"),
            (Vis.exported, .nilSlice "[]int")])])) = some (.ptr "*S" e') ∧
      sim (.struct "S" [(Vis.exported, .nilSlice "[]int"),
          (Vis.exported, .nilMap "map[string]int"), (Vis.exported, .nilPtr "*int"),
          (Vis.exported, .struct "T" [(Vis.unexported, .leaf "int" "int" "3"),
            (Vis.exported, .nilSlice "[]int")])]) e' = true ∧
      rebuilt Flag.clear Flag.clear (.ptr "*S" (.struct "S" [(Vis.exported, .nilSlice "[]int"),
          (Vis.exported, .nilMap "map[string]int"), (Vis.exported, .nilPtr "*int"),
          (Vis.exported, .struct "T" [(Vis.unexported, .leaf "int" "int" "3"),
            (Vis.exported, .nilSlice "[]int")])])) (.ptr "*S" e') = true :=
  Translate_agrees_up_to_nil "*S"
    (.struct "S" [(Vis.exported, .nilSlice "[]int"),
      (Vis.exported, .nilMap "map[string]int"), (Vis.exported, .nilPtr "*int"),
      (Vis.exported, .struct "T" [(Vis.unexported, .leaf "int" "int" "3"),
        (Vis.exported, .nilSlice "[]int")])])
    _ rfl rfl

/-- The relation `rebuilt` is not met by leaving a nil slice in place: it is
strictly stronger than `sim`. -/
theorem rebuilt_nilSlice_not_kept :
    rebuilt Flag.clear Flag.clear (.struct "S" [(Vis.exported, .nilSlice "[]int")])
      (.struct "S" [(Vis.exported, .nilSlice "[]int")]) = false ∧
    sim (.struct "S" [(Vis.exported, .nilSlice "[]int")])
      (.struct "S" [(Vis.exported, .nilSlice "[]int")]) = true := by
  constructor <;> rfl

/-! ## C25: the calls made by a run -/

@[simp] theorem logged_fst {α : Type} (d : Nat) (r : Outcome α) (tr : List Call) :
    (logged d r tr).1 = r := rfl

@[simp] theorem logged_snd {α : Type} (d : Nat) (r : Outcome α) (tr : List Call) :
    (logged d r tr).2 = ⟨d, r.isOk⟩ :: tr := rfl

theorem translateFieldsT_fst (fs : List (Vis × Val))
    (ih : ∀ f ∈ fs, ∀ d cf og, (translateRecursiveT d cf og f.2).1 = translateRecursive cf og f.2)
    (d : Nat) (cf og : Flag) :
    (translateFieldsT d cf og fs).1 = translateFields cf og fs := by
  induction fs with
  | nil => simp [translateFieldsT, translateFields]
  | cons f fs ihl =>
    obtain ⟨vis, v⟩ := f
    have hv := ih (vis, v) (List.mem_cons_self _ _) d (cf.field vis) (og.field vis)
    have hr := ihl (fun f hf => ih f (List.mem_cons_of_mem _ hf))
    simp only at hv
    simp only [translateFieldsT, translateFields, ← hv, ← hr]
    rcases translateRecursiveT d (cf.field vis) (og.field vis) v with ⟨r, tr⟩
    rcases translateFieldsT d cf og fs with ⟨r', tr'⟩
    cases r <;> cases r' <;> simp <;> (repeat (split <;> try simp))

theorem translateElemsT_fst (vs : List Val)
    (ih : ∀ v ∈ vs, ∀ d cf og, (translateRecursiveT d cf og v).1 = translateRecursive cf og v)
    (d : Nat) (cf og : Flag) :
    (translateElemsT d cf og vs).1 = translateElems cf og vs := by
  induction vs with
  | nil => simp [translateElemsT, translateElems]
  | cons v vs ihl =>
    have hv := ih v (List.mem_cons_self _ _) d cf og
    have hr := ihl (fun f hf => ih f (List.mem_cons_of_mem _ hf))
    simp only [translateElemsT, translateElems, ← hv, ← hr]
    rcases translateRecursiveT d cf og v with ⟨r, tr⟩
    rcases translateElemsT d cf og vs with ⟨r', tr'⟩
    cases r <;> cases r' <;> simp <;> (repeat (split <;> try simp))

theorem translateEntriesT_fst (es : List (Key × Val))
    (ih : ∀ e ∈ es, ∀ d cf og, (translateRecursiveT d cf og e.2).1 = translateRecursive cf og e.2)
    (d : Nat) (og : Flag) :
    ∀ acc, (translateEntriesT d og acc es).1 = translateEntries og acc es := by
  induction es with
  | nil => intro acc; simp [translateEntriesT, translateEntries]
  | cons e es ihl =>
    intro acc
    obtain ⟨k, v⟩ := e
    have hv := ih (k, v) (List.mem_cons_self _ _) d Flag.clear og.ro
    have hr := ihl (fun f hf => ih f (List.mem_cons_of_mem _ hf))
    simp only at hv
    simp only [translateEntriesT, translateEntries, ← hv, ← hr]
    rcases translateRecursiveT d Flag.clear og.ro v with ⟨r, tr⟩
    cases r <;> simp <;> (repeat (split <;> try simp))

/-- The traced run computes the outcome of `translateRecursive`. -/
theorem translateRecursiveT_fst (v : Val) :
    ∀ d cf og, (translateRecursiveT d cf og v).1 = translateRecursive cf og v := by
  induction v using Val.induct with
  | leaf k t x => intro d cf og; simp [translateRecursiveT, translateRecursive]
  | nilPtr t => intro d cf og; simp [translateRecursiveT, translateRecursive]
  | ptr t e ih =>
    intro d cf og
    have := ih (d + 1) cf og
    simp only [translateRecursiveT, translateRecursive, ← this]
    rcases translateRecursiveT (d + 1) cf og e with ⟨r, tr⟩
    cases r <;> simp <;> (repeat (split <;> try simp))
  | nilIface t => intro d cf og; simp [translateRecursiveT, translateRecursive]
  | iface t held ih =>
    intro d cf og
    have := ih (d + 1) Flag.clear og.ro
    simp only [translateRecursiveT, translateRecursive, ← this]
    rcases translateRecursiveT (d + 1) Flag.clear og.ro held with ⟨r, tr⟩
    cases r <;> simp
  | struct t fs ih =>
    intro d cf og
    have := translateFieldsT_fst fs ih (d + 1) cf og
    simp only [translateRecursiveT, translateRecursive, ← this]
    rcases translateFieldsT (d + 1) cf og fs with ⟨r, tr⟩
    cases r <;> simp
  | array t es _ => intro d cf og; simp [translateRecursiveT, translateRecursive]
  | nilSlice t => intro d cf og; simp [translateRecursiveT, translateRecursive]
  | slice t es c ih =>
    intro d cf og
    have := translateElemsT_fst es ih (d + 1) cf.ro og.ro
    simp only [translateRecursiveT, translateRecursive, ← this]
    rcases translateElemsT (d + 1) cf.ro og.ro es with ⟨r, tr⟩
    cases r <;> simp <;> (repeat (split <;> try simp))
  | nilMap t => intro d cf og; simp [translateRecursiveT, translateRecursive]
  | map t es ih =>
    intro d cf og
    have := translateEntriesT_fst es ih (d + 1) og []
    simp only [translateRecursiveT, translateRecursive, ← this]
    rcases translateEntriesT (d + 1) og [] es with ⟨r, tr⟩
    cases r <;> simp <;> (repeat (split <;> try simp))

theorem maxLevel_append (a b : List Call) :
    maxLevel (a ++ b) = max (maxLevel a) (maxLevel b) := by
  induction a with
  | nil => simp [maxLevel]
  | cons c a ih => simp [maxLevel, ih, max_assoc]

theorem translateFieldsT_counts (fs : List (Vis × Val)) (ih : ∀ f ∈ fs, countsOk f.2)
    (d : Nat) (cf og : Flag)
    (hc : ∀ c ∈ (translateFieldsT (d + 1) cf og fs).2, c.returnedNil = true)
    (hok : (translateFieldsT (d + 1) cf og fs).1.isOk = true) :
    (translateFieldsT (d + 1) cf og fs).2.length = nodesFields fs ∧
    max d (maxLevel (translateFieldsT (d + 1) cf og fs).2) = d + nestingFields fs ∧
    (translateFieldsT (d + 1) cf og fs).2.map Call.level = levelsFields (d + 1) fs := by
  induction fs with
  | nil => simp [translateFieldsT, nodesFields, nestingFields, maxLevel, levelsFields]
  | cons f fs ihl =>
    obtain ⟨vis, v⟩ := f
    have hv := ih (vis, v) (List.mem_cons_self _ _) (d + 1) (cf.field vis) (og.field vis)
    have hr := ihl (fun f hf => ih f (List.mem_cons_of_mem _ hf))
    simp only at hv
    simp only [translateFieldsT] at hc hok ⊢
    rcases h : translateRecursiveT (d + 1) (cf.field vis) (og.field vis) v with ⟨r, tr⟩
    rcases h' : translateFieldsT (d + 1) cf og fs with ⟨r', tr'⟩
    rw [h] at hv
    rw [h'] at hr
    simp only [h, h'] at hc hok ⊢
    cases r with
    | panic m => simp [Outcome.isOk] at hok
    | error m =>
      exfalso
      have : ∀ c ∈ tr, c.returnedNil = true := by
        intro c hc'
        apply hc
        dsimp only
        split <;> (try split) <;> (try split) <;> simp [hc']
      simpa [Outcome.isOk] using (hv this).1
    | ok v' =>
      cases r' with
      | panic m => simp [Outcome.isOk] at hok
      | error m => simp [Outcome.isOk] at hok
      | ok fs' =>
        dsimp only at hc hv hr ⊢
        simp only [List.mem_append] at hc
        obtain ⟨_, h1, h2, h5⟩ := hv (fun c hc' => hc c (Or.inl hc'))
        obtain ⟨h3, h4, h6⟩ := hr (fun c hc' => hc c (Or.inr hc')) rfl
        simp only [nodesFields, nestingFields, levelsFields, List.length_append, maxLevel_append, h1, h3,
          h5, h6, List.map_append, true_and, and_true]
        omega


theorem translateElemsT_counts (vs : List Val) (ih : ∀ v ∈ vs, countsOk v)
    (d : Nat) (cf og : Flag)
    (hc : ∀ c ∈ (translateElemsT (d + 1) cf og vs).2, c.returnedNil = true)
    (hok : (translateElemsT (d + 1) cf og vs).1.isOk = true) :
    (translateElemsT (d + 1) cf og vs).2.length = nodesElems vs ∧
    max d (maxLevel (translateElemsT (d + 1) cf og vs).2) = d + nestingElems vs ∧
    (translateElemsT (d + 1) cf og vs).2.map Call.level = levelsElems (d + 1) vs := by
  induction vs with
  | nil => simp [translateElemsT, nodesElems, nestingElems, maxLevel, levelsElems]
  | cons v vs ihl =>
    have hv := ih v (List.mem_cons_self _ _) (d + 1) cf og
    have hr := ihl (fun f hf => ih f (List.mem_cons_of_mem _ hf))
    simp only [translateElemsT] at hc hok ⊢
    rcases h : translateRecursiveT (d + 1) cf og v with ⟨r, tr⟩
    rcases h' : translateElemsT (d + 1) cf og vs with ⟨r', tr'⟩
    rw [h] at hv
    rw [h'] at hr
    simp only [h, h'] at hc hok ⊢
    cases r with
    | panic m => simp [Outcome.isOk] at hok
    | error m =>
      exfalso
      have : ∀ c ∈ tr, c.returnedNil = true := by
        intro c hc'
        apply hc
        dsimp only
        split <;> (try split) <;> simp [hc']
      simpa [Outcome.isOk] using (hv this).1
    | ok v' =>
      cases r' with
      | panic m => simp [Outcome.isOk] at hok
      | error m => simp [Outcome.isOk] at hok
      | ok fs' =>
        dsimp only at hc hv hr ⊢
        simp only [List.mem_append] at hc
        obtain ⟨_, h1, h2, h5⟩ := hv (fun c hc' => hc c (Or.inl hc'))
        obtain ⟨h3, h4, h6⟩ := hr (fun c hc' => hc c (Or.inr hc')) rfl
        simp only [nodesElems, nestingElems, levelsElems, List.length_append, maxLevel_append, h1, h3,
          h5, h6, List.map_append, true_and, and_true]
        omega

theorem translateEntriesT_counts (es : List (Key × Val)) (ih : ∀ e ∈ es, countsOk e.2)
    (d : Nat) (og : Flag) :
    ∀ acc, (∀ c ∈ (translateEntriesT (d + 1) og acc es).2, c.returnedNil = true) →
      (translateEntriesT (d + 1) og acc es).1.isOk = true →
      (translateEntriesT (d + 1) og acc es).2.length = nodesEntries es ∧
      max d (maxLevel (translateEntriesT (d + 1) og acc es).2) = d + nestingEntries es ∧
      (translateEntriesT (d + 1) og acc es).2.map Call.level = levelsEntries (d + 1) es := by
  induction es with
  | nil =>
    intro acc _ _
    simp [translateEntriesT, nodesEntries, nestingEntries, maxLevel, levelsEntries]
  | cons e es ihl =>
    intro acc hc hok
    obtain ⟨k, v⟩ := e
    have hv := ih (k, v) (List.mem_cons_self _ _) (d + 1) Flag.clear og.ro
    have hr := ihl (fun f hf => ih f (List.mem_cons_of_mem _ hf))
    simp only at hv
    simp only [translateEntriesT] at hc hok ⊢
    cases hk : k.reflexive with
    | false => simp [hk, Outcome.isOk] at hok
    | true =>
      simp only [hk, Bool.not_true, Bool.false_eq_true, if_false] at hc hok ⊢
      rcases h : translateRecursiveT (d + 1) Flag.clear og.ro v with ⟨r, tr⟩
      rw [h] at hv
      simp only [h] at hc hok ⊢
      cases r with
      | panic m => simp [Outcome.isOk] at hok
      | error m =>
        exfalso
        have : ∀ c ∈ tr, c.returnedNil = true := by
          intro c hc'
          apply hc
          dsimp only
          split <;> simp [hc']
        simpa [Outcome.isOk] using (hv this).1
      | ok v' =>
        dsimp only at hc hok hv ⊢
        cases hro : og.isRO with
        | true => simp [hro, Outcome.isOk] at hok
        | false =>
          simp only [hro, Bool.false_eq_true, if_false, List.mem_append] at hc hok ⊢
          obtain ⟨_, h1, h2, h5⟩ := hv (fun c hc' => hc c (Or.inl hc'))
          obtain ⟨h3, h4, h6⟩ := hr (SetMapIndex acc k v') (fun c hc' => hc c (Or.inr hc')) hok
          simp only [nodesEntries, nestingEntries, levelsEntries, List.length_append,
            maxLevel_append, h1, h3, h5, h6, List.map_append, true_and, and_true]
          omega

/-- A run in which every call returns nil makes one call per node and nests
them as deep as the value. -/
theorem translateRecursiveT_counts (v : Val) : countsOk v := by
  induction v using Val.induct with
  | leaf k t x =>
    intro d cf og hc
    have := hc _ (List.mem_cons_self _ _)
    simp only [translateRecursiveT, logged_snd, logged_fst] at this ⊢
    simp [this, nodes, nesting, maxLevel, levels]
  | nilPtr t =>
    intro d cf og hc
    simp [translateRecursiveT, Outcome.isOk, nodes, nesting, maxLevel, levels]
  | ptr t e ih =>
    intro d cf og hc
    have hv := ih (d + 1) cf og
    simp only [translateRecursiveT] at hc ⊢
    cases hcf : cf.isRO with
    | true => simp [hcf, Outcome.isOk] at hc
    | false =>
      simp only [hcf, Bool.false_eq_true, if_false] at hc ⊢
      rcases h : translateRecursiveT (d + 1) cf og e with ⟨r, tr⟩
      rw [h] at hv
      simp only [h] at hc ⊢
      cases r with
      | panic m => simp [Outcome.isOk] at hc
      | error m =>
        exfalso
        dsimp only at hc hv
        have := (hv (fun c hc' => hc c (by simp [hc']))).1
        simp [Outcome.isOk] at this
      | ok e' =>
        dsimp only at hc hv ⊢
        obtain ⟨_, h1, h2, h5⟩ := hv (fun c hc' => hc c (by simp [hc']))
        simp only [logged_fst, logged_snd, Outcome.isOk, List.length_cons, maxLevel, nodes,
          nesting, levels, List.map_cons, h1, h5, true_and, and_true]
        omega
  | nilIface t =>
    intro d cf og hc
    simp [translateRecursiveT, Outcome.isOk] at hc
  | iface t held ih =>
    intro d cf og hc
    have hv := ih (d + 1) Flag.clear og.ro
    simp only [translateRecursiveT] at hc ⊢
    rcases h : translateRecursiveT (d + 1) Flag.clear og.ro held with ⟨r, tr⟩
    rw [h] at hv
    simp only [h] at hc ⊢
    cases r with
    | panic m => simp [Outcome.isOk] at hc
    | error m => simp [Outcome.isOk] at hc
    | ok e' =>
      dsimp only at hc hv ⊢
      have h0 := hc _ (List.mem_cons_self _ _)
      obtain ⟨_, h1, h2, h5⟩ := hv (fun c hc' => hc c (by simp [hc']))
      simp only [logged_fst, logged_snd, List.length_cons, maxLevel, nodes,
        nesting, levels, List.map_cons, h1, h5] at h0 ⊢
      refine ⟨h0, by omega, by omega, trivial⟩
  | struct t fs ih =>
    intro d cf og hc
    have hl := translateFieldsT_counts fs ih d cf og
    simp only [translateRecursiveT] at hc ⊢
    rcases h : translateFieldsT (d + 1) cf og fs with ⟨r, tr⟩
    rw [h] at hl
    simp only [h] at hc ⊢
    cases r with
    | panic m => simp [Outcome.isOk] at hc
    | error m => simp [Outcome.isOk] at hc
    | ok e' =>
      dsimp only at hc hl ⊢
      obtain ⟨h3, h4, h5⟩ := hl (fun c hc' => hc c (by simp [hc'])) rfl
      simp only [logged_fst, logged_snd, Outcome.isOk, List.length_cons, maxLevel, nodes,
        nesting, levels, List.map_cons, h3, h5, true_and, and_true]
      omega
  | array t es _ =>
    intro d cf og hc
    simp [translateRecursiveT, Outcome.isOk] at hc
  | nilSlice t =>
    intro d cf og hc
    have := hc _ (List.mem_cons_self _ _)
    simp only [translateRecursiveT, logged_snd, logged_fst] at this ⊢
    simp [this, nodes, nesting, maxLevel, levels]
  | slice t es c ih =>
    intro d cf og hc
    have hl := translateElemsT_counts es ih d cf.ro og.ro
    simp only [translateRecursiveT] at hc ⊢
    split at hc
    · simp [Outcome.isOk] at hc
    split at hc
    · simp [Outcome.isOk] at hc
    rename_i h1 h2
    simp only [h1, h2, if_false, Bool.false_eq_true]
    rcases h : translateElemsT (d + 1) cf.ro og.ro es with ⟨r, tr⟩
    rw [h] at hl
    simp only [h] at hc ⊢
    cases r with
    | panic m => simp [Outcome.isOk] at hc
    | error m => simp [Outcome.isOk] at hc
    | ok e' =>
      dsimp only at hc hl ⊢
      obtain ⟨h3, h4, h5⟩ := hl (fun c hc' => hc c (by simp [hc'])) rfl
      simp only [logged_fst, logged_snd, Outcome.isOk, List.length_cons, maxLevel, nodes,
        nesting, levels, List.map_cons, h3, h5, true_and, and_true]
      omega
  | nilMap t =>
    intro d cf og hc
    have := hc _ (List.mem_cons_self _ _)
    simp only [translateRecursiveT, logged_snd, logged_fst] at this ⊢
    simp [this, nodes, nesting, maxLevel, levels]
  | map t es ih =>
    intro d cf og hc
    have hl := translateEntriesT_counts es ih d og []
    simp only [translateRecursiveT] at hc ⊢
    split at hc
    · simp [Outcome.isOk] at hc
    rename_i h1
    simp only [h1, if_false, Bool.false_eq_true]
    rcases h : translateEntriesT (d + 1) og [] es with ⟨r, tr⟩
    rw [h] at hl
    simp only [h] at hc ⊢
    cases r with
    | panic m => simp [Outcome.isOk] at hc
    | error m => simp [Outcome.isOk] at hc
    | ok e' =>
      dsimp only at hc hl ⊢
      obtain ⟨h3, h4, h5⟩ := hl (fun c hc' => hc c (by simp [hc'])) rfl
      simp only [logged_fst, logged_snd, Outcome.isOk, List.length_cons, maxLevel, nodes,
        nesting, levels, List.map_cons, h3, h5, true_and, and_true]
      omega

/-- C25 (termination): for every source value on which no call of
`translateRecursive` fails or aborts (every call of the run returns nil), the
traced run computes the outcome of `translateRecursive`, which returns nil;
the calls of the run, the outermost included, are the nodes of the value in
depth-first order, one call per node at the depth of the node (so one
recursive call per child: pointee, held value, field, element, map value);
there are as many calls as nodes, and the deepest level of recursion is the
nesting depth of the value. -/
theorem translateRecursive_terminates (cf og : Flag) (v : Val)
    (hclean : ∀ c ∈ (translateRecursiveT 1 cf og v).2, c.returnedNil = true) :
    (translateRecursiveT 1 cf og v).1 = translateRecursive cf og v ∧
    (∃ r, translateRecursive cf og v = .ok r) ∧
    (translateRecursiveT 1 cf og v).2.map Call.level = levels 1 v ∧
    (translateRecursiveT 1 cf og v).2.length = nodes v ∧
    maxLevel (translateRecursiveT 1 cf og v).2 = nesting v := by
  obtain ⟨h1, h2, h3, h4⟩ := translateRecursiveT_counts v 1 cf og hclean
  have h0 := translateRecursiveT_fst v 1 cf og
  refine ⟨h0, ?_, h4, h2, by omega⟩
  rw [h0] at h1
  cases h : translateRecursive cf og v with
  | ok r => exact ⟨r, rfl⟩
  | error m => simp [h, Outcome.isOk] at h1
  | panic m => simp [h, Outcome.isOk] at h1

/-- Witness for C25: `&S{A: nil, B: []*T{nil, &T{N: 1}}, M: {"a": nil}}`, ten
nodes nested six deep. -/
theorem translateRecursive_terminates_witness :
    (∀ c ∈ (translateRecursiveT 1 Flag.clear Flag.clear
        (.ptr "*S" (.struct "S" [
          (Vis.exported, .nilSlice "[]int"),
          (Vis.exported, .slice "[]*T" [.nilPtr "*T",
            .ptr "*T" (.struct "T" [(Vis.exported, .leaf "int" "int" "1")])] 2),
          (Vis.exported, .map "map[string][]int" [(⟨"a", true⟩, .nilSlice "[]int")])]))).2,
      c.returnedNil = true) ∧
    (translateRecursiveT 1 Flag.clear Flag.clear
        (.ptr "*S" (.struct "S" [
          (Vis.exported, .nilSlice "[]int"),
          (Vis.exported, .slice "[]*T" [.nilPtr "*T",
            .ptr "*T" (.struct "T" [(Vis.exported, .leaf "int" "int" "1")])] 2),
          (Vis.exported, .map "map[string][]int" [(⟨"a", true⟩, .nilSlice "[]int")])]))).2
      = [⟨1, true⟩, ⟨2, true⟩, ⟨3, true⟩, ⟨3, true⟩, ⟨4, true⟩, ⟨4, true⟩, ⟨5, true⟩,
          ⟨6, true⟩, ⟨3, true⟩, ⟨4, true⟩] ∧
    ((translateRecursiveT 1 Flag.clear Flag.clear
        (.ptr "*S" (.struct "S" [
          (Vis.exported, .nilSlice "[]int"),
          (Vis.exported, .slice "[]*T" [.nilPtr "*T",
            .ptr "*T" (.struct "T" [(Vis.exported, .leaf "int" "int" "1")])] 2),
          (Vis.exported, .map "map[string][]int" [(⟨"a", true⟩, .nilSlice "[]int")])]))).1
        = translateRecursive Flag.clear Flag.clear
        (.ptr "*S" (.struct "S" [
          (Vis.exported, .nilSlice "[]int"),
          (Vis.exported, .slice "[]*T" [.nilPtr "*T",
            .ptr "*T" (.struct "T" [(Vis.exported, .leaf "int" "int" "1")])] 2),
          (Vis.exported, .map "map[string][]int" [(⟨"a", true⟩, .nilSlice "[]int")])])) ∧
      (∃ r, translateRecursive Flag.clear Flag.clear
        (.ptr "*S" (.struct "S" [
          (Vis.exported, .nilSlice "[]int"),
          (Vis.exported, .slice "[]*T" [.nilPtr "*T",
            .ptr "*T" (.struct "T" [(Vis.exported, .leaf "int" "int" "1")])] 2),
          (Vis.exported, .map "map[string][]int" [(⟨"a", true⟩, .nilSlice "[]int")])]))
          = .ok r) ∧
      (translateRecursiveT 1 Flag.clear Flag.clear
        (.ptr "*S" (.struct "S" [
          (Vis.exported, .nilSlice "[]int"),
          (Vis.exported, .slice "[]*T" [.nilPtr "*T",
            .ptr "*T" (.struct "T" [(Vis.exported, .leaf "int" "int" "1")])] 2),
          (Vis.exported, .map "map[string][]int" [(⟨"a", true⟩, .nilSlice "[]int")])]))).2.map
          Call.level = [1, 2, 3, 3, 4, 4, 5, 6, 3, 4] ∧
      (translateRecursiveT 1 Flag.clear Flag.clear
        (.ptr "*S" (.struct "S" [
          (Vis.exported, .nilSlice "[]int"),
          (Vis.exported, .slice "[]*T" [.nilPtr "*T",
            .ptr "*T" (.struct "T" [(Vis.exported, .leaf "int" "int" "1")])] 2),
          (Vis.exported, .map "map[string][]int" [(⟨"a", true⟩, .nilSlice "[]int")])]))).2.length
          = 10 ∧
      maxLevel (translateRecursiveT 1 Flag.clear Flag.clear
        (.ptr "*S" (.struct "S" [
          (Vis.exported, .nilSlice "[]int"),
          (Vis.exported, .slice "[]*T" [.nilPtr "*T",
            .ptr "*T" (.struct "T" [(Vis.exported, .leaf "int" "int" "1")])] 2),
          (Vis.exported, .map "map[string][]int" [(⟨"a", true⟩, .nilSlice "[]int")])]))).2
          = 6) :=
  ⟨by decide, rfl, translateRecursive_terminates Flag.clear Flag.clear _ (by decide)⟩

/-! ## C6: what memory a call writes -/

theorem frame_refl (h : Heap) (w : Nat) : frame h h w := ⟨le_refl _, fun _ _ _ => rfl⟩

theorem frame_trans {h h1 h2 : Heap} {w w' : Nat} (f1 : frame h h1 w) (f2 : frame h1 h2 w')
    (hw : w' = w ∨ h.length ≤ w') : frame h h2 w := by
  refine ⟨le_trans f1.1 f2.1, fun a ha hne => ?_⟩
  rw [f2.2 a (lt_of_lt_of_le ha f1.1) (by rcases hw with rfl | hw <;> omega)]
  exact f1.2 a ha hne

theorem frame_append (h g : Heap) (w : Nat) : frame h (h ++ g) w := by
  refine ⟨by simp, fun a ha _ => ?_⟩
  exact List.getElem?_append_left ha

theorem frame_set (h : Heap) (m : Nat) (c : Cell) : frame h (h.set m c) m := by
  refine ⟨by simp, fun a _ hne => ?_⟩
  simp [List.getElem?_set, Ne.symm hne]

theorem store_inv {h h' : Heap} {p : Place} {x : HVal} (hs : store h p x = some h') :
    ∃ c c', h[p.addr]? = some c ∧ c.put p.path x = some c' ∧ h' = h.set p.addr c' := by
  unfold store at hs
  split at hs
  · rename_i c hc
    split at hs
    · rename_i c' hc'
      exact ⟨c, c', hc, hc', by simpa using hs.symm⟩
    · simp at hs
  · simp at hs

theorem store_lt {h h' : Heap} {p : Place} {x : HVal} (hs : store h p x = some h') :
    p.addr < h.length := by
  obtain ⟨c, _, hc, _, _⟩ := store_inv hs
  exact (List.getElem?_eq_some.1 hc).1

theorem store_length {h h' : Heap} {p : Place} {x : HVal} (hs : store h p x = some h') :
    h'.length = h.length := by
  obtain ⟨_, _, _, _, rfl⟩ := store_inv hs
  simp

theorem frame_store {h h' : Heap} {p : Place} {x : HVal} (hs : store h p x = some h') :
    frame h h' p.addr := by
  obtain ⟨_, c', _, _, rfl⟩ := store_inv hs
  exact frame_set h p.addr c'

theorem HVal.sub_after_put : ∀ (p : List Nat) (v v' x : HVal), v.put p x = some v' →
    v'.sub p = some x := by
  intro p
  induction p with
  | nil => intro v v' x h; cases v <;> simp_all [HVal.put, HVal.sub]
  | cons i p ih =>
    intro v v' x h
    cases v <;> simp only [HVal.put] at h <;> try cases h
    · rename_i t fs
      split at h
      · rename_i f hf
        split at h
        · rename_i w hw
          cases h
          have hi : i < fs.length := (List.getElem?_eq_some.1 hf).1
          simp [HVal.sub, List.getElem?_set, hi, ih _ _ _ hw]
        · cases h
      · cases h
    · rename_i t es
      split at h
      · rename_i f hf
        split at h
        · rename_i w hw
          cases h
          have hi : i < es.length := (List.getElem?_eq_some.1 hf).1
          simp [HVal.sub, List.getElem?_set, hi, ih _ _ _ hw]
        · cases h
      · cases h

theorem Cell.sub_of_put {c c' : Cell} {p : List Nat} {x : HVal} (h : c.put p x = some c') :
    c'.sub p = some x := by
  cases c with
  | obj v =>
    simp only [Cell.put] at h
    split at h
    · rename_i v' hv
      cases h
      simpa [Cell.sub] using HVal.sub_after_put _ _ _ _ hv
    · cases h
  | arr es =>
    cases p with
    | nil => simp [Cell.put] at h
    | cons i p =>
      simp only [Cell.put] at h
      split at h
      · rename_i f hf
        split at h
        · rename_i w hw
          cases h
          have hi : i < es.length := (List.getElem?_eq_some.1 hf).1
          simp [Cell.sub, List.getElem?_set, hi, HVal.sub_after_put _ _ _ _ hw]
        · cases h
      · cases h
  | tbl es => simp [Cell.put] at h

theorem load_store {h h' : Heap} {p : Place} {x : HVal} (hs : store h p x = some h') :
    load h' p = some x := by
  obtain ⟨c, c', hc, hc', rfl⟩ := store_inv hs
  have hi : p.addr < h.length := (List.getElem?_eq_some.1 hc).1
  simp [load, List.getElem?_set, hi, Cell.sub_of_put hc']

theorem load_congr {h h' : Heap} {p : Place} (he : h'[p.addr]? = h[p.addr]?) :
    load h' p = load h p := by
  simp [load, he]

theorem load_frame {h h' : Heap} {w : Nat} {p : Place} (f : frame h h' w)
    (hp : p.addr < h.length) (hne : p.addr ≠ w) : load h' p = load h p :=
  load_congr (f.2 _ hp hne)

theorem translateRecursiveH_frame_step (n : Nat) (ih : FrameAt n)
    (h : Heap) (copy : Place) (cf : Flag) (orig : Src) (og : Flag) (st : Status) (h' : Heap)
    (hc : copy.addr < h.length)
    (hrun : translateRecursiveH (n + 1) h copy cf orig og = (st, h')) :
    frame h h' copy.addr := by
  obtain ⟨ihA, ihB, ihC, ihD⟩ := ih
  simp only [translateRecursiveH] at hrun
  split at hrun
  · cases hrun; exact frame_refl _ _
  · -- leaf
    split at hrun
    · cases hrun; exact frame_refl _ _
    split at hrun
    · cases hrun; exact frame_refl _ _
    split at hrun
    · rename_i h1 hs
      cases hrun
      exact frame_store hs
    · cases hrun; exact frame_refl _ _
  · cases hrun; exact frame_refl _ _
  · -- ptr
    rename_i t q _
    split at hrun
    · cases hrun; exact frame_refl _ _
    rename_i pv _
    split at hrun
    · cases hrun; exact frame_append _ _ _
    split at hrun
    · cases hrun; exact frame_append _ _ _
    rename_i h2 hs
    have f2 : frame h h2 copy.addr :=
      frame_trans (frame_append h _ _) (frame_store hs) (Or.inl rfl)
    have hl2 : h2.length = h.length + 1 := by simpa using store_length hs
    rw [load_store hs] at hrun
    simp only at hrun
    rcases hch : translateRecursiveH n h2 ⟨h.length, []⟩ cf (.place q) og with ⟨st1, h3⟩
    have f3 : frame h2 h3 h.length := ihA _ _ _ _ _ _ _ (by simp [hl2]) hch
    have f3' : frame h h3 copy.addr := frame_trans f2 f3 (Or.inr (le_refl _))
    rw [hch] at hrun
    cases st1 with
    | error m =>
      simp only at hrun
      split at hrun
      · cases hrun; exact f3'
      split at hrun
      · split at hrun
        · rename_i h4 hs4
          cases hrun
          exact frame_trans f3' (frame_store hs4) (Or.inl rfl)
        · cases hrun; exact f3'
      · cases hrun; exact f3'
    | done => cases hrun; exact f3'
    | panic m => cases hrun; exact f3'
    | overflow => cases hrun; exact f3'
    | invalid => cases hrun; exact f3'
  · cases hrun; exact frame_refl _ _
  · -- iface
    rename_i t hv _
    rcases hch : translateRecursiveH n (h ++ [Cell.obj (zeroLike hv)]) ⟨h.length, []⟩
      Flag.clear (.value hv) og.ro with ⟨st1, h2⟩
    have f2 : frame (h ++ [Cell.obj (zeroLike hv)]) h2 h.length :=
      ihA _ _ _ _ _ _ _ (by simp) hch
    have f2' : frame h h2 copy.addr :=
      frame_trans (frame_append h _ _) f2 (Or.inr (le_refl _))
    rw [hch] at hrun
    cases st1 with
    | done =>
      simp only at hrun
      split at hrun
      · cases hrun; exact f2'
      split at hrun
      · split at hrun
        · rename_i h3 hs3
          cases hrun
          exact frame_trans f2' (frame_store hs3) (Or.inl rfl)
        · cases hrun; exact f2'
      · cases hrun; exact f2'
    | error m => cases hrun; exact f2'
    | panic m => cases hrun; exact f2'
    | overflow => cases hrun; exact f2'
    | invalid => cases hrun; exact f2'
  · -- struct
    exact ihB _ _ _ _ _ _ _ _ _ hc hrun
  · cases hrun; exact frame_refl _ _
  · -- nil slice
    rename_i t _
    split at hrun
    · cases hrun; exact frame_append _ _ _
    split at hrun
    · cases hrun; exact frame_append _ _ _
    rename_i h2 hs
    have f2 : frame h h2 copy.addr :=
      frame_trans (frame_append h _ _) (frame_store hs) (Or.inl rfl)
    have hl2 : h2.length = h.length + 1 := by simpa using store_length hs
    have f3 := ihC _ _ _ _ _ _ _ _ _ _ (by omega) (load_store hs) (by simp [hl2])
      (by simp; omega) hrun
    exact frame_trans f2 f3 (Or.inr (le_refl _))
  · -- slice
    rename_i t b _
    split at hrun
    · cases hrun; exact frame_refl _ _
    split at hrun
    · cases hrun; exact frame_refl _ _
    rename_i zs _
    split at hrun
    · cases hrun; exact frame_append _ _ _
    split at hrun
    · cases hrun; exact frame_append _ _ _
    rename_i h2 hs
    have f2 : frame h h2 copy.addr :=
      frame_trans (frame_append h _ _) (frame_store hs) (Or.inl rfl)
    have hl2 : h2.length = h.length + 1 := by simpa using store_length hs
    have f3 := ihC _ _ _ _ _ _ _ _ _ _ (by omega) (load_store hs) (by simp [hl2])
      (by simp; omega) hrun
    exact frame_trans f2 f3 (Or.inr (le_refl _))
  · -- map
    rename_i t _
    split at hrun
    · cases hrun; exact frame_append _ _ _
    split at hrun
    · cases hrun; exact frame_append _ _ _
    rename_i h2 hs
    have f2 : frame h h2 copy.addr :=
      frame_trans (frame_append h _ _) (frame_store hs) (Or.inl rfl)
    have hl2 : h2.length = h.length + 1 := by simpa using store_length hs
    split at hrun
    · have f3 := ihD _ _ _ _ _ _ _ _ _ _ (by omega) (load_store hs) (by omega)
        (by omega) hrun
      exact frame_trans f2 f3 (Or.inr (le_refl _))
    · cases hrun; exact f2
  · -- map
    rename_i t _ _
    split at hrun
    · cases hrun; exact frame_append _ _ _
    split at hrun
    · cases hrun; exact frame_append _ _ _
    rename_i h2 hs
    have f2 : frame h h2 copy.addr :=
      frame_trans (frame_append h _ _) (frame_store hs) (Or.inl rfl)
    have hl2 : h2.length = h.length + 1 := by simpa using store_length hs
    split at hrun
    · have f3 := ihD _ _ _ _ _ _ _ _ _ _ (by omega) (load_store hs) (by omega)
        (by omega) hrun
      exact frame_trans f2 f3 (Or.inr (le_refl _))
    · cases hrun; exact f2

theorem translateFieldsH_frame_step (n : Nat) (ih : FrameAt n)
    (h : Heap) (copy : Place) (cf : Flag) (orig : Src) (og : Flag) (i : Nat) (vs : List Vis)
    (st : Status) (h' : Heap) (hc : copy.addr < h.length)
    (hrun : translateFieldsH (n + 1) h copy cf orig og i vs = (st, h')) :
    frame h h' copy.addr := by
  obtain ⟨ihA, ihB, _, _⟩ := ih
  cases vs with
  | nil => simp only [translateFieldsH] at hrun; cases hrun; exact frame_refl _ _
  | cons vis rest =>
    simp only [translateFieldsH] at hrun
    split at hrun
    · cases hrun; exact frame_refl _ _
    rename_i fld _
    rcases hch : translateRecursiveH n h (copy.extend i) (cf.field vis) fld (og.field vis)
      with ⟨st1, h1⟩
    have f1 : frame h h1 copy.addr := ihA _ (copy.extend i) _ _ _ _ _ hc hch
    have hc1 : copy.addr < h1.length := lt_of_lt_of_le hc f1.1
    rw [hch] at hrun
    cases st1 with
    | done =>
      simp only at hrun
      exact frame_trans f1 (ihB _ _ _ _ _ _ _ _ _ hc1 hrun) (Or.inl rfl)
    | error m =>
      simp only at hrun
      split at hrun
      · split at hrun <;> (cases hrun; exact f1)
      split at hrun
      · cases hrun; exact f1
      split at hrun
      · split at hrun
        · rename_i h2 hs
          have f2 : frame h1 h2 copy.addr := frame_store (p := copy.extend i) hs
          have hc2 : copy.addr < h2.length := lt_of_lt_of_le hc1 f2.1
          exact frame_trans f1 (frame_trans f2 (ihB _ _ _ _ _ _ _ _ _ hc2 hrun) (Or.inl rfl))
            (Or.inl rfl)
        · cases hrun; exact f1
      · cases hrun; exact f1
    | panic m => cases hrun; exact f1
    | overflow => cases hrun; exact f1
    | invalid => cases hrun; exact f1

theorem translateElemsH_frame_step (n : Nat) (ih : FrameAt n)
    (h : Heap) (copy : Place) (cf : Flag) (orig : Src) (og : Flag) (i : Nat)
    (st : Status) (h' : Heap) (t : String) (cb : Body) (hc : copy.addr < h.length)
    (hl : load h copy = some (.slice t cb)) (hb : cb.arr.addr < h.length)
    (hne : cb.arr.addr ≠ copy.addr)
    (hrun : translateElemsH (n + 1) h copy cf orig og i = (st, h')) :
    frame h h' cb.arr.addr := by
  obtain ⟨ihA, _, ihC, _⟩ := ih
  simp only [translateElemsH] at hrun
  split at hrun
  · cases hrun; exact frame_refl _ _
  · rename_i b _
    split at hrun
    · cases hrun; exact frame_refl _ _
    rw [hl] at hrun
    simp only at hrun
    split at hrun
    · cases hrun; exact frame_refl _ _
    rcases hch : translateRecursiveH n h (cb.arr.extend (cb.off + i)) cf.ro
      (.place (b.arr.extend (b.off + i))) og.ro with ⟨st1, h1⟩
    have f1 : frame h h1 cb.arr.addr := ihA _ (cb.arr.extend (cb.off + i)) _ _ _ _ _ hb hch
    have hc1 : copy.addr < h1.length := lt_of_lt_of_le hc f1.1
    have hb1 : cb.arr.addr < h1.length := lt_of_lt_of_le hb f1.1
    have hl1 : load h1 copy = some (.slice t cb) := by
      rw [load_frame f1 hc (Ne.symm hne)]; exact hl
    rw [hch] at hrun
    cases st1 with
    | done =>
      simp only at hrun
      exact frame_trans f1 (ihC _ _ _ _ _ _ _ _ _ _ hc1 hl1 hb1 hne hrun) (Or.inl rfl)
    | error m =>
      simp only at hrun
      rw [hl1] at hrun
      split at hrun
      · rename_i t1 cb1 t2 b2 heq1 heq2
        cases heq1
        split at hrun
        · cases hrun; exact f1
        split at hrun
        · cases hrun; exact f1
        split at hrun
        · split at hrun
          · rename_i h2 hs
            have f2 : frame h1 h2 cb.arr.addr := frame_store (p := cb.arr.extend (cb.off + i)) hs
            have hc2 : copy.addr < h2.length := lt_of_lt_of_le hc1 f2.1
            have hb2 : cb.arr.addr < h2.length := lt_of_lt_of_le hb1 f2.1
            have hl2 : load h2 copy = some (.slice t cb) := by
              rw [load_frame f2 hc1 (Ne.symm hne)]; exact hl1
            exact frame_trans f1
              (frame_trans f2 (ihC _ _ _ _ _ _ _ _ _ _ hc2 hl2 hb2 hne hrun) (Or.inl rfl))
              (Or.inl rfl)
          · cases hrun; exact f1
        · cases hrun; exact f1
      · cases hrun; exact f1
    | panic m => cases hrun; exact f1
    | overflow => cases hrun; exact f1
    | invalid => cases hrun; exact f1
  · cases hrun; exact frame_refl _ _

theorem setMapIndexH_frame {h h' : Heap} {copy : Place} {cf og : Flag} {k : Key} {x : HVal}
    {st : Status} {t : String} {m : Nat} (hl : load h copy = some (.map t m))
    (hrun : setMapIndexH h copy cf og k x = (st, h')) :
    frame h h' m ∧ h'.length = h.length := by
  unfold setMapIndexH at hrun
  split at hrun
  · cases hrun; exact ⟨frame_refl _ _, rfl⟩
  rw [hl] at hrun
  simp only at hrun
  split at hrun
  · cases hrun; exact ⟨frame_set _ _ _, by simp⟩
  · cases hrun; exact ⟨frame_refl _ _, rfl⟩

theorem translateEntriesH_frame_step (n : Nat) (ih : FrameAt n)
    (h : Heap) (copy : Place) (cf : Flag) (orig : Src) (og : Flag) (ks : List Key)
    (st : Status) (h' : Heap) (t : String) (m : Nat) (hc : copy.addr < h.length)
    (hl : load h copy = some (.map t m)) (hm : m < h.length) (hne : m ≠ copy.addr)
    (hrun : translateEntriesH (n + 1) h copy cf orig og ks = (st, h')) :
    frame h h' m := by
  obtain ⟨ihA, _, _, ihD⟩ := ih
  cases ks with
  | nil => simp only [translateEntriesH] at hrun; cases hrun; exact frame_refl _ _
  | cons k ks =>
    simp only [translateEntriesH] at hrun
    split at hrun
    · split at hrun
      · split at hrun
        · cases hrun; exact frame_refl _ _
        rename_i ov _
        rcases hch : translateRecursiveH n (h ++ [Cell.obj (zeroLike ov)]) ⟨h.length, []⟩
          Flag.clear (.value ov) og.ro with ⟨st1, h1⟩
        have f0 : frame (h ++ [Cell.obj (zeroLike ov)]) h1 h.length :=
          ihA _ _ _ _ _ _ _ (by simp) hch
        have f1 : frame h h1 m := frame_trans (frame_append h _ _) f0 (Or.inr (le_refl _))
        have f1c : frame h h1 h.length :=
          frame_trans (frame_append h _ _) f0 (Or.inr (le_refl _))
        have hc1 : copy.addr < h1.length := lt_of_lt_of_le hc f1.1
        have hm1 : m < h1.length := lt_of_lt_of_le hm f1.1
        have hl1 : load h1 copy = some (.map t m) := by
          rw [load_frame f1c hc (by omega)]; exact hl
        rw [hch] at hrun
        have key : ∀ x, (match setMapIndexH h1 copy cf og k x with
            | (Status.done, h2) => translateEntriesH n h2 copy cf orig og ks
            | r => r) = (st, h') → frame h h' m := by
          intro x hx
          rcases hsm : setMapIndexH h1 copy cf og k x with ⟨st2, h2⟩
          obtain ⟨f2, hlen2⟩ := setMapIndexH_frame hl1 hsm
          have hl2 : load h2 copy = some (.map t m) := by
            rw [load_frame f2 hc1 (Ne.symm hne)]; exact hl1
          rw [hsm] at hx
          cases st2 with
          | done =>
            simp only at hx
            exact frame_trans f1
              (frame_trans f2
                (ihD _ _ _ _ _ _ _ _ _ _ (by omega) hl2 (by omega) hne hx) (Or.inl rfl))
              (Or.inl rfl)
          | error e => cases hx; exact frame_trans f1 f2 (Or.inl rfl)
          | panic e => cases hx; exact frame_trans f1 f2 (Or.inl rfl)
          | overflow => cases hx; exact frame_trans f1 f2 (Or.inl rfl)
          | invalid => cases hx; exact frame_trans f1 f2 (Or.inl rfl)
        cases st1 with
        | done =>
          simp only at hrun
          split at hrun
          · exact key _ hrun
          · cases hrun; exact f1
        | error e =>
          simp only at hrun
          exact key _ hrun
        | panic e => cases hrun; exact f1
        | overflow => cases hrun; exact f1
        | invalid => cases hrun; exact f1
      · cases hrun; exact frame_refl _ _
    · cases hrun; exact frame_refl _ _

/-- The builder writes only into its destination cell and into cells it
allocates, whatever the fuel and however the run ends. -/
theorem translateH_frame (n : Nat) : FrameAt n := by
  induction n with
  | zero =>
    refine ⟨?_, ?_, ?_, ?_⟩
    · intro h copy cf orig og st h' _ hrun
      simp only [translateRecursiveH] at hrun
      cases hrun; exact frame_refl _ _
    · intro h copy cf orig og i vs st h' _ hrun
      simp only [translateFieldsH] at hrun
      cases hrun; exact frame_refl _ _
    · intro h copy cf orig og i st h' t cb _ _ _ _ hrun
      simp only [translateElemsH] at hrun
      cases hrun; exact frame_refl _ _
    · intro h copy cf orig og ks st h' t m _ _ _ _ hrun
      simp only [translateEntriesH] at hrun
      cases hrun; exact frame_refl _ _
  | succ n ih =>
    exact ⟨translateRecursiveH_frame_step n ih, translateFieldsH_frame_step n ih,
      translateElemsH_frame_step n ih, translateEntriesH_frame_step n ih⟩

theorem allSome_map_mono {α β : Type} (f f' : α → Option β) (l : List α)
    (hf : ∀ x ∈ l, ∀ y, f x = some y → f' x = some y) :
    ∀ r, allSome (l.map f) = some r → allSome (l.map f') = some r := by
  induction l with
  | nil => intro r h; simpa [allSome] using h
  | cons a l ih =>
    intro r h
    simp only [List.map_cons] at h ⊢
    cases ha : f a with
    | none => simp [ha, allSome] at h
    | some y =>
      rw [ha] at h
      simp only [allSome] at h
      cases hl : allSome (l.map f) with
      | none => simp [hl] at h
      | some r' =>
        rw [hl] at h
        rw [hf a (List.mem_cons_self _ _) y ha]
        simp only [allSome]
        rw [ih (fun x hx => hf x (List.mem_cons_of_mem _ hx)) r' hl]
        exact h

theorem load_append {h : Heap} {q : Place} {x : HVal} (g : Heap) (hl : load h q = some x) :
    load (h ++ g) q = some x := by
  unfold load at hl ⊢
  cases hc : h[q.addr]? with
  | none => simp [hc] at hl
  | some c =>
    have hlt : q.addr < h.length := (List.getElem?_eq_some.1 hc).1
    rw [List.getElem?_append_left hlt, hc]
    rw [hc] at hl
    exact hl

/-- A tree read off a memory is read off every extension of that memory. -/
theorem treeOf_append (g : Heap) : ∀ (k : Nat) (h : Heap) (v : HVal) (T : Val),
    treeOf k h v = some T → treeOf k (h ++ g) v = some T := by
  intro k
  induction k with
  | zero => intro h v T hT; simp [treeOf] at hT
  | succ k ih =>
    intro h v T hT
    cases v with
    | leaf k' t d => simpa [treeOf] using hT
    | nilPtr t => simpa [treeOf] using hT
    | ptr t q =>
      simp only [treeOf] at hT ⊢
      cases hq : load h q with
      | none => simp [hq] at hT
      | some pv =>
        rw [hq] at hT
        rw [load_append g hq]
        simp only at hT ⊢
        cases hp : treeOf k h pv with
        | none => simp [hp] at hT
        | some e =>
          rw [hp] at hT
          rw [ih h pv e hp]
          exact hT
    | nilIface t => simpa [treeOf] using hT
    | iface t hv =>
      simp only [treeOf] at hT ⊢
      cases hp : treeOf k h hv with
      | none => simp [hp] at hT
      | some e =>
        rw [hp] at hT
        rw [ih h hv e hp]
        exact hT
    | struct t fs =>
      simp only [treeOf] at hT ⊢
      cases hp : allSome (fs.map fun f =>
          match treeOf k h f.2 with
          | some e => some (f.1, e)
          | none => none) with
      | none => simp [hp] at hT
      | some r =>
        rw [hp] at hT
        rw [allSome_map_mono _ (fun f =>
          match treeOf k (h ++ g) f.2 with
          | some e => some (f.1, e)
          | none => none) fs ?_ r hp]
        · exact hT
        · intro f _ y hy
          dsimp only at hy ⊢
          cases hf : treeOf k h f.2 with
          | none => simp [hf] at hy
          | some e =>
            rw [hf] at hy
            rw [ih h f.2 e hf]
            exact hy
    | array t es =>
      simp only [treeOf] at hT ⊢
      cases hp : allSome (es.map fun e => treeOf k h e) with
      | none => simp [hp] at hT
      | some r =>
        rw [hp] at hT
        rw [allSome_map_mono _ (fun e => treeOf k (h ++ g) e) es
          (fun e _ y hy => ih h e y hy) r hp]
        exact hT
    | nilSlice t => simpa [treeOf] using hT
    | slice t b =>
      simp only [treeOf] at hT ⊢
      cases hp : allSome ((List.range b.len).map fun i =>
          match load h (b.arr.extend (b.off + i)) with
          | some e => treeOf k h e
          | none => none) with
      | none => simp [hp] at hT
      | some r =>
        rw [hp] at hT
        rw [allSome_map_mono _ (fun i =>
          match load (h ++ g) (b.arr.extend (b.off + i)) with
          | some e => treeOf k (h ++ g) e
          | none => none) (List.range b.len) ?_ r hp]
        · exact hT
        · intro i _ y hy
          dsimp only at hy ⊢
          cases hf : load h (b.arr.extend (b.off + i)) with
          | none => simp [hf] at hy
          | some e =>
            rw [hf] at hy
            rw [load_append g hf]
            exact ih h e y hy
    | nilMap t => simpa [treeOf] using hT
    | map t m =>
      simp only [treeOf] at hT ⊢
      cases hm : h[m]? with
      | none => simp [hm] at hT
      | some c =>
        have hlt : m < h.length := (List.getElem?_eq_some.1 hm).1
        rw [List.getElem?_append_left hlt, hm]
        rw [hm] at hT
        cases c with
        | obj x => simp at hT
        | arr x => simp at hT
        | tbl es =>
          simp only at hT ⊢
          cases hp : allSome (es.map fun e =>
              match treeOf k h e.2 with
              | some v => some (e.1, v)
              | none => none) with
          | none => simp [hp] at hT
          | some r =>
            rw [hp] at hT
            rw [allSome_map_mono _ (fun e =>
              match treeOf k (h ++ g) e.2 with
              | some v => some (e.1, v)
              | none => none) es ?_ r hp]
            · exact hT
            · intro f _ y hy
              dsimp only at hy ⊢
              cases hf : treeOf k h f.2 with
              | none => simp [hf] at hy
              | some e =>
                rw [hf] at hy
                rw [ih h f.2 e hf]
                exact hy

theorem eq_append_of_frame {h h2 : Heap} (f : frame h h2 h.length) : ∃ g, h2 = h ++ g := by
  refine ⟨h2.drop h.length, ?_⟩
  apply List.ext_getElem?
  intro a
  by_cases ha : a < h.length
  · rw [List.getElem?_append_left ha]
    exact f.2 a ha (by omega)
  · rw [List.getElem?_append_right (by omega), List.getElem?_drop]
    congr 1
    omega

/-- C6 (atomicity on failure): for every memory, every argument and every
bound on the recursion, whenever `Translate` does not return normally (it
panics for any reason, a precondition or a failure raised during the
transformation, or the recursion does not end) the memory afterwards is the
memory before the call followed by cells allocated during the call: every
cell that existed before the call, the pointee of the argument included,
holds exactly what it held, and every value unfolds to the tree it unfolded
to before; and when `Translate` returns normally the memory afterwards is the
memory before the call followed by allocated cells, with one write, the
commit `original.Elem().Set(copy.Elem())` into the pointee of the argument. -/
theorem TranslateH_abort_leaves_memory (n : Nat) (h h' : Heap) (obj : Option HVal)
    (st : Status) (hrun : TranslateH n h obj = (st, h')) :
    ∃ g, (st ≠ .done → h' = h ++ g ∧ (∀ q, q.addr < h.length → load h' q = load h q) ∧
        ∀ k v T, treeOf k h v = some T → treeOf k h' v = some T) ∧
      (st = .done → ∃ t p x, obj = some (.ptr t p) ∧ store (h ++ g) p x = some h') := by
  have hkeep : ∀ g, ∀ q : Place, q.addr < h.length → load (h ++ g) q = load h q :=
    fun g q hq => load_congr (List.getElem?_append_left hq)
  have stay : ∀ m, (Status.panic m, h) = (st, h') →
      ∃ g, (st ≠ .done → h' = h ++ g ∧ (∀ q, q.addr < h.length → load h' q = load h q) ∧
        ∀ k v T, treeOf k h v = some T → treeOf k h' v = some T) ∧
        (st = .done → ∃ t p x, obj = some (.ptr t p) ∧ store (h ++ g) p x = some h') := by
    intro m hm
    cases hm
    exact ⟨[], fun _ => ⟨by simp, fun _ _ => rfl, fun _ _ _ hT => hT⟩, fun hd => by cases hd⟩
  unfold TranslateH at hrun
  split at hrun
  · rename_i t p
    rcases hch : translateRecursiveH n (h ++ [Cell.obj (.nilPtr t)]) ⟨h.length, []⟩ Flag.clear
      (.value (.ptr t p)) Flag.clear with ⟨st1, h2⟩
    have f : frame (h ++ [Cell.obj (.nilPtr t)]) h2 h.length :=
      (translateH_frame n).1 _ _ _ _ _ _ _ (by simp) hch
    obtain ⟨g, rfl⟩ := eq_append_of_frame
      (frame_trans (frame_append h [Cell.obj (.nilPtr t)] h.length) f (Or.inl rfl))
    rw [hch] at hrun
    have abort : (st1, h ++ g) = (st, h') → st1 ≠ .done →
        ∃ g, (st ≠ .done → h' = h ++ g ∧ (∀ q, q.addr < h.length → load h' q = load h q) ∧
        ∀ k v T, treeOf k h v = some T → treeOf k h' v = some T) ∧
          (st = .done → ∃ t' p' x, some (HVal.ptr t p) = some (HVal.ptr t' p') ∧
            store (h ++ g) p' x = some h') := by
      intro he hne
      cases he
      exact ⟨g, fun _ => ⟨rfl, hkeep g, fun k v T hT => treeOf_append g k h v T hT⟩, fun hd => absurd hd hne⟩
    cases st1 with
    | done =>
      simp only at hrun
      split at hrun
      · split at hrun
        · split at hrun
          · rename_i h3 hs
            cases hrun
            exact ⟨g, fun hne => absurd rfl hne, fun _ => ⟨t, p, _, rfl, hs⟩⟩
          · cases hrun
            exact ⟨g, fun _ => ⟨rfl, hkeep g, fun k v T hT => treeOf_append g k h v T hT⟩, fun hd => by cases hd⟩
        · cases hrun
          exact ⟨g, fun _ => ⟨rfl, hkeep g, fun k v T hT => treeOf_append g k h v T hT⟩, fun hd => by cases hd⟩
      · cases hrun
        exact ⟨g, fun _ => ⟨rfl, hkeep g, fun k v T hT => treeOf_append g k h v T hT⟩, fun hd => by cases hd⟩
      · cases hrun
        exact ⟨g, fun _ => ⟨rfl, hkeep g, fun k v T hT => treeOf_append g k h v T hT⟩, fun hd => by cases hd⟩
    | error e =>
      simp only at hrun
      cases hrun
      exact ⟨g, fun _ => ⟨rfl, hkeep g, fun k v T hT => treeOf_append g k h v T hT⟩, fun hd => by cases hd⟩
    | panic e => exact abort hrun (fun hd => by cases hd)
    | overflow => exact abort hrun (fun hd => by cases hd)
    | invalid => exact abort hrun (fun hd => by cases hd)
  · exact stay _ hrun
  · exact stay _ hrun

/-- Witness for C6: on `heapNilIface` the call rebuilds the fields `A` and
`B` in five fresh cells and then panics on the nil interface `I`; the three
cells of the caller are as they were. -/
theorem TranslateH_abort_leaves_memory_witness :
    TranslateH 12 heapNilIface (some (.ptr "*S" ⟨0, []⟩)) =
      (.panic typePanic, heapNilIface ++
        [Cell.obj (.ptr "*S" ⟨4, []⟩),
          Cell.obj (.struct "S" [(Vis.exported, .slice "[]int" ⟨⟨5, []⟩, 0, 0, 0⟩),
            (Vis.exported, .slice "[]*T" ⟨⟨6, []⟩, 0, 1, 1⟩),
            (Vis.exported, .nilIface "interface {}")]),
          Cell.arr [],
          Cell.arr [.ptr "*T" ⟨7, []⟩],
          Cell.obj (.struct "T" [(Vis.exported, .leaf "int" "int" "7")])]) ∧
    ∃ g, (Status.panic typePanic ≠ .done →
        heapNilIface ++
          [Cell.obj (.ptr "*S" ⟨4, []⟩),
            Cell.obj (.struct "S" [(Vis.exported, .slice "[]int" ⟨⟨5, []⟩, 0, 0, 0⟩),
              (Vis.exported, .slice "[]*T" ⟨⟨6, []⟩, 0, 1, 1⟩),
              (Vis.exported, .nilIface "interface {}")]),
            Cell.arr [],
            Cell.arr [.ptr "*T" ⟨7, []⟩],
            Cell.obj (.struct "T" [(Vis.exported, .leaf "int" "int" "7")])] = heapNilIface ++ g ∧
        (∀ q, q.addr < heapNilIface.length →
          load (heapNilIface ++
            [Cell.obj (.ptr "*S" ⟨4, []⟩),
              Cell.obj (.struct "S" [(Vis.exported, .slice "[]int" ⟨⟨5, []⟩, 0, 0, 0⟩),
                (Vis.exported, .slice "[]*T" ⟨⟨6, []⟩, 0, 1, 1⟩),
                (Vis.exported, .nilIface "interface {}")]),
              Cell.arr [],
              Cell.arr [.ptr "*T" ⟨7, []⟩],
              Cell.obj (.struct "T" [(Vis.exported, .leaf "int" "int" "7")])]) q
            = load heapNilIface q) ∧
        ∀ k v T, treeOf k heapNilIface v = some T →
          treeOf k (heapNilIface ++
            [Cell.obj (.ptr "*S" ⟨4, []⟩),
              Cell.obj (.struct "S" [(Vis.exported, .slice "[]int" ⟨⟨5, []⟩, 0, 0, 0⟩),
                (Vis.exported, .slice "[]*T" ⟨⟨6, []⟩, 0, 1, 1⟩),
                (Vis.exported, .nilIface "interface {}")]),
              Cell.arr [],
              Cell.arr [.ptr "*T" ⟨7, []⟩],
              Cell.obj (.struct "T" [(Vis.exported, .leaf "int" "int" "7")])]) v = some T) ∧
      (Status.panic typePanic = .done → ∃ t p x,
        some (HVal.ptr "*S" ⟨0, []⟩) = some (.ptr t p) ∧
        store (heapNilIface ++ g) p x = some
          (heapNilIface ++
            [Cell.obj (.ptr "*S" ⟨4, []⟩),
              Cell.obj (.struct "S" [(Vis.exported, .slice "[]int" ⟨⟨5, []⟩, 0, 0, 0⟩),
                (Vis.exported, .slice "[]*T" ⟨⟨6, []⟩, 0, 1, 1⟩),
                (Vis.exported, .nilIface "interface {}")]),
              Cell.arr [],
              Cell.arr [.ptr "*T" ⟨7, []⟩],
              Cell.obj (.struct "T" [(Vis.exported, .leaf "int" "int" "7")])])) :=
  ⟨rfl, TranslateH_abort_leaves_memory 12 heapNilIface _ (some (.ptr "*S" ⟨0, []⟩)) _ rfl⟩

/-- The two embeddings agree where nothing is shared: on `heapPlain` the call
returns normally, and the tree the argument unfolds to afterwards is the
value `Translate` computes on the tree it unfolded to before. -/
theorem TranslateH_agrees_on_heapPlain :
    (TranslateH 30 heapPlain (some (.ptr "*S" ⟨0, []⟩))).1 = .done ∧
    treeOf 8 (TranslateH 30 heapPlain (some (.ptr "*S" ⟨0, []⟩))).2 (.ptr "*S" ⟨0, []⟩)
      = (Translate (treeOf 8 heapPlain (.ptr "*S" ⟨0, []⟩))).obj ∧
    (Translate (treeOf 8 heapPlain (.ptr "*S" ⟨0, []⟩))).panic = none := by
  refine ⟨rfl, rfl, rfl⟩

/-- The two embeddings agree on an abort: on `heapNilIface` both panic with
the same message. -/
theorem TranslateH_agrees_on_heapNilIface :
    (TranslateH 12 heapNilIface (some (.ptr "*S" ⟨0, []⟩))).1 = .panic typePanic ∧
    (Translate (treeOf 8 heapNilIface (.ptr "*S" ⟨0, []⟩))).panic = some typePanic := by
  refine ⟨rfl, rfl⟩

/-- Where memory is shared the tree embedding does not describe what a
recovered field refers to after the commit: on `heapShared` the field `Tf` is
recovered by a shallow assignment, its pointer `B` still points to `s.A`, and
`s.A` holds the empty slice once the commit is made, while the tree embedding
keeps the pointee of `B` as it was. -/
theorem TranslateH_shared_field :
    (TranslateH 12 heapShared (some (.ptr "*S" ⟨0, []⟩))).1 = .done ∧
    load (TranslateH 12 heapShared (some (.ptr "*S" ⟨0, []⟩))).2 ⟨0, [1, 1]⟩
      = some (.ptr "*[]int" ⟨0, [0]⟩) ∧
    load heapShared ⟨0, [0]⟩ = some (.nilSlice "[]int") ∧
    load (TranslateH 12 heapShared (some (.ptr "*S" ⟨0, []⟩))).2 ⟨0, [0]⟩
      = some (.slice "[]int" ⟨⟨3, []⟩, 0, 0, 0⟩) ∧
    treeOf 8 (TranslateH 12 heapShared (some (.ptr "*S" ⟨0, []⟩))).2 (.ptr "*S" ⟨0, []⟩)
      = some (.ptr "*S" (.struct "S" [(Vis.exported, .slice "[]int" [] 0),
          (Vis.exported, .struct "T" [(Vis.unexported, .leaf "int" "int" "3"),
            (Vis.exported, .ptr "*[]int" (.slice "[]int" [] 0))])])) ∧
    (Translate (treeOf 8 heapShared (.ptr "*S" ⟨0, []⟩))).obj
      = some (.ptr "*S" (.struct "S" [(Vis.exported, .slice "[]int" [] 0),
          (Vis.exported, .struct "T" [(Vis.unexported, .leaf "int" "int" "3"),
            (Vis.exported, .ptr "*[]int" (.nilSlice "[]int"))])])) := by
  refine ⟨rfl, rfl, rfl, rfl, rfl, rfl⟩

/-- The two embeddings agree on values laid out without sharing: on each of
the inputs below, taken from the statements of this file, `TranslateH`
observed through `observe` ends as `Translate` does, with the same message or
the same value afterwards. -/
theorem observe_eq_Translate_examples :
    -- a nil slice, a slice of pointers, a map, an interface
    observe 60 12 (.ptr "*S" (.struct "S" [
        (Vis.exported, .slice "[]*T" [.nilPtr "*T",
          .ptr "*T" (.struct "T" [(Vis.exported, .nilSlice "[]int"),
            (Vis.exported, .nilMap "map[string]int")])] 4),
        (Vis.exported, .map "map[string][]int" [(⟨"a", true⟩, .nilSlice "[]int"),
          (⟨"b", true⟩, .slice "[]int" [.leaf "int" "int" "1"] 1)]),
        (Vis.exported, .iface "interface {}" (.struct "T" [(Vis.exported, .nilSlice "[]int"),
            (Vis.exported, .nilMap "map[string]int")]))]))
      = Translate (some (.ptr "*S" (.struct "S" [
        (Vis.exported, .slice "[]*T" [.nilPtr "*T",
          .ptr "*T" (.struct "T" [(Vis.exported, .nilSlice "[]int"),
            (Vis.exported, .nilMap "map[string]int")])] 4),
        (Vis.exported, .map "map[string][]int" [(⟨"a", true⟩, .nilSlice "[]int"),
          (⟨"b", true⟩, .slice "[]int" [.leaf "int" "int" "1"] 1)]),
        (Vis.exported, .iface "interface {}" (.struct "T" [(Vis.exported, .nilSlice "[]int"),
            (Vis.exported, .nilMap "map[string]int")]))]))) ∧
    -- an unexported scalar: the struct fails and the pointer is kept
    observe 60 12 (.ptr "*S" (.struct "S" [(Vis.exported, .nilSlice "[]int"),
        (Vis.unexported, .leaf "int" "int" "0"), (Vis.exported, .nilSlice "[]int")]))
      = Translate (some (.ptr "*S" (.struct "S" [(Vis.exported, .nilSlice "[]int"),
        (Vis.unexported, .leaf "int" "int" "0"), (Vis.exported, .nilSlice "[]int")]))) ∧
    -- a recovered field between rebuilt fields
    observe 60 12 (.ptr "*S" (.struct "S" [(Vis.exported, .nilSlice "[]int"),
        (Vis.exported, .struct "T" [(Vis.unexported, .leaf "int" "int" "0")]),
        (Vis.exported, .nilSlice "[]int")]))
      = Translate (some (.ptr "*S" (.struct "S" [(Vis.exported, .nilSlice "[]int"),
        (Vis.exported, .struct "T" [(Vis.unexported, .leaf "int" "int" "0")]),
        (Vis.exported, .nilSlice "[]int")]))) ∧
    -- a nil interface
    observe 60 12 (.ptr "*S" (.struct "S" [(Vis.exported, .nilIface "interface {}")]))
      = Translate (some (.ptr "*S" (.struct "S" [(Vis.exported, .nilIface "interface {}")]))) ∧
    -- an array
    observe 60 12 (.ptr "*S" (.struct "S"
        [(Vis.exported, .array "[2]int" [.leaf "int" "int" "0", .leaf "int" "int" "0"])]))
      = Translate (some (.ptr "*S" (.struct "S"
        [(Vis.exported, .array "[2]int" [.leaf "int" "int" "0", .leaf "int" "int" "0"])]))) ∧
    -- unexported fields holding a slice, a map, a pointer
    observe 60 12 (.ptr "*S" (.struct "S"
        [(Vis.unexported, .slice "[]int" [.leaf "int" "int" "1"] 1)]))
      = Translate (some (.ptr "*S" (.struct "S"
        [(Vis.unexported, .slice "[]int" [.leaf "int" "int" "1"] 1)]))) ∧
    observe 60 12 (.ptr "*S" (.struct "S" [(Vis.unexported, .nilMap "map[string]int")]))
      = Translate (some (.ptr "*S" (.struct "S" [(Vis.unexported, .nilMap "map[string]int")]))) ∧
    observe 60 12 (.ptr "*S" (.struct "S"
        [(Vis.unexported, .ptr "*int" (.leaf "int" "int" "1"))]))
      = Translate (some (.ptr "*S" (.struct "S"
        [(Vis.unexported, .ptr "*int" (.leaf "int" "int" "1"))]))) ∧
    -- an interface whose held value fails
    observe 60 12 (.ptr "*S" (.struct "S" [(Vis.exported, .nilSlice "[]int"),
        (Vis.exported, .iface "interface {}"
          (.struct "T" [(Vis.unexported, .leaf "int" "int" "1")]))]))
      = Translate (some (.ptr "*S" (.struct "S" [(Vis.exported, .nilSlice "[]int"),
        (Vis.exported, .iface "interface {}"
          (.struct "T" [(Vis.unexported, .leaf "int" "int" "1")]))]))) ∧
    -- a pointer held by an unexported interface field, its pointee failing
    observe 60 12 (.ptr "*S" (.struct "S" [(Vis.unexported, .iface "interface {}"
        (.ptr "*T" (.struct "T" [(Vis.unexported, .leaf "int" "int" "1")])))]))
      = Translate (some (.ptr "*S" (.struct "S" [(Vis.unexported, .iface "interface {}"
        (.ptr "*T" (.struct "T" [(Vis.unexported, .leaf "int" "int" "1")])))]))) ∧
    -- a key unequal to itself
    observe 60 12 (.ptr "*map[float64][]int"
        (.map "map[float64][]int" [(⟨"NaN", false⟩, .nilSlice "[]int")]))
      = Translate (some (.ptr "*map[float64][]int"
        (.map "map[float64][]int" [(⟨"NaN", false⟩, .nilSlice "[]int")]))) ∧
    -- map values and slice elements that are recovered
    observe 60 12 (.ptr "*S" (.struct "S" [
        (Vis.exported, .map "map[string]T" [(⟨"a", true⟩,
          .struct "T" [(Vis.unexported, .leaf "int" "int" "1"),
            (Vis.exported, .nilSlice "[]int")])]),
        (Vis.exported, .slice "[]T" [.struct "T" [(Vis.unexported, .leaf "int" "int" "1"),
            (Vis.exported, .nilSlice "[]int")]] 1)]))
      = Translate (some (.ptr "*S" (.struct "S" [
        (Vis.exported, .map "map[string]T" [(⟨"a", true⟩,
          .struct "T" [(Vis.unexported, .leaf "int" "int" "1"),
            (Vis.exported, .nilSlice "[]int")])]),
        (Vis.exported, .slice "[]T" [.struct "T" [(Vis.unexported, .leaf "int" "int" "1"),
            (Vis.exported, .nilSlice "[]int")]] 1)]))) ∧
    -- the guards
    observe 60 12 (.nilPtr "*S") = Translate (some (.nilPtr "*S")) ∧
    observe 60 12 (.leaf "int" "int" "1") = Translate (some (.leaf "int" "int" "1")) := by
  refine ⟨rfl, rfl, rfl, rfl, rfl, rfl, rfl, rfl, rfl, rfl, rfl, rfl, rfl, rfl⟩

/-- Further inputs on which the two embeddings agree: spare capacity, an
embedded field of an unexported type, pointers to pointers, maps of maps, an
interface holding a pointer, and a nested pointer that is kept. -/
theorem observe_eq_Translate_more_examples :
    -- a slice with spare capacity, an empty slice with spare capacity
    observe 60 12 (.ptr "*S" (.struct "S" [
        (Vis.exported, .slice "[][]int" [.nilSlice "[]int",
          .slice "[]int" [.leaf "int" "int" "1"] 3] 5),
        (Vis.exported, .slice "[]int" [] 2)]))
      = Translate (some (.ptr "*S" (.struct "S" [
        (Vis.exported, .slice "[][]int" [.nilSlice "[]int",
          .slice "[]int" [.leaf "int" "int" "1"] 3] 5),
        (Vis.exported, .slice "[]int" [] 2)]))) ∧
    -- an embedded field of an unexported type holding exported fields
    observe 60 12 (.ptr "*S" (.struct "S" [
        (Vis.embedded, .struct "inner" [(Vis.exported, .leaf "int" "int" "1")]),
        (Vis.exported, .nilSlice "[]int")]))
      = Translate (some (.ptr "*S" (.struct "S" [
        (Vis.embedded, .struct "inner" [(Vis.exported, .leaf "int" "int" "1")]),
        (Vis.exported, .nilSlice "[]int")]))) ∧
    -- an embedded field of an unexported type holding a slice
    observe 60 12 (.ptr "*S" (.struct "S" [
        (Vis.embedded, .struct "inner" [(Vis.exported, .nilSlice "[]int")])]))
      = Translate (some (.ptr "*S" (.struct "S" [
        (Vis.embedded, .struct "inner" [(Vis.exported, .nilSlice "[]int")])]))) ∧
    -- pointers to pointers, the innermost pointee failing
    observe 60 12 (.ptr "***T" (.ptr "**T" (.ptr "*T"
        (.struct "T" [(Vis.unexported, .leaf "string" "string" "a"),
          (Vis.exported, .nilSlice "[]int")]))))
      = Translate (some (.ptr "***T" (.ptr "**T" (.ptr "*T"
        (.struct "T" [(Vis.unexported, .leaf "string" "string" "a"),
          (Vis.exported, .nilSlice "[]int")]))))) ∧
    -- a map of maps and a map of pointers
    observe 60 12 (.ptr "*S" (.struct "S" [
        (Vis.exported, .map "map[string]map[string][]int" [
          (⟨"a", true⟩, .nilMap "map[string][]int"),
          (⟨"b", true⟩, .map "map[string][]int" [(⟨"c", true⟩, .nilSlice "[]int")])]),
        (Vis.exported, .map "map[string]*T" [(⟨"a", true⟩, .nilPtr "*T"),
          (⟨"b", true⟩, .ptr "*T" (.struct "T" [(Vis.exported, .nilSlice "[]int")]))])]))
      = Translate (some (.ptr "*S" (.struct "S" [
        (Vis.exported, .map "map[string]map[string][]int" [
          (⟨"a", true⟩, .nilMap "map[string][]int"),
          (⟨"b", true⟩, .map "map[string][]int" [(⟨"c", true⟩, .nilSlice "[]int")])]),
        (Vis.exported, .map "map[string]*T" [(⟨"a", true⟩, .nilPtr "*T"),
          (⟨"b", true⟩, .ptr "*T" (.struct "T" [(Vis.exported, .nilSlice "[]int")]))])]))) ∧
    -- an interface holding a pointer, an interface holding a nil slice
    observe 60 12 (.ptr "*S" (.struct "S" [
        (Vis.exported, .iface "interface {}"
          (.ptr "*T" (.struct "T" [(Vis.exported, .nilSlice "[]int")]))),
        (Vis.exported, .iface "interface {}" (.nilSlice "[]int")),
        (Vis.exported, .iface "interface {}" (.nilPtr "*T"))]))
      = Translate (some (.ptr "*S" (.struct "S" [
        (Vis.exported, .iface "interface {}"
          (.ptr "*T" (.struct "T" [(Vis.exported, .nilSlice "[]int")]))),
        (Vis.exported, .iface "interface {}" (.nilSlice "[]int")),
        (Vis.exported, .iface "interface {}" (.nilPtr "*T"))]))) ∧
    -- a value read through an unexported field that cannot be assigned
    observe 60 12 (.ptr "*S" (.struct "S" [(Vis.unexported, .iface "interface {}"
        (.leaf "int" "int" "1"))]))
      = Translate (some (.ptr "*S" (.struct "S" [(Vis.unexported, .iface "interface {}"
        (.leaf "int" "int" "1"))]))) ∧
    -- a map read through an unexported interface field
    observe 60 12 (.ptr "*S" (.struct "S" [(Vis.unexported, .iface "interface {}"
        (.map "map[string]int" [(⟨"a", true⟩, .leaf "int" "int" "1")]))]))
      = Translate (some (.ptr "*S" (.struct "S" [(Vis.unexported, .iface "interface {}"
        (.map "map[string]int" [(⟨"a", true⟩, .leaf "int" "int" "1")]))]))) := by
  refine ⟨rfl, rfl, rfl, rfl, rfl, rfl, rfl, rfl⟩

/-! ## C3, continued: `rebuilt` where nothing is recovered -/

theorem isError_false_of_exportedOnly {v : Val} (h : exportedOnly v = true) :
    (translateRecursive Flag.clear Flag.clear v).isError = false := by
  have := (translateRecursive_exportedOnly v h).1
  cases hr : translateRecursive Flag.clear Flag.clear v with
  | ok r => rfl
  | error m => exact absurd hr (this m)
  | panic m => rfl

theorem rebuiltFields_eq_norm (fs : List (Vis × Val))
    (ih : ∀ f ∈ fs, exportedOnly f.2 = true → ∀ r,
      rebuilt Flag.clear Flag.clear f.2 r = true → r = norm f.2)
    (hexp : exportedOnlyFields fs = true) :
    ∀ fs', rebuiltFields Flag.clear Flag.clear fs fs' = true → fs' = normFields fs := by
  induction fs with
  | nil => intro fs' h; simpa [rebuiltFields, normFields] using h
  | cons f fs ihl =>
    obtain ⟨vis, v⟩ := f
    intro fs' h
    simp only [exportedOnlyFields, Bool.and_eq_true, decide_eq_true_eq] at hexp
    obtain ⟨⟨rfl, hv⟩, hrest⟩ := hexp
    cases fs' with
    | nil => simp [rebuiltFields] at h
    | cons f' fs' =>
      obtain ⟨vis', v'⟩ := f'
      simp only [rebuiltFields, Flag.field_clear_exported, isError_false_of_exportedOnly hv,
        Bool.false_eq_true, if_false, Bool.and_eq_true, decide_eq_true_eq] at h
      obtain ⟨⟨rfl, h1⟩, h2⟩ := h
      rw [ih (Vis.exported, v) (List.mem_cons_self _ _) hv v' h1,
        ihl (fun f hf => ih f (List.mem_cons_of_mem _ hf)) hrest fs' h2]
      rfl

theorem rebuiltElems_eq_norm (vs : List Val)
    (ih : ∀ v ∈ vs, exportedOnly v = true → ∀ r,
      rebuilt Flag.clear Flag.clear v r = true → r = norm v)
    (hexp : exportedOnlyElems vs = true) :
    ∀ vs', rebuiltElems Flag.clear Flag.clear vs vs' = true → vs' = normElems vs := by
  induction vs with
  | nil => intro vs' h; simpa [rebuiltElems, normElems] using h
  | cons v vs ihl =>
    intro vs' h
    simp only [exportedOnlyElems, Bool.and_eq_true] at hexp
    obtain ⟨hv, hrest⟩ := hexp
    cases vs' with
    | nil => simp [rebuiltElems] at h
    | cons v' vs' =>
      simp only [rebuiltElems, isError_false_of_exportedOnly hv,
        Bool.false_eq_true, if_false, Bool.and_eq_true] at h
      obtain ⟨h1, h2⟩ := h
      rw [ih v (List.mem_cons_self _ _) hv v' h1,
        ihl (fun f hf => ih f (List.mem_cons_of_mem _ hf)) hrest vs' h2]
      rfl

theorem rebuiltEntries_eq_norm (es : List (Key × Val))
    (ih : ∀ e ∈ es, exportedOnly e.2 = true → ∀ r,
      rebuilt Flag.clear Flag.clear e.2 r = true → r = norm e.2)
    (hexp : exportedOnlyEntries es = true) :
    ∀ es', rebuiltEntries Flag.clear es es' = true → es' = normEntries es := by
  induction es with
  | nil => intro es' h; simpa [rebuiltEntries, normEntries] using h
  | cons e es ihl =>
    obtain ⟨k, v⟩ := e
    intro es' h
    simp only [exportedOnlyEntries, Bool.and_eq_true] at hexp
    obtain ⟨hv, hrest⟩ := hexp
    cases es' with
    | nil => simp [rebuiltEntries] at h
    | cons e' es' =>
      obtain ⟨k', v'⟩ := e'
      simp only [rebuiltEntries, Flag.ro_clear, isError_false_of_exportedOnly hv,
        Bool.false_eq_true, if_false, Bool.and_eq_true, decide_eq_true_eq] at h
      obtain ⟨⟨rfl, h1⟩, h2⟩ := h
      rw [ih (k, v) (List.mem_cons_self _ _) hv v' h1,
        ihl (fun f hf => ih f (List.mem_cons_of_mem _ hf)) hrest es' h2]
      rfl

/-- Where no struct has an unexported field nothing is recovered, and the only
value that is `rebuilt` from `v` is `norm v`. -/
theorem rebuilt_eq_norm (v : Val) :
    exportedOnly v = true → ∀ r, rebuilt Flag.clear Flag.clear v r = true → r = norm v := by
  induction v using Val.induct with
  | leaf k t d =>
    intro _ r h
    cases r <;> simp [rebuilt] at h
    obtain ⟨⟨rfl, rfl⟩, rfl⟩ := h
    rfl
  | nilPtr t =>
    intro _ r h
    cases r <;> simp [rebuilt] at h
    subst h; rfl
  | ptr t e ih =>
    intro hexp r h
    simp only [exportedOnly] at hexp
    cases r <;> simp only [rebuilt, Bool.false_eq_true] at h
    rename_i t' e'
    simp only [isError_false_of_exportedOnly hexp, Bool.false_eq_true, if_false,
      Bool.and_eq_true, beq_iff_eq] at h
    obtain ⟨rfl, h1⟩ := h
    rw [ih hexp e' h1]; rfl
  | nilIface t => intro _ r h; simp [rebuilt] at h
  | iface t held ih =>
    intro hexp r h
    simp only [exportedOnly] at hexp
    cases r <;> simp only [rebuilt, Bool.false_eq_true] at h
    rename_i t' e'
    simp only [Flag.ro_clear, Bool.and_eq_true, beq_iff_eq] at h
    obtain ⟨rfl, h1⟩ := h
    rw [ih hexp e' h1]; rfl
  | struct t fs ih =>
    intro hexp r h
    simp only [exportedOnly] at hexp
    cases r <;> simp only [rebuilt, Bool.false_eq_true] at h
    rename_i t' fs'
    simp only [Bool.and_eq_true, beq_iff_eq] at h
    obtain ⟨rfl, h1⟩ := h
    rw [rebuiltFields_eq_norm fs ih hexp fs' h1]; rfl
  | array t es _ => intro _ r h; simp [rebuilt] at h
  | nilSlice t =>
    intro _ r h
    cases r <;> simp only [rebuilt, Bool.false_eq_true] at h
    rename_i t' es' c'
    cases es' <;> simp only [Bool.false_eq_true, Bool.and_eq_true, beq_iff_eq] at h
    obtain ⟨rfl, rfl⟩ := h
    rfl
  | slice t es c ih =>
    intro hexp r h
    simp only [exportedOnly] at hexp
    cases r <;> simp only [rebuilt, Bool.false_eq_true] at h
    rename_i t' es' c'
    simp only [Flag.ro_clear, Bool.and_eq_true, beq_iff_eq] at h
    obtain ⟨⟨rfl, rfl⟩, h1⟩ := h
    rw [rebuiltElems_eq_norm es ih hexp es' h1]; rfl
  | nilMap t =>
    intro _ r h
    cases r <;> simp only [rebuilt, Bool.false_eq_true] at h
    rename_i t' es'
    cases es' <;> simp only [Bool.false_eq_true, beq_iff_eq] at h
    subst h
    rfl
  | map t es ih =>
    intro hexp r h
    simp only [exportedOnly] at hexp
    cases r <;> simp only [rebuilt, Bool.false_eq_true] at h
    rename_i t' es'
    simp only [Bool.and_eq_true, beq_iff_eq] at h
    obtain ⟨rfl, h1⟩ := h
    rw [rebuiltEntries_eq_norm es ih hexp es' h1]; rfl

end Runtime
